import Mathlib

/-!
IAPlatformOps: line framer, POSIX argument tokenizer, exit status, scheduler, mapping
registry, file I/O, native open, executable paths.

A shallow embedding of `src/cpp/process.cpp`, `src/cpp/async.cpp` and `src/cpp/file.cpp`.
The definitions come first, the theorems follow.

* A C++ `char` string is the list of its characters (`List Char`).
* A `std::function` callback that only observes its argument is modelled by the
  list of the arguments it was invoked with, oldest first.
-/

namespace ia

/-! ## `LineBuffer` (process.cpp, lines 26-79) -/

/-- The range `data + start` of length `len`, as in `StringView(data + start, len)`. -/
def slice (data : List Char) (start len : Nat) : List Char :=
  (data.drop start).take len

/-- The `LineBuffer` struct: the accumulator; the callback is the output trace. -/
structure LineBuffer where
  m_accumulator : List Char
  deriving DecidableEq, Repr

/-- The local state of the `for` loop of `LineBuffer::append`. -/
structure AppendLoop where
  start : Nat
  m_accumulator : List Char
  calls : List (List Char)
  deriving DecidableEq, Repr

/-- The `for (i = 0; i < size; ++i)` loop of `LineBuffer::append`. The first argument
bounds the number of iterations; `size` iterations always suffice because `i` grows
by at least one per iteration. -/
def LineBuffer.append_loop (data : List Char) :
    Nat → Nat → AppendLoop → AppendLoop
  | 0, _, st => st
  | fuel + 1, i, st =>
    if i < data.length then
      if data.getD i default = '\n' ∨ data.getD i default = '\r' then
        let st1 : AppendLoop :=
          if st.m_accumulator ≠ [] then
            let acc := st.m_accumulator ++ slice data st.start (i - st.start)
            { st with
              m_accumulator := [],
              calls := if acc ≠ [] then st.calls ++ [acc] else st.calls }
          else
            { st with
              calls := if i > st.start then st.calls ++ [slice data st.start (i - st.start)]
                       else st.calls }
        let i1 :=
          if data.getD i default = '\r' ∧ i + 1 < data.length ∧ data.getD (i + 1) default = '\n'
          then i + 1 else i
        LineBuffer.append_loop data fuel (i1 + 1) { st1 with start := i1 + 1 }
      else
        LineBuffer.append_loop data fuel (i + 1) st
    else st

/-- `LineBuffer::append(data, size)`: the new buffer and the callback invocations. -/
def LineBuffer.append (b : LineBuffer) (data : List Char) : LineBuffer × List (List Char) :=
  let st := LineBuffer.append_loop data data.length 0
    { start := 0, m_accumulator := b.m_accumulator, calls := [] }
  ({ m_accumulator :=
      if st.start < data.length then
        st.m_accumulator ++ slice data st.start (data.length - st.start)
      else st.m_accumulator },
   st.calls)

/-- `LineBuffer::flush()`: the new buffer and the callback invocations. -/
def LineBuffer.flush (b : LineBuffer) : LineBuffer × List (List Char) :=
  if b.m_accumulator ≠ [] then ({ m_accumulator := [] }, [b.m_accumulator])
  else (b, [])

/-- A call on a `LineBuffer`. -/
inductive LineOp where
  | append (data : List Char)
  | flush
  deriving DecidableEq, Repr

/-- One call on a `LineBuffer`. -/
def LineBuffer.apply (b : LineBuffer) : LineOp → LineBuffer × List (List Char)
  | .append data => b.append data
  | .flush => b.flush

/-- A sequence of calls on a `LineBuffer`: after every call, the accumulator and what
the call passed to the callback; the last component is the final buffer. -/
def LineBuffer.run (b : LineBuffer) : List LineOp → List (LineBuffer × List (List Char))
  | [] => []
  | op :: ops => b.apply op :: LineBuffer.run (b.apply op).1 ops

/-- The terminator test of `LineBuffer::append`: `'\n'` or `'\r'`. -/
def isTerminator (c : Char) : Bool := c == '\n' || c == '\r'

/-- The non-empty pieces of `d` split at every character satisfying `p`, in order. -/
def nonEmptyPieces (p : Char → Bool) (d : List Char) : List (List Char) :=
  (d.splitOnP p).filter (fun piece => !piece.isEmpty)


/-! ### Auxiliary definitions for the proofs about the line framer -/

/-- Lines emitted by a character-at-a-time framer whose pending line is `cur`. -/
def frameLines (cur : List Char) : List Char → List (List Char)
  | [] => []
  | c :: rest =>
    if c = '\n' ∨ c = '\r' then (if cur ≠ [] then [cur] else []) ++ frameLines [] rest
    else frameLines (cur ++ [c]) rest

/-- Pending line left by the character-at-a-time framer. -/
def frameRest (cur : List Char) : List Char → List Char
  | [] => cur
  | c :: rest =>
    if c = '\n' ∨ c = '\r' then frameRest [] rest else frameRest (cur ++ [c]) rest


/-- The non-empty pieces of `cur ++ l` split at the characters of `l` satisfying `p`. -/
def piecesFrom (p : Char → Bool) (cur l : List Char) : List (List Char) :=
  ((l.splitOnP p).modifyHead (cur ++ ·)).filter (fun piece => !piece.isEmpty)

/-! ## POSIX argument tokenization (process.cpp, lines 266-320)

The loop is written once for characters that may carry extra data: `ch` reads the
`char` out of an element. With `ch := id` it is the source loop over `args`; with
positions attached it also records where every character of a token came from. -/

/-- The local variables `arg_storage`, `current_token`, `in_quotes`, `is_escaped`. -/
structure TokenizerState (α : Type) where
  arg_storage : List (List α)
  current_token : List α
  in_quotes : Bool
  is_escaped : Bool
  deriving DecidableEq, Repr

/-- The variables before the loop: no token, `in_quotes = false`, `is_escaped = false`. -/
def TokenizerState.init (α : Type) : TokenizerState α :=
  { arg_storage := [], current_token := [], in_quotes := false, is_escaped := false }

/-- One iteration of `for (const char c : args)`. -/
def tokenize_step {α : Type} (ch : α → Char) (st : TokenizerState α) (x : α) :
    TokenizerState α :=
  if st.is_escaped then
    { st with current_token := st.current_token ++ [x], is_escaped := false }
  else if ch x = '\\' then
    { st with is_escaped := true }
  else if ch x = '"' then
    { st with in_quotes := !st.in_quotes }
  else if ch x = ' ' ∧ st.in_quotes = false then
    if st.current_token.isEmpty = false then
      { st with arg_storage := st.arg_storage ++ [st.current_token], current_token := [] }
    else st
  else
    { st with current_token := st.current_token ++ [x] }

/-- The whole loop, from the state `st`. -/
def tokenize_loop {α : Type} (ch : α → Char) (st : TokenizerState α) (args : List α) :
    TokenizerState α :=
  args.foldl (tokenize_step ch) st

/-- The `if (!current_token.empty()) arg_storage.push_back(current_token)` after the loop. -/
def tokenize_finish {α : Type} (st : TokenizerState α) : List (List α) :=
  if st.current_token.isEmpty = false then st.arg_storage ++ [st.current_token]
  else st.arg_storage

/-- The tokens of `args`, over characters carrying extra data. -/
def tokenize_with {α : Type} (ch : α → Char) (args : List α) : List (List α) :=
  tokenize_finish (tokenize_loop ch (TokenizerState.init α) args)

/-- The tokens `arg_storage` that `spawn_process_posix` parses from `args`. -/
def tokenize_args (args : List Char) : List (List Char) :=
  tokenize_with id args

/-- The `argv` passed to `execvp`, without its terminating `nullptr`. -/
def build_argv (command args : List Char) : List (List Char) :=
  command :: tokenize_args args

/-- The tokens of `args` with every character paired with its index in `args`. -/
def tokenize_positions (args : List Char) : List (List (Nat × Char)) :=
  tokenize_with Prod.snd args.enum

/-- The scanner flags `(in_quotes, is_escaped)` when the character at index `i` is read. -/
def flags_at (args : List Char) (i : Nat) : Bool × Bool :=
  let st := tokenize_loop id (TokenizerState.init Char) (args.take i)
  (st.in_quotes, st.is_escaped)

/-- The character at index `i` of `args` is read outside quotes and not escaped. -/
def plain_at (args : List Char) (i : Nat) : Prop :=
  flags_at args i = (false, false)

instance (args : List Char) (i : Nat) : Decidable (plain_at args i) := by
  unfold plain_at; infer_instance

/-- The whitespace characters: space, tab, newline. -/
def isWhitespace (c : Char) : Bool := c == ' ' || c == '\t' || c == '\n'

/-- The separator test of the tokenizer outside quotes: the space character. -/
def isSpace (c : Char) : Bool := c == ' '

/-- Every character of `t` preceded by a backslash. -/
def escape_all (t : List Char) : List Char :=
  t.flatMap (fun c => ['\\', c])

/-- What holds of a positioned character `x` found in a token of `args`: it is the
character at its index, and it was either read escaped, or it is neither a backslash nor
a double quote and, when it is a space, it was read inside quotes. -/
def TokenCharOk (args : List Char) (x : Nat × Char) : Prop :=
  args[x.1]? = some x.2 ∧
  ((flags_at args x.1).2 = true ∨
    (x.2 ≠ '\\' ∧ x.2 ≠ '"' ∧ (x.2 = ' ' → (flags_at args x.1).1 = true)))

/-- Every character held by the tokenizer state satisfies `TokenCharOk`. -/
def TokensOk (args : List Char) (ts : TokenizerState (Nat × Char)) : Prop :=
  (∀ x ∈ ts.current_token, TokenCharOk args x) ∧
  (∀ tok ∈ ts.arg_storage, ∀ x ∈ tok, TokenCharOk args x)

/-- The tokenizer state with the extra data of its characters erased. -/
def TokenizerState.erase {α : Type} (ch : α → Char) (st : TokenizerState α) :
    TokenizerState Char :=
  { arg_storage := st.arg_storage.map (List.map ch),
    current_token := st.current_token.map ch,
    in_quotes := st.in_quotes,
    is_escaped := st.is_escaped }

/-! ## `ProcessOps::spawn_process_posix` (process.cpp, lines 241-359)

The system calls are inputs: what `pipe`, `fork`, `execvp`, `read` and `waitpid` return.
The macros `WIFEXITED` and `WEXITSTATUS` of `<sys/wait.h>` are parameters of the function.
-/

/-- What the system calls made by one `spawn_process_posix` call return. -/
structure PosixCalls where
  /-- The set of open descriptors before the call. -/
  open_fds : List Nat
  /-- The two descriptors stored by `pipe`, or `none` when `pipe` returns `-1`. -/
  pipe_fds : Option (Nat × Nat)
  /-- The return value of `fork`: `-1`, `0` in the child, the child's pid in the parent. -/
  fork_pid : Int
  /-- Whether `execvp` replaces the process image. -/
  execvp_ok : List (List Char) → Bool
  /-- The chunks returned by the successive `read` calls with `count > 0`. -/
  reads : List (List Char)
  /-- The wait status of the child (an `i32`): what `waitpid` stores when it succeeds. -/
  status : Int
  /-- Whether `waitpid` returns the pid, having stored `status`. Otherwise it returns `-1`
  and stores nothing: with `ECHILD` when `SIGCHLD` is ignored and the system has reaped
  the child, or with `EINTR`. The code does not look at the return value. -/
  waitpid_ok : Bool
  /-- What the local `status`, declared without an initialiser (`Mut<i32> status;`), holds
  when `waitpid` has stored nothing: an indeterminate value. -/
  status_uninit : Int

/-- How a call of `spawn_process_posix` ends. -/
inductive PosixOutcome where
  /-- The `return fail(...)` statements. -/
  | failed (message : String) (open_fds : List Nat)
  /-- The `return` statements of the parent branch, with the lines passed to the callback. -/
  | returned (value : Int) (lines : List (List Char)) (open_fds : List Nat)
  /-- The child branch: `execvp` took over with `argv`. -/
  | child_exec (argv : List (List Char))
  /-- The child branch: `_exit(code)`. -/
  | child_exit (code : Nat)
  deriving DecidableEq, Repr

/-- The value of the local `status` after `waitpid(pid, &status, 0)`, which is what the
macros `WIFEXITED` and `WEXITSTATUS` are applied to. -/
def PosixCalls.status_read (sys : PosixCalls) : Int :=
  if sys.waitpid_ok then sys.status else sys.status_uninit

/-- The read loop `while ((count = read(...)) > 0) line_buf.append(...)`, then `flush`:
the lines passed to the callback. -/
def read_lines : LineBuffer → List (List Char) → List (List Char)
  | b, [] => b.flush.2
  | b, chunk :: chunks => (b.append chunk).2 ++ read_lines (b.append chunk).1 chunks

/-- `ProcessOps::spawn_process_posix` under `IA_PLATFORM_UNIX`. -/
def spawn_process_posix (WIFEXITED : Int → Bool) (WEXITSTATUS : Int → Int)
    (command args : List Char) (sys : PosixCalls) : PosixOutcome :=
  match sys.pipe_fds with
  | none => .failed "Failed to create pipe" sys.open_fds
  | some (fd0, fd1) =>
    let fds := sys.open_fds ++ [fd0, fd1]
    if sys.fork_pid = -1 then
      .failed "Failed to fork process" fds
    else if sys.fork_pid = 0 then
      let argv := build_argv command args
      if sys.execvp_ok argv then .child_exec argv else .child_exit 127
    else
      let fds := fds.erase fd1
      let lines := read_lines { m_accumulator := [] } sys.reads
      let fds := fds.erase fd0
      let status := sys.status_read
      if WIFEXITED status then .returned (WEXITSTATUS status) lines fds
      else .returned (-1) lines fds

/-- `ProcessOps::spawn_process_sync` with `env::IS_WINDOWS == false`. -/
def spawn_process_sync (WIFEXITED : Int → Bool) (WEXITSTATUS : Int → Int)
    (command args : List Char) (sys : PosixCalls) : PosixOutcome :=
  spawn_process_posix WIFEXITED WEXITSTATUS command args sys

/-! ### The wait status on Linux

`<sys/wait.h>` is not part of the repository. These are the glibc encodings, used to
instantiate the parameters of `spawn_process_posix`. -/

/-- The glibc `WIFEXITED(status)`: `(status & 0x7f) == 0`. -/
def linux_WIFEXITED (status : Int) : Bool := status % 128 == 0

/-- The glibc `WEXITSTATUS(status)`: `(status & 0xff00) >> 8`. -/
def linux_WEXITSTATUS (status : Int) : Int := (status / 256) % 256

/-- The status `waitpid` stores for a child that called `_exit(code)`: the low eight
bits of `code`, shifted left by eight. -/
def linux_exit_status (code : Nat) : Int := ((code % 256) * 256 : Nat)

/-- The status `waitpid` stores for a child killed by the signal `sig` (1 to 127). -/
def linux_signal_status (sig : Nat) : Int := (sig % 128 : Nat)

/-- The value the parent returns. -/
def PosixOutcome.value? : PosixOutcome → Option Int
  | .returned v _ _ => some v
  | _ => none

/-! ## `AsyncOps` scheduler (async.cpp)

The static members of `AsyncOps` and the `Schedule` objects form one state. A `Schedule`
is identified by its address, a callable by an identifier. The `i32` counters are
unbounded integers here, which agrees with the code while fewer than `2^31` tasks of one
schedule are outstanding.

Threads are not named: a task that some thread has popped sits in `taken` until that
thread invokes it and in `running` until that thread fires its completion edge, so any
number of workers and draining threads may hold tasks at once. The lists `submitted`,
`dequeued`, `invoked`, `completed` and `cancelled` record history; no operation reads them.
-/

/-- `AsyncOps::TaskTag` (`u64`). -/
abbrev TaskTag := Nat

/-- `AsyncOps::WorkerId` (`u16`). -/
abbrev WorkerId := Nat

/-- The address of a `Schedule` object. -/
abbrev ScheduleId := Nat

/-- The identity of a submitted callable. -/
abbrev TaskId := Nat

/-- `AsyncOps::Priority`. -/
inductive Priority where
  | High
  | Normal
  deriving DecidableEq, Repr

/-- `AsyncOps::ScheduledTask`. -/
structure ScheduledTask where
  tag : TaskTag
  schedule_handle : ScheduleId
  task : TaskId
  deriving DecidableEq, Repr

/-- The scheduler state. -/
structure Scheduler where
  s_schedule_workers : List WorkerId
  s_high_priority_queue : List ScheduledTask
  s_normal_priority_queue : List ScheduledTask
  /-- The `counter` of every `Schedule`. -/
  counter : ScheduleId → Int
  /-- Tasks popped by a thread whose callable has not been invoked yet. -/
  taken : List ScheduledTask
  /-- Tasks whose callable was invoked and whose completion edge has not fired yet. -/
  running : List ScheduledTask
  submitted : List ScheduledTask
  dequeued : List ScheduledTask
  invoked : List ScheduledTask
  completed : List ScheduledTask
  cancelled : List ScheduledTask

/-- The scheduler right after `initialize_scheduler`: the workers exist, nothing is queued
and every counter is `0`. -/
def Scheduler.init (workers : List WorkerId) : Scheduler :=
  { s_schedule_workers := workers,
    s_high_priority_queue := [], s_normal_priority_queue := [],
    counter := fun _ => 0, taken := [], running := [],
    submitted := [], dequeued := [], invoked := [], completed := [], cancelled := [] }

/-- `counter.fetch_add(1)` on the schedule `schedule`. -/
def Scheduler.fetch_add (s : Scheduler) (schedule : ScheduleId) : Scheduler :=
  { s with counter := Function.update s.counter schedule (s.counter schedule + 1) }

/-- `counter.fetch_sub(1)` on the schedule `schedule`. -/
def Scheduler.fetch_sub (s : Scheduler) (schedule : ScheduleId) : Scheduler :=
  { s with counter := Function.update s.counter schedule (s.counter schedule - 1) }

/-- `AsyncOps::schedule_task` after its `ensure`: increment the counter, then append the
task to the queue of its priority. -/
def schedule_task (s : Scheduler) (task : TaskId) (tag : TaskTag) (schedule : ScheduleId)
    (priority : Priority) : Scheduler :=
  let s1 := s.fetch_add schedule
  let t : ScheduledTask := { tag := tag, schedule_handle := schedule, task := task }
  match priority with
  | .High =>
    { s1 with s_high_priority_queue := s1.s_high_priority_queue ++ [t],
              submitted := s1.submitted ++ [t] }
  | .Normal =>
    { s1 with s_normal_priority_queue := s1.s_normal_priority_queue ++ [t],
              submitted := s1.submitted ++ [t] }

/-- The erase loop of `cancel_tasks_of_tag` over one queue: the entries kept, the
counters, and the entries erased. -/
def cancel_loop (tag : TaskTag) :
    List ScheduledTask → (ScheduleId → Int) → List ScheduledTask × (ScheduleId → Int) × List ScheduledTask
  | [], counter => ([], counter, [])
  | t :: rest, counter =>
    if t.tag = tag then
      let r := cancel_loop tag rest
        (Function.update counter t.schedule_handle (counter t.schedule_handle - 1))
      (r.1, r.2.1, t :: r.2.2)
    else
      let r := cancel_loop tag rest counter
      (t :: r.1, r.2.1, r.2.2)

/-- `AsyncOps::cancel_tasks_of_tag`: the high-priority queue, then the normal one. -/
def cancel_tasks_of_tag (s : Scheduler) (tag : TaskTag) : Scheduler :=
  let h := cancel_loop tag s.s_high_priority_queue s.counter
  let n := cancel_loop tag s.s_normal_priority_queue h.2.1
  { s with s_high_priority_queue := h.1, s_normal_priority_queue := n.1,
           counter := n.2.1, cancelled := s.cancelled ++ h.2.2 ++ n.2.2 }

/-- The critical section shared by `schedule_worker_loop` (lines 209-220) and
`wait_for_schedule_completion` (lines 153-164): pop the front of the high-priority queue,
else the front of the normal queue; `none` is `found_task == false`. -/
def pop_task (s : Scheduler) : Option (ScheduledTask × Scheduler) :=
  match s.s_high_priority_queue with
  | t :: rest => some (t, { s with s_high_priority_queue := rest })
  | [] =>
    match s.s_normal_priority_queue with
    | t :: rest => some (t, { s with s_normal_priority_queue := rest })
    | [] => none

/-- A thread has popped `t` into its local `task`. -/
def Scheduler.take (s : Scheduler) (t : ScheduledTask) : Scheduler :=
  { s with taken := t :: s.taken, dequeued := s.dequeued ++ [t] }

/-- The thread holding `t` calls `task.task(worker_id)`. -/
def Scheduler.invoke (s : Scheduler) (t : ScheduledTask) : Scheduler :=
  { s with taken := s.taken.erase t, running := t :: s.running, invoked := s.invoked ++ [t] }

/-- The completion edge of `t`: `task.schedule_handle->counter.fetch_sub(1)`. -/
def Scheduler.complete (s : Scheduler) (t : ScheduledTask) : Scheduler :=
  { s.fetch_sub t.schedule_handle with
    running := s.running.erase t, completed := s.completed ++ [t] }

/-- The steps of the scheduler. -/
inductive Action where
  | schedule_task (task : TaskId) (tag : TaskTag) (schedule : ScheduleId) (priority : Priority)
  /-- A worker or a draining thread runs the critical section. -/
  | dequeue
  | invoke (t : ScheduledTask)
  | complete (t : ScheduledTask)
  | cancel_tasks_of_tag (tag : TaskTag)
  deriving DecidableEq, Repr

/-- One step; `none` when the step cannot be taken: `schedule_task` aborts in its `ensure`
on an empty pool, only a task held by a thread can be invoked, and only an invoked one
can complete. A `schedule_task` step is the whole call, with no other thread between its
increment and its critical section; `Concurrent.step` below takes the two apart. -/
def Scheduler.step (s : Scheduler) : Action → Option Scheduler
  | .schedule_task task tag schedule priority =>
    if s.s_schedule_workers.isEmpty then none
    else some (schedule_task s task tag schedule priority)
  | .dequeue =>
    match pop_task s with
    | some (t, s1) => some (s1.take t)
    | none => some s
  | .invoke t => if t ∈ s.taken then some (s.invoke t) else none
  | .complete t => if t ∈ s.running then some (s.complete t) else none
  | .cancel_tasks_of_tag tag => some (cancel_tasks_of_tag s tag)

/-- A run: the steps taken one after the other. -/
def Scheduler.run (s : Scheduler) : List Action → Option Scheduler
  | [] => some s
  | a :: rest => (s.step a).bind (fun s1 => s1.run rest)

/-- How `wait_for_schedule_completion` ends when no other thread runs. -/
inductive WaitOutcome where
  /-- The `ensure` failed. -/
  | aborted
  /-- The loop condition `counter > 0` was false. -/
  | returned (s : Scheduler)
  /-- The thread sleeps in `counter.wait` and no other thread exists to wake it. -/
  | blocked (s : Scheduler)

/-- The `while (schedule->counter.load() > 0)` loop of `wait_for_schedule_completion` when
only the calling thread runs and the callables do not call the scheduler. The first
argument bounds the number of iterations; `none` when it is used up. -/
def wait_loop (schedule : ScheduleId) : Nat → Scheduler → Option WaitOutcome
  | 0, _ => none
  | fuel + 1, s =>
    if s.counter schedule > 0 then
      match pop_task s with
      | some (t, s1) => wait_loop schedule fuel (((s1.take t).invoke t).complete t)
      | none => some (.blocked s)
    else some (.returned s)

/-- `AsyncOps::wait_for_schedule_completion` when only the calling thread runs. Every
iteration that does not end the loop pops a task, so one more iteration than there are
queued tasks is enough. -/
def wait_for_schedule_completion (s : Scheduler) (schedule : ScheduleId) : Option WaitOutcome :=
  if s.s_schedule_workers.isEmpty then some .aborted
  else wait_loop schedule
    (s.s_high_priority_queue.length + s.s_normal_priority_queue.length + 1) s

/-- The number of entries of `l` that reference the schedule `schedule`. -/
def count_of (schedule : ScheduleId) (l : List ScheduledTask) : Nat :=
  l.countP (fun t => t.schedule_handle == schedule)

/-- The counter of every schedule is the number of its tasks that are queued or held by
a thread; and every submitted task is in exactly one place. -/
structure Scheduler.Inv (s : Scheduler) : Prop where
  counter_eq : ∀ schedule, s.counter schedule =
    (count_of schedule s.s_high_priority_queue + count_of schedule s.s_normal_priority_queue
      + count_of schedule s.taken + count_of schedule s.running : Nat)
  submitted_eq : ∀ t, s.submitted.count t =
    s.s_high_priority_queue.count t + s.s_normal_priority_queue.count t
      + s.dequeued.count t + s.cancelled.count t
  dequeued_eq : ∀ t, s.dequeued.count t = s.taken.count t + s.invoked.count t
  invoked_eq : ∀ t, s.invoked.count t = s.running.count t + s.completed.count t

/-- Submitting the tasks of a list one after the other on the schedule `schedule`. -/
def schedule_all (s : Scheduler) (schedule : ScheduleId) :
    List (TaskId × TaskTag × Priority) → Scheduler
  | [] => s
  | (task, tag, priority) :: rest =>
    schedule_all (schedule_task s task tag schedule priority) schedule rest

/-- The entry that `schedule_task` queues for a submission on the schedule `schedule`. -/
def entry_of (schedule : ScheduleId) (x : TaskId × TaskTag × Priority) : ScheduledTask :=
  { tag := x.2.1, schedule_handle := schedule, task := x.1 }

/-! ### Queues by priority and the history of a run -/

/-- The queue of a priority. -/
def Scheduler.queue (s : Scheduler) : Priority → List ScheduledTask
  | .High => s.s_high_priority_queue
  | .Normal => s.s_normal_priority_queue

/-- The task that the critical section `pop_task` takes from the queue of priority `p`
in the state `s`, as a list of at most one task: the front of the high-priority queue,
and the front of the normal queue only when the high-priority queue is empty. -/
def popped_from (p : Priority) (s : Scheduler) : List ScheduledTask :=
  match p with
  | .High => s.s_high_priority_queue.head?.toList
  | .Normal =>
    if s.s_high_priority_queue.isEmpty then s.s_normal_priority_queue.head?.toList else []

/-- The tasks submitted with priority `p` by the steps of a run, in order. -/
def submissions (p : Priority) : List Action → List ScheduledTask
  | [] => []
  | .schedule_task task tag schedule priority :: rest =>
    (if priority = p then [{ tag := tag, schedule_handle := schedule, task := task }] else [])
      ++ submissions p rest
  | _ :: rest => submissions p rest

/-- The tasks that the dequeue steps of a run from `s` take from the queue of priority
`p`, in order. -/
def pops (p : Priority) : Scheduler → List Action → List ScheduledTask
  | _, [] => []
  | s, a :: rest =>
    match s.step a with
    | none => []
    | some s1 =>
      (match a with
        | .dequeue => popped_from p s
        | _ => []) ++ pops p s1 rest

/-- Whether a step is a `cancel_tasks_of_tag`. -/
def Action.is_cancel : Action → Bool
  | .cancel_tasks_of_tag _ => true
  | _ => false

/-! ### `schedule_worker_loop` (async.cpp, lines 191-232)

One worker thread as a state machine over the scheduler state. Each step reads the stop
token once; `request_stop` by `terminate_scheduler` may come between any two steps. -/

/-- Where a worker is in `schedule_worker_loop`. -/
inductive WorkerPc where
  /-- About to evaluate `while (!stop_token.stop_requested())`. -/
  | loop_test
  /-- Holding the lock in `s_wake_condition.wait(lock, predicate)`. -/
  | waiting
  /-- Out of the critical section with `found_task == true` and the task in `task`. -/
  | running (t : ScheduledTask)
  /-- The function has returned. -/
  | exited
  deriving DecidableEq, Repr

/-- One step of a worker; `stop_requested` is what `stop_token.stop_requested()` returns
during the step. -/
def worker_step (stop_requested : Bool) (s : Scheduler) : WorkerPc → WorkerPc × Scheduler
  | .loop_test => if stop_requested then (.exited, s) else (.waiting, s)
  | .waiting =>
    if !s.s_high_priority_queue.isEmpty || !s.s_normal_priority_queue.isEmpty
        || stop_requested then
      if stop_requested && s.s_high_priority_queue.isEmpty
          && s.s_normal_priority_queue.isEmpty then
        (.exited, s)
      else
        match pop_task s with
        | some (t, s1) => (.running t, s1.take t)
        | none => (.loop_test, s)
    else (.waiting, s)
  | .running t => (.loop_test, (s.invoke t).complete t)
  | .exited => (.exited, s)

/-- Several steps of a worker, one per element of `stops`, each with the value of the
stop token during that step. -/
def worker_run : List Bool → WorkerPc × Scheduler → WorkerPc × Scheduler
  | [], st => st
  | stop :: rest, st => worker_run rest (worker_step stop st.2 st.1)

/-- A scheduler with one worker after `schedule_task(100, tag 5, schedule 7, Normal)` and
`schedule_task(101, tag 6, schedule 7, High)`; used to instantiate theorems. -/
def example_scheduler : Scheduler :=
  schedule_task (schedule_task (Scheduler.init [1]) 100 5 7 Priority.Normal) 101 6 7 Priority.High

/-! ### Pool initialisation and termination (async.cpp, lines 31-75 and 186-189) -/

/-- The worker count `initialize_scheduler` ends up with: for the argument `0` it is
computed from `hw_concurrency` (a `u32`) and cast to `u8`; any other argument is kept. -/
def effective_worker_count (worker_count hw_concurrency : Nat) : Nat :=
  if worker_count = 0 then
    let threads := 2
    let threads := if hw_concurrency > 2 then hw_concurrency - 2 else threads
    let threads := if threads > 255 then 255 else threads
    threads % 256
  else worker_count

/-- `AsyncOps::initialize_scheduler`: one worker per `i` in `0 .. worker_count - 1`, with
the id `static_cast<WorkerId>(i + 1)`, appended to the pool; it always returns success. -/
def initialize_scheduler (s : Scheduler) (worker_count hw_concurrency : Nat) :
    Except String Scheduler :=
  .ok { s with
    s_schedule_workers :=
      (List.range (effective_worker_count worker_count hw_concurrency)).foldl
        (fun workers i => workers ++ [(i + 1) % 65536]) s.s_schedule_workers }

/-- `AsyncOps::terminate_scheduler` once every worker has been joined: the pool is cleared. -/
def terminate_scheduler (s : Scheduler) : Scheduler :=
  { s with s_schedule_workers := [] }

/-- `AsyncOps::get_worker_count`: the pool size cast to `WorkerId` (`u16`). -/
def get_worker_count (s : Scheduler) : WorkerId :=
  s.s_schedule_workers.length % 65536

/-! ## The mapping registry (file.cpp, lines 30-60)

`s_mapped_files` maps a base pointer to a tuple of three machine words. Pointers and
words are natural numbers; the system calls made are recorded in order. -/

/-- The tuple `std::tuple<void *, void *, void *>` stored per mapping. -/
structure MappedHandles where
  /-- `std::get<0>`: the descriptor, stored as `(void *) ((u64) fd)`. -/
  h0 : Nat
  /-- `std::get<1>`: the mapped address. -/
  h1 : Nat
  /-- `std::get<2>`: the mapped size. -/
  h2 : Nat
  deriving DecidableEq, Repr

/-- `FileOps::s_mapped_files`: the entry of every pointer, `none` when it has none. -/
abbrev Registry := Nat → Option MappedHandles

/-- The release calls of `unmap_file` on POSIX. -/
inductive ReleaseCall where
  | munmap (addr size : Nat)
  | close (fd : Int)
  deriving DecidableEq, Repr

/-- The cast `(i32) ((u64) word)`: the low 32 bits, read as a signed integer. -/
def word_to_i32 (word : Nat) : Int :=
  if word % 2 ^ 32 < 2 ^ 31 then (word % 2 ^ 32 : Nat) else (word % 2 ^ 32 : Nat) - 2 ^ 32

/-- `FileOps::unmap_file` under `IA_PLATFORM_UNIX`: the registry afterwards and the
release calls made. -/
def unmap_file (s_mapped_files : Registry) (mapped_ptr : Nat) : Registry × List ReleaseCall :=
  match s_mapped_files mapped_ptr with
  | none => (s_mapped_files, [])
  | some handles =>
    let erased := Function.update s_mapped_files mapped_ptr none
    let fd := word_to_i32 handles.h0
    (erased, [ReleaseCall.munmap handles.h1 handles.h2]
      ++ (if fd ≠ -1 then [ReleaseCall.close fd] else []))

/-! ## Blocking file I/O (file.cpp, lines 217-290)

The C stream functions are not part of the repository. They are modelled as those of a
POSIX system, where the modes with and without `b` are the same (on Windows the modes
without `b` translate line ends; that build is not modelled here). A path names a regular
file, the null device or nothing; directories and other special files are left out. The
file system has room for every byte written, and a failing `fopen` changes nothing. A
byte, `char` or `u8`, is a `Char`. -/

/-- What a path names. -/
inductive Node where
  /-- A regular file: its bytes, and whether the process may open it for reading and for
  writing. -/
  | regular (data : List Char) (readable writable : Bool)
  /-- The null device `/dev/null`, open to every process for reading and writing: what is
  written is discarded, and a read finds the end of the file at once. -/
  | null_device
  deriving DecidableEq, Repr

/-- The part of a file system that `fopen` sees. -/
structure FileSystem where
  /-- What a path names; `none` when it names nothing. -/
  node : List Char → Option Node
  /-- The paths on which `open` fails before it looks at what the path names: a directory
  of the path is missing or may not be searched, or the process has no descriptor left. -/
  blocked : List Char → Bool
  /-- Whether the process may create a file at a path that names nothing. -/
  may_create : List Char → Bool
  /-- Whether the process may open for reading a file it has created (the file mode
  creation mask decides). -/
  created_readable : Bool
  /-- Whether the process may open again for writing a file it has created. -/
  created_writable : Bool

/-- The `errno` values that `fopen` sets in this model. `EACCES` also stands for the other
values that are not `EEXIST` or `ENOENT`; the code tests for `EEXIST` only. -/
inductive Errno where
  | ENOENT
  | EEXIST
  | EACCES
  deriving DecidableEq, Repr

/-- The mode strings the code passes to `fopen`. -/
inductive FopenMode where
  /-- The mode `"r"`. -/
  | r
  /-- The mode `"rb"`. -/
  | rb
  /-- The mode `"w"`. -/
  | w
  /-- The mode `"wx"`. -/
  | wx
  deriving DecidableEq, Repr

/-- A `FILE *`: the path it was opened on and the file position. -/
structure FILE where
  path : List Char
  pos : Nat
  deriving DecidableEq, Repr

/-- The file system in which `path` names `node`. -/
def FileSystem.put (fs : FileSystem) (path : List Char) (node : Node) : FileSystem :=
  { fs with node := Function.update fs.node path (some node) }

/-- The stream function `fopen`, which calls `open`. The path is resolved first. With
`"r"` the file must exist and be readable. With `"w"` an existing regular file must be
writable and is truncated to length zero, and a missing file is created. With `"wx"`
(`O_CREAT | O_EXCL`) the call fails with `EEXIST` when the path names anything, whatever
its permissions, and creates the file otherwise. -/
def fopen (fs : FileSystem) (path : List Char) : FopenMode → Except Errno (FILE × FileSystem)
  | .r | .rb =>
    if fs.blocked path then .error .EACCES
    else
      match fs.node path with
      | none => .error .ENOENT
      | some (.regular _ readable _) =>
        if readable then .ok ({ path := path, pos := 0 }, fs) else .error .EACCES
      | some .null_device => .ok ({ path := path, pos := 0 }, fs)
  | .w =>
    if fs.blocked path then .error .EACCES
    else
      match fs.node path with
      | none =>
        if fs.may_create path then
          .ok ({ path := path, pos := 0 },
               fs.put path (.regular [] fs.created_readable fs.created_writable))
        else .error .EACCES
      | some (.regular _ readable writable) =>
        if writable then .ok ({ path := path, pos := 0 }, fs.put path (.regular [] readable writable))
        else .error .EACCES
      | some .null_device => .ok ({ path := path, pos := 0 }, fs)
  | .wx =>
    if fs.blocked path then .error .EACCES
    else
      match fs.node path with
      | some _ => .error .EEXIST
      | none =>
        if fs.may_create path then
          .ok ({ path := path, pos := 0 },
               fs.put path (.regular [] fs.created_readable fs.created_writable))
        else .error .EACCES

/-- The bytes of the file behind a stream; the null device holds none. -/
def FILE.data (f : FILE) (fs : FileSystem) : List Char :=
  match fs.node f.path with
  | some (.regular data _ _) => data
  | _ => []

/-- The call `fwrite(data, 1, size, f)` followed by `fclose(f)`, whose result the code
does not look at: the number of bytes `fwrite` reports and the file system afterwards. A
regular file takes the bytes at the file position; the null device takes them and keeps
nothing. -/
def fwrite (fs : FileSystem) (f : FILE) (data : List Char) : Nat × FileSystem :=
  match fs.node f.path with
  | some (.regular old readable writable) =>
    (data.length,
     fs.put f.path
       (.regular (old.take f.pos ++ data ++ old.drop (f.pos + data.length)) readable writable))
  | _ => (data.length, fs)

/-- `FileOps::write_text_file`: the result and the file system afterwards. -/
def write_text_file (fs : FileSystem) (path : List Char) (contents : List Char)
    (overwrite : Bool) : Except String Nat × FileSystem :=
  let mode := if overwrite then FopenMode.w else FopenMode.wx
  match fopen fs path mode with
  | .error errno =>
    if !overwrite && errno == Errno.EEXIST then
      (.error ("File already exists: " ++ String.mk path), fs)
    else (.error ("Failed to write to file: " ++ String.mk path), fs)
  | .ok (f, fs1) =>
    let written := fwrite fs1 f contents
    (.ok written.1, written.2)

/-- `FileOps::write_binary_file`: the result and the file system afterwards. -/
def write_binary_file (fs : FileSystem) (path : List Char) (contents : List Char)
    (overwrite : Bool) : Except String Nat × FileSystem :=
  let mode := if overwrite then FopenMode.w else FopenMode.wx
  match fopen fs path mode with
  | .error errno =>
    if !overwrite && errno == Errno.EEXIST then
      (.error ("File already exists: " ++ String.mk path), fs)
    else (.error ("Failed to write to file: " ++ String.mk path), fs)
  | .ok (f, fs1) =>
    let written := fwrite fs1 f contents
    (.ok written.1, written.2)

/-! ## `FileOps::native_open_file` on POSIX (file.cpp, lines 372-414)

`<fcntl.h>` is not part of the repository; the flag constants carry their Linux values
and `open` itself is a parameter. -/

/-- `FileOps::FileAccess`. -/
inductive FileAccess where
  | Read
  | Write
  | ReadWrite
  deriving DecidableEq, Repr

/-- `FileOps::FileMode`. -/
inductive FileMode where
  | OpenExisting
  | OpenAlways
  | CreateNew
  | CreateAlways
  | TruncateExisting
  deriving DecidableEq, Repr

/-- The Linux value of `O_RDONLY`. -/
def O_RDONLY : Nat := 0

/-- The Linux value of `O_WRONLY`. -/
def O_WRONLY : Nat := 1

/-- The Linux value of `O_RDWR`. -/
def O_RDWR : Nat := 2

/-- The Linux value of `O_CREAT` (octal 100). -/
def O_CREAT : Nat := 64

/-- The Linux value of `O_EXCL` (octal 200). -/
def O_EXCL : Nat := 128

/-- The Linux value of `O_TRUNC` (octal 1000). -/
def O_TRUNC : Nat := 512

/-- The `flags` that `native_open_file` passes to `open`: the two `switch` statements. -/
def native_open_flags (access : FileAccess) (mode : FileMode) : Nat :=
  let flags :=
    match access with
    | .Read => O_RDONLY
    | .Write => O_WRONLY
    | .ReadWrite => O_RDWR
  match mode with
  | .OpenExisting => flags
  | .OpenAlways => flags ||| O_CREAT
  | .CreateNew => flags ||| (O_CREAT ||| O_EXCL)
  | .CreateAlways => flags ||| (O_CREAT ||| O_TRUNC)
  | .TruncateExisting => flags ||| O_TRUNC

/-- `FileOps::native_open_file` under `IA_PLATFORM_UNIX`. The parameter `sys_open` is the
system call `open(path, flags, permissions)`: it returns the descriptor or `-1`, and
`errno`. -/
def native_open_file (sys_open : List Char → Nat → Nat → Int × Nat) (path : List Char)
    (access : FileAccess) (mode : FileMode) (permissions : Nat) : Except String Int :=
  let flags := native_open_flags access mode
  let opened := sys_open path flags permissions
  if opened.1 = -1 then
    .error ("Failed to open file '" ++ String.mk path ++ "': " ++ toString opened.2)
  else .ok opened.1

/-- What `open` does with a path, by POSIX and, for `O_TRUNC` with `O_RDONLY`, by Linux. -/
inductive OpenOutcome where
  /-- The existing file is opened as it is. -/
  | opened
  /-- The existing file is opened and truncated to length zero. -/
  | truncated
  /-- The missing file is created. -/
  | created
  /-- The call fails: `EEXIST` for an existing file, `ENOENT` for a missing one. -/
  | failed
  deriving DecidableEq, Repr

/-- The outcome of `open` with `flags`, permissions permitting, by whether the file
exists: `O_CREAT | O_EXCL` fails on an existing file, `O_TRUNC` truncates it, and a
missing file is created with `O_CREAT` and is an error without. -/
def open_outcome (file_exists : Bool) (flags : Nat) : OpenOutcome :=
  if file_exists then
    if flags &&& O_CREAT ≠ 0 ∧ flags &&& O_EXCL ≠ 0 then .failed
    else if flags &&& O_TRUNC ≠ 0 then .truncated
    else .opened
  else if flags &&& O_CREAT ≠ 0 then .created
  else .failed

/-- The access flag of a `FileAccess`. -/
def access_flag : FileAccess → Nat
  | .Read => O_RDONLY
  | .Write => O_WRONLY
  | .ReadWrite => O_RDWR

/-- The creation flags the mode table gives a `FileMode`. -/
def mode_flags : FileMode → Nat
  | .OpenExisting => 0
  | .OpenAlways => O_CREAT
  | .CreateNew => O_CREAT ||| O_EXCL
  | .CreateAlways => O_CREAT ||| O_TRUNC
  | .TruncateExisting => O_TRUNC

/-- The row of the mode table for a `FileMode`: the outcome on an existing file and the
outcome on a missing one. -/
def mode_table : FileMode → OpenOutcome × OpenOutcome
  | .OpenExisting => (.opened, .failed)
  | .OpenAlways => (.opened, .created)
  | .CreateNew => (.failed, .created)
  | .CreateAlways => (.truncated, .created)
  | .TruncateExisting => (.truncated, .failed)

/-! ## `FileOps::normalize_executable_path` on POSIX (file.cpp, lines 292-317)

`std::filesystem::path` is not part of the repository. On POSIX a path is its string; the
decomposition functions follow the C++17 standard. -/

/-- `path::filename()`: the part of the path after its last `'/'`. -/
def path_filename (p : List Char) : List Char :=
  (p.reverse.takeWhile (fun c => c != '/')).reverse

/-- `path::extension()`: empty when the filename is `.` or `..`, has no period, or has its
only period in front; else the part of the filename from its last period on. -/
def path_extension (p : List Char) : List Char :=
  let f := path_filename p
  let after := (f.reverse.takeWhile (fun c => c != '.')).reverse
  if f = ['.'] ∨ f = ['.', '.'] then []
  else if after.length = f.length then []
  else if after.length + 1 = f.length then []
  else f.drop (f.length - (after.length + 1))

/-- `path::replace_extension("")`: the path without its extension. -/
def path_remove_extension (p : List Char) : List Char :=
  p.take (p.length - (path_extension p).length)

/-- `path::is_relative()`: on POSIX, the path does not begin with `'/'`. -/
def path_is_relative (p : List Char) : Bool :=
  p.head? != some '/'

/-- `String::starts_with`. -/
def starts_with (s pre : List Char) : Bool :=
  pre.isPrefixOf s

/-- `FileOps::normalize_executable_path` under `IA_PLATFORM_UNIX`. -/
def normalize_executable_path (path : List Char) : List Char :=
  let result := if path_extension path = ".exe".toList then path_remove_extension path else path
  if path_is_relative result then
    let path_str := result
    if !starts_with path_str "./".toList && !starts_with path_str "../".toList then
      "./".toList ++ path_str
    else result
  else result

/-- The counter of every schedule is the number of submissions on it minus the number of
its completion edges and of its cancelled entries. -/
def Scheduler.Ledger (s : Scheduler) : Prop :=
  ∀ schedule, s.counter schedule + (count_of schedule s.completed : Nat)
      + (count_of schedule s.cancelled : Nat)
    = (count_of schedule s.submitted : Nat)

/-! ## `ProcessHandle` and `ProcessOps::spawn_process_async` (process.hpp, lines 33-47;
process.cpp, lines 104-143)

The writes to the two atomics of the handle, in the order in which the calling thread and
then the thread it starts make them. -/

/-- The two atomics of a `ProcessHandle`, as created by `make_box<ProcessHandle>()`. -/
structure ProcessHandle where
  id : Int
  is_running : Bool
  deriving DecidableEq, Repr

/-- `ProcessHandle::is_active`: `is_running && id != 0`. -/
def ProcessHandle.is_active (h : ProcessHandle) : Bool :=
  h.is_running && h.id != 0

/-- A write to one of the two atomics. -/
inductive HandleWrite where
  /-- An assignment to `is_running`. -/
  | is_running (value : Bool)
  /-- A call `id.store(value)`. -/
  | id (value : Int)
  deriving DecidableEq, Repr

/-- The handle after a write. -/
def ProcessHandle.write (h : ProcessHandle) : HandleWrite → ProcessHandle
  | .is_running value => { h with is_running := value }
  | .id value => { h with id := value }

/-- The calls `id.store` that `spawn_process_posix` makes on the handle of the caller.
Only the parent branch stores: the pid after `fork`, and `0` after `waitpid`. -/
def spawn_process_posix_id_stores (sys : PosixCalls) : List HandleWrite :=
  match sys.pipe_fds with
  | none => []
  | some _ =>
    if sys.fork_pid = -1 then []
    else if sys.fork_pid = 0 then []
    else [HandleWrite.id sys.fork_pid, HandleWrite.id 0]

/-- The writes to the handle made by `spawn_process_async` and by the thread it starts,
in order: `is_running = true` before the thread exists, the stores of
`spawn_process_posix`, and `is_running = false` once that call has returned. -/
def spawn_process_async_writes (sys : PosixCalls) : List HandleWrite :=
  [HandleWrite.is_running true] ++ spawn_process_posix_id_stores sys
    ++ [HandleWrite.is_running false]

/-- The handle after the first `k` writes of an asynchronous spawn. -/
def handle_after (sys : PosixCalls) (k : Nat) : ProcessHandle :=
  ((spawn_process_async_writes sys).take k).foldl ProcessHandle.write
    { id := 0, is_running := false }

/-! ## `FileOps::MemoryMappedRegion` on POSIX (file.hpp, lines 86-125; file.cpp, lines
431-579)

Pointers are natural numbers with `nullptr = 0`. The system calls of `map` are inputs;
the calls made are recorded in order. -/

/-- The fields `m_ptr` and `m_size`. -/
structure MemoryMappedRegion where
  m_ptr : Nat
  m_size : Nat
  deriving DecidableEq, Repr

/-- The default-constructed region: `m_ptr = nullptr`, `m_size = 0`. -/
def MemoryMappedRegion.fresh : MemoryMappedRegion :=
  { m_ptr := 0, m_size := 0 }

/-- `MemoryMappedRegion::get_ptr`. -/
def MemoryMappedRegion.get_ptr (r : MemoryMappedRegion) : Nat := r.m_ptr

/-- `MemoryMappedRegion::get_size`. -/
def MemoryMappedRegion.get_size (r : MemoryMappedRegion) : Nat := r.m_size

/-- `MemoryMappedRegion::is_valid`: `m_ptr != nullptr`. -/
def MemoryMappedRegion.is_valid (r : MemoryMappedRegion) : Bool := r.m_ptr != 0

/-- The system calls a region makes. -/
inductive RegionCall where
  | munmap (ptr size : Nat)
  | msync (ptr size : Nat)
  | fstat (handle : Int)
  | ftruncate (handle : Int) (length : Int)
  | mmap (size : Nat) (handle : Int) (offset : Int)
  | madvise (ptr size : Nat)
  deriving DecidableEq, Repr

/-- `MemoryMappedRegion::unmap`: the region afterwards and the calls made. -/
def MemoryMappedRegion.unmap (r : MemoryMappedRegion) : MemoryMappedRegion × List RegionCall :=
  if r.m_ptr = 0 then (r, [])
  else ({ m_ptr := 0, m_size := 0 }, [RegionCall.munmap r.m_ptr r.m_size])

/-- `MemoryMappedRegion::flush`: the region afterwards and the calls made. -/
def MemoryMappedRegion.flush (r : MemoryMappedRegion) : MemoryMappedRegion × List RegionCall :=
  if r.m_ptr = 0 then (r, [])
  else (r, [RegionCall.msync r.m_ptr r.m_size])

/-- What the system calls made by one `map` return, and the file they act on. -/
structure MapCalls where
  /-- The length of the file behind the handle, which `fstat` reports in `st_size`. -/
  file_length : Nat
  /-- Whether `fstat` succeeds. -/
  fstat_ok : Bool
  /-- Whether `ftruncate` succeeds when its length argument is not negative. -/
  ftruncate_ok : Bool
  /-- The address returned by `mmap`, `none` for `MAP_FAILED`. -/
  mmap_result : Option Nat
  /-- The value of `errno` after a failing `mmap`. -/
  mmap_errno : Nat

/-- How a call of `map` ends. -/
structure MapOutcome where
  result : Except String Unit
  region : MemoryMappedRegion
  /-- The length of the file behind the handle afterwards. -/
  file_length : Nat
  calls : List RegionCall

/-- The cast `static_cast<off_t>(x)` of a `u64`. -/
def to_off_t (x : Nat) : Int :=
  if x % 2 ^ 64 < 2 ^ 63 then (x % 2 ^ 64 : Nat) else (x % 2 ^ 64 : Nat) - 2 ^ 64

/-- `MemoryMappedRegion::map` under `IA_PLATFORM_UNIX`. The sum `offset + size` is taken
in `u64`. `ftruncate` with a negative length fails; a successful one sets the length. -/
def MemoryMappedRegion.map (r : MemoryMappedRegion) (handle : Int) (offset size : Nat)
    (sys : MapCalls) : MapOutcome :=
  let unmapped := r.unmap
  if handle = -1 then
    ⟨.error "Invalid file handle provided to Map", unmapped.1, sys.file_length, unmapped.2⟩
  else if size = 0 then
    ⟨.error "Cannot map region of size 0", unmapped.1, sys.file_length, unmapped.2⟩
  else if sys.fstat_ok = false then
    ⟨.error "Failed to fstat file", unmapped.1, sys.file_length,
      unmapped.2 ++ [RegionCall.fstat handle]⟩
  else
    let end_offset := (offset + size) % 2 ^ 64
    let extend := decide (sys.file_length < end_offset)
    let truncate_calls :=
      if extend then [RegionCall.ftruncate handle (to_off_t end_offset)] else []
    if extend && (!sys.ftruncate_ok || decide (to_off_t end_offset < 0)) then
      ⟨.error "Failed to ftruncate (extend) file", unmapped.1, sys.file_length,
        unmapped.2 ++ [RegionCall.fstat handle] ++ truncate_calls⟩
    else
      let length := if extend then end_offset else sys.file_length
      let calls := unmapped.2 ++ [RegionCall.fstat handle] ++ truncate_calls
        ++ [RegionCall.mmap size handle (to_off_t offset)]
      match sys.mmap_result with
      | none =>
        ⟨.error ("mmap failed: " ++ toString sys.mmap_errno), unmapped.1, length, calls⟩
      | some ptr =>
        ⟨.ok (), { m_ptr := ptr, m_size := size }, length,
          calls ++ [RegionCall.madvise ptr size]⟩

/-- The regions of a program, by the address of the object. -/
abbrev RegionStore := Nat → MemoryMappedRegion

/-- The move assignment `target = std::move(source)`: nothing when both are the same
object; else `target` is unmapped and takes the fields of `source`, which is reset. -/
def move_assign (store : RegionStore) (target source : Nat) : RegionStore × List RegionCall :=
  if target ≠ source then
    let unmapped := (store target).unmap
    let moved : MemoryMappedRegion :=
      { m_ptr := (store source).m_ptr, m_size := (store source).m_size }
    (Function.update (Function.update store target moved) source { m_ptr := 0, m_size := 0 },
     unmapped.2)
  else (store, [])

/-- The move constructor: the new object `target` starts from its default member
initialisers and is then move-assigned from `source`. -/
def move_construct (store : RegionStore) (target source : Nat) :
    RegionStore × List RegionCall :=
  move_assign (Function.update store target MemoryMappedRegion.fresh) target source

/-- An operation on the regions of a program. -/
inductive RegionOp where
  | map (target : Nat) (handle : Int) (offset size : Nat) (sys : MapCalls)
  | unmap (target : Nat)
  | flush (target : Nat)
  | move_construct (target source : Nat)
  | move_assign (target source : Nat)

/-- The regions after an operation. -/
def RegionStore.apply (store : RegionStore) : RegionOp → RegionStore
  | .map target handle offset size sys =>
    Function.update store target ((store target).map handle offset size sys).region
  | .unmap target => Function.update store target (store target).unmap.1
  | .flush target => Function.update store target (store target).flush.1
  | .move_construct target source => (move_construct store target source).1
  | .move_assign target source => (move_assign store target source).1

/-- The regions after a sequence of operations. -/
def RegionStore.run (store : RegionStore) : List RegionOp → RegionStore
  | [] => store
  | op :: ops => RegionStore.run (store.apply op) ops

/-- POSIX: `mmap` never places a mapping at address 0. -/
def RegionOp.mmap_not_null : RegionOp → Prop
  | .map _ _ _ _ sys => sys.mmap_result ≠ some 0
  | _ => True


/-! ## The scheduler with the two accesses of `schedule_task` apart (async.cpp, lines 77-95)

`schedule_task` increments the counter of the schedule at line 82, before it takes
`s_queue_mutex` at line 84, so threads may run between its two accesses. The steps here
are the atomic accesses of the code: a `fetch_add` or `fetch_sub` on a counter outside the
mutex, and a critical section under `s_queue_mutex`, which is one step because the queues
are only read and written by the thread that holds the mutex. -/

/-- The lines 83-94 of `schedule_task`: under the mutex, append the task to the queue of
its priority. -/
def schedule_task_enqueue (s : Scheduler) (t : ScheduledTask) (priority : Priority) : Scheduler :=
  match priority with
  | .High =>
    { s with s_high_priority_queue := s.s_high_priority_queue ++ [t],
             submitted := s.submitted ++ [t] }
  | .Normal =>
    { s with s_normal_priority_queue := s.s_normal_priority_queue ++ [t],
             submitted := s.submitted ++ [t] }

/-- The scheduler together with the calls of `schedule_task` that have passed line 82 and
have not yet appended their task: the task each one is about to append, and its priority. -/
structure Concurrent where
  s : Scheduler
  in_flight : List (ScheduledTask × Priority)

/-- The scheduler right after `initialize_scheduler`, with no call under way. -/
def Concurrent.init (workers : List WorkerId) : Concurrent :=
  { s := Scheduler.init workers, in_flight := [] }

/-- The atomic accesses. -/
inductive Access where
  /-- A call `schedule_task(task, tag, schedule, priority)` passes its `ensure` and runs
  `schedule->counter.fetch_add(1)` (line 82). -/
  | fetch_add (task : TaskId) (tag : TaskTag) (schedule : ScheduleId) (priority : Priority)
  /-- A call of `schedule_task` that has passed line 82 runs its critical section. -/
  | enqueue (t : ScheduledTask) (priority : Priority)
  /-- A worker or a draining thread runs its critical section. -/
  | dequeue
  | invoke (t : ScheduledTask)
  | complete (t : ScheduledTask)
  /-- A call of `cancel_tasks_of_tag`, which holds the mutex from its first line on. -/
  | cancel_tasks_of_tag (tag : TaskTag)
  deriving DecidableEq, Repr

/-- One access; `none` when it cannot be made. -/
def Concurrent.step (c : Concurrent) : Access → Option Concurrent
  | .fetch_add task tag schedule priority =>
    if c.s.s_schedule_workers.isEmpty then none
    else some { s := c.s.fetch_add schedule,
                in_flight := c.in_flight ++
                  [({ tag := tag, schedule_handle := schedule, task := task }, priority)] }
  | .enqueue t priority =>
    if (t, priority) ∈ c.in_flight then
      some { s := schedule_task_enqueue c.s t priority,
             in_flight := c.in_flight.erase (t, priority) }
    else none
  | .dequeue => (c.s.step .dequeue).map (fun s1 => { c with s := s1 })
  | .invoke t => (c.s.step (.invoke t)).map (fun s1 => { c with s := s1 })
  | .complete t => (c.s.step (.complete t)).map (fun s1 => { c with s := s1 })
  | .cancel_tasks_of_tag tag =>
    (c.s.step (.cancel_tasks_of_tag tag)).map (fun s1 => { c with s := s1 })

/-- A run: the accesses made one after the other, in the order in which they take effect. -/
def Concurrent.run (c : Concurrent) : List Access → Option Concurrent
  | [] => some c
  | a :: rest =>
    match c.step a with
    | some c1 => c1.run rest
    | none => none

theorem drop_eq_getD_cons (data : List Char) (i : Nat) (h : i < data.length) :
    data.drop i = data.getD i default :: data.drop (i + 1) := by
  rw [List.getD_eq_getElem data default h]
  exact List.drop_eq_getElem_cons h

theorem slice_length (data : List Char) (start len : Nat) (h : start + len ≤ data.length) :
    (slice data start len).length = len := by
  simp [slice]; omega

theorem slice_zero (data : List Char) (start : Nat) : slice data start 0 = [] := by
  simp [slice]

theorem slice_succ (data : List Char) (start i : Nat) (hs : start ≤ i) (hi : i < data.length) :
    slice data start (i + 1 - start) = slice data start (i - start) ++ [data.getD i default] := by
  have h1 : i + 1 - start = (i - start) + 1 := by omega
  have h2 : i - start < (data.drop start).length := by simp; omega
  rw [slice, slice, h1, List.take_succ, List.getElem?_eq_getElem h2]
  simp only [List.getElem_drop, Option.toList]
  rw [List.getD_eq_getElem data default hi]
  congr 3
  omega

theorem frameLines_lf (rest : List Char) : frameLines [] ('\n' :: rest) = frameLines [] rest := by
  simp [frameLines]

theorem frameRest_lf (rest : List Char) : frameRest [] ('\n' :: rest) = frameRest [] rest := by
  simp [frameRest]


/-- The index loop of `append` agrees with the character-at-a-time framer started on the
pending line `m_accumulator ++ data[start, i)`. -/
theorem append_loop_spec (data : List Char) (fuel : Nat) :
    ∀ (i : Nat) (st : AppendLoop), st.start ≤ i → i ≤ data.length → data.length - i ≤ fuel →
      let r := LineBuffer.append_loop data fuel i st
      r.m_accumulator ++ slice data r.start (data.length - r.start)
          = frameRest (st.m_accumulator ++ slice data st.start (i - st.start)) (data.drop i)
        ∧ r.calls
          = st.calls ++ frameLines (st.m_accumulator ++ slice data st.start (i - st.start))
              (data.drop i) := by
  induction fuel with
  | zero =>
    intro i st hs hi hf
    have hi2 : i = data.length := by omega
    subst hi2
    simp [LineBuffer.append_loop, frameRest, frameLines]
  | succ fuel ih =>
    intro i st hs hi hf
    by_cases hlt : i < data.length
    · rw [LineBuffer.append_loop, if_pos hlt, drop_eq_getD_cons data i hlt]
      by_cases hterm : data.getD i default = '\n' ∨ data.getD i default = '\r'
      · rw [if_pos hterm]
        simp only [frameRest, frameLines, if_pos hterm]
        obtain ⟨pend, hpend⟩ : ∃ pend, st.m_accumulator ++ slice data st.start (i - st.start) = pend :=
          ⟨_, rfl⟩
        have hlen : (slice data st.start (i - st.start)).length = i - st.start :=
          slice_length data st.start (i - st.start) (by omega)
        obtain ⟨st1, hst1, hacc1, hcalls1⟩ : ∃ st1 : AppendLoop,
            st1 = (if st.m_accumulator ≠ [] then
                    { st with
                      m_accumulator := [],
                      calls := if st.m_accumulator ++ slice data st.start (i - st.start) ≠ []
                        then st.calls ++ [st.m_accumulator ++ slice data st.start (i - st.start)]
                        else st.calls }
                  else
                    { st with
                      calls := if i > st.start
                        then st.calls ++ [slice data st.start (i - st.start)]
                        else st.calls }) ∧
            st1.m_accumulator = [] ∧
            st1.calls = st.calls ++ (if pend ≠ [] then [pend] else []) := by
          refine ⟨_, rfl, ?_, ?_⟩
          · by_cases hacc : st.m_accumulator = []
            · simp [hacc]
            · simp [hacc]
          · by_cases hacc : st.m_accumulator = []
            · have hp : pend = slice data st.start (i - st.start) := by simp [← hpend, hacc]
              by_cases hgt : i > st.start
              · have hne : pend ≠ [] := by
                  intro h0
                  rw [hp] at h0
                  rw [h0] at hlen
                  simp at hlen
                  omega
                simp [hacc, hgt, hne, ← hp]
              · have he : pend = [] := by
                  rw [hp]
                  apply List.eq_nil_of_length_eq_zero
                  omega
                simp [hacc, hgt, he]
            · have hne : pend ≠ [] := by
                rw [← hpend]; simp [hacc]
              simp [hacc, hne, hpend]
        rw [← hst1, hpend]
        by_cases hcrlf : data.getD i default = '\r' ∧ i + 1 < data.length ∧
            data.getD (i + 1) default = '\n'
        · rw [if_pos hcrlf]
          have hd := drop_eq_getD_cons data (i + 1) hcrlf.2.1
          rw [hcrlf.2.2] at hd
          rw [hd, frameRest_lf, frameLines_lf]
          have := ih (i + 1 + 1) { st1 with start := i + 1 + 1 } (by simp) (by omega) (by omega)
          simp only [Nat.sub_self, slice_zero, List.append_nil] at this
          simpa [hacc1, hcalls1, List.append_assoc] using this
        · rw [if_neg hcrlf]
          have := ih (i + 1) { st1 with start := i + 1 } (by simp) (by omega) (by omega)
          simp only [Nat.sub_self, slice_zero, List.append_nil] at this
          simpa [hacc1, hcalls1, List.append_assoc] using this
      · rw [if_neg hterm]
        have := ih (i + 1) st (by omega) (by omega) (by omega)
        simp only [frameRest, frameLines, if_neg hterm]
        rw [slice_succ data st.start i hs hlt, ← List.append_assoc] at this
        exact this
    · have hi2 : i = data.length := by omega
      subst hi2
      simp [LineBuffer.append_loop, frameRest, frameLines]

theorem piecesFrom_nil_left (p : Char → Bool) (l : List Char) :
    piecesFrom p [] l = nonEmptyPieces p l := by
  unfold piecesFrom nonEmptyPieces
  congr 1
  cases h : List.splitOnP p l <;> simp

theorem piecesFrom_nil (p : Char → Bool) (cur : List Char) :
    piecesFrom p cur [] = if cur ≠ [] then [cur] else [] := by
  by_cases h : cur = [] <;> simp [piecesFrom, h]

theorem piecesFrom_cons_sep (p : Char → Bool) (cur : List Char) (c : Char) (l : List Char)
    (hc : p c = true) :
    piecesFrom p cur (c :: l) = (if cur ≠ [] then [cur] else []) ++ nonEmptyPieces p l := by
  by_cases h : cur = [] <;> simp [piecesFrom, nonEmptyPieces, List.splitOnP_cons, hc, h]

theorem piecesFrom_cons_keep (p : Char → Bool) (cur : List Char) (c : Char) (l : List Char)
    (hc : p c = false) :
    piecesFrom p cur (c :: l) = piecesFrom p (cur ++ [c]) l := by
  unfold piecesFrom
  rw [List.splitOnP_cons]
  simp only [hc, Bool.false_eq_true, if_false]
  congr 1
  cases List.splitOnP p l <;> simp

theorem isTerminator_iff (c : Char) : isTerminator c = true ↔ (c = '\n' ∨ c = '\r') := by
  simp [isTerminator]

/-- The character-at-a-time framer followed by a flush yields the non-empty pieces. -/
theorem frameLines_flush (d : List Char) : ∀ cur : List Char,
    frameLines cur d ++ (if frameRest cur d ≠ [] then [frameRest cur d] else [])
      = piecesFrom isTerminator cur d := by
  induction d with
  | nil => intro cur; simp [frameLines, frameRest, piecesFrom_nil]
  | cons c rest ih =>
    intro cur
    by_cases hc : c = '\n' ∨ c = '\r'
    · rw [piecesFrom_cons_sep _ _ _ _ ((isTerminator_iff c).2 hc), ← piecesFrom_nil_left, ← ih]
      simp [frameLines, frameRest, hc]
    · have hf : isTerminator c = false := by
        cases h : isTerminator c
        · rfl
        · exact absurd ((isTerminator_iff c).1 h) hc
      rw [piecesFrom_cons_keep _ _ _ _ hf, ← ih]
      simp [frameLines, frameRest, hc]

theorem frameLines_append (a b : List Char) : ∀ cur : List Char,
    frameLines cur (a ++ b) = frameLines cur a ++ frameLines (frameRest cur a) b := by
  induction a with
  | nil => intro cur; simp [frameLines, frameRest]
  | cons c rest ih =>
    intro cur
    by_cases hc : c = '\n' ∨ c = '\r' <;> simp [frameLines, frameRest, hc, ih]

theorem frameRest_append (a b : List Char) : ∀ cur : List Char,
    frameRest cur (a ++ b) = frameRest (frameRest cur a) b := by
  induction a with
  | nil => intro cur; simp [frameRest]
  | cons c rest ih =>
    intro cur
    by_cases hc : c = '\n' ∨ c = '\r' <;> simp [frameRest, hc, ih]

/-- `LineBuffer::append` in closed form. -/
theorem append_eq_frame (b : LineBuffer) (data : List Char) :
    b.append data
      = ({ m_accumulator := frameRest b.m_accumulator data }, frameLines b.m_accumulator data) := by
  have h := append_loop_spec data data.length 0
    { start := 0, m_accumulator := b.m_accumulator, calls := [] }
    (Nat.le_refl 0) (Nat.zero_le _) (by omega)
  simp only [Nat.sub_self, slice_zero, List.append_nil, List.drop_zero, List.nil_append] at h
  obtain ⟨h1, h2⟩ := h
  unfold LineBuffer.append
  simp only [h2, ← h1]
  congr 2
  split
  · rfl
  · rename_i hlt
    have : data.length - (LineBuffer.append_loop data data.length 0
        { start := 0, m_accumulator := b.m_accumulator, calls := [] }).start = 0 := by omega
    rw [this, slice_zero, List.append_nil]

/-- Absence of line terminators. -/
theorem frameRest_clean (d : List Char) : ∀ cur : List Char,
    (∀ c ∈ cur, c ≠ '\n' ∧ c ≠ '\r') → ∀ c ∈ frameRest cur d, c ≠ '\n' ∧ c ≠ '\r' := by
  induction d with
  | nil => intro cur h; simpa [frameRest] using h
  | cons x rest ih =>
    intro cur h
    by_cases hx : x = '\n' ∨ x = '\r'
    · simp only [frameRest, if_pos hx]
      exact ih [] (by simp)
    · simp only [frameRest, if_neg hx]
      apply ih
      intro c hc
      rcases List.mem_append.1 hc with hc | hc
      · exact h c hc
      · have : c = x := by simpa using hc
        subst this
        exact ⟨fun e => hx (Or.inl e), fun e => hx (Or.inr e)⟩

theorem frameLines_clean (d : List Char) : ∀ cur : List Char,
    (∀ c ∈ cur, c ≠ '\n' ∧ c ≠ '\r') →
    ∀ line ∈ frameLines cur d, line ≠ [] ∧ ∀ c ∈ line, c ≠ '\n' ∧ c ≠ '\r' := by
  induction d with
  | nil => intro cur _ line hl; simp [frameLines] at hl
  | cons x rest ih =>
    intro cur h line hl
    by_cases hx : x = '\n' ∨ x = '\r'
    · simp only [frameLines, if_pos hx] at hl
      rcases List.mem_append.1 hl with hl | hl
      · by_cases hcur : cur = []
        · simp [hcur] at hl
        · have : line = cur := by simpa [hcur] using hl
          subst this
          exact ⟨hcur, h⟩
      · exact ih [] (by simp) line hl
    · simp only [frameLines, if_neg hx] at hl
      refine ih (cur ++ [x]) ?_ line hl
      intro c hc
      rcases List.mem_append.1 hc with hc | hc
      · exact h c hc
      · have : c = x := by simpa using hc
        subst this
        exact ⟨fun e => hx (Or.inl e), fun e => hx (Or.inr e)⟩

/-- One call keeps the accumulator free of terminators and emits only clean lines. -/
theorem apply_clean (b : LineBuffer) (op : LineOp)
    (hb : ∀ c ∈ b.m_accumulator, c ≠ '\n' ∧ c ≠ '\r') :
    (∀ c ∈ (b.apply op).1.m_accumulator, c ≠ '\n' ∧ c ≠ '\r') ∧
    (∀ line ∈ (b.apply op).2, line ≠ [] ∧ ∀ c ∈ line, c ≠ '\n' ∧ c ≠ '\r') := by
  cases op with
  | append data =>
    simp only [LineBuffer.apply, append_eq_frame]
    exact ⟨frameRest_clean data _ hb, frameLines_clean data _ hb⟩
  | flush =>
    simp only [LineBuffer.apply, LineBuffer.flush]
    by_cases h : b.m_accumulator = []
    · simp [h]
    · simp only [ne_eq, h, not_false_eq_true, if_true]
      refine ⟨by simp, ?_⟩
      intro line hl
      have : line = b.m_accumulator := by simpa using hl
      subst this
      exact ⟨h, hb⟩

theorem run_clean (ops : List LineOp) : ∀ b : LineBuffer,
    (∀ c ∈ b.m_accumulator, c ≠ '\n' ∧ c ≠ '\r') →
    ∀ r ∈ b.run ops,
      (∀ c ∈ r.1.m_accumulator, c ≠ '\n' ∧ c ≠ '\r') ∧
      (∀ line ∈ r.2, line ≠ [] ∧ ∀ c ∈ line, c ≠ '\n' ∧ c ≠ '\r') := by
  induction ops with
  | nil => intro b _ r hr; simp [LineBuffer.run] at hr
  | cons op ops ih =>
    intro b hb r hr
    simp only [LineBuffer.run, List.mem_cons] at hr
    rcases hr with hr | hr
    · subst hr; exact apply_clean b op hb
    · exact ih _ (apply_clean b op hb).1 r hr

/-- C1: a single `append(d)` on a fresh `LineBuffer` followed by `flush()` invokes the
callback with exactly the non-empty pieces of `d` split at every `'\n'` and `'\r'`, in
order, and leaves the accumulator empty. -/
theorem C1_append_flush_pieces (d : List Char) :
    ((LineBuffer.mk []).append d).2 ++ ((LineBuffer.mk []).append d).1.flush.2
        = nonEmptyPieces isTerminator d ∧
    ((LineBuffer.mk []).append d).1.flush.1.m_accumulator = [] := by
  rw [append_eq_frame]
  constructor
  · rw [← piecesFrom_nil_left, ← frameLines_flush]
    simp only [LineBuffer.flush]
    split <;> simp_all
  · simp only [LineBuffer.flush]
    split <;> simp_all

/-- A chunk without line terminator: nothing is emitted and the chunk joins the pending
line. -/
theorem frame_no_terminator (c : List Char) : ∀ cur : List Char,
    (∀ x ∈ c, x ≠ '\n' ∧ x ≠ '\r') →
    frameLines cur c = [] ∧ frameRest cur c = cur ++ c := by
  induction c with
  | nil => intro cur _; simp [frameLines, frameRest]
  | cons x rest ih =>
    intro cur h
    have hx : ¬ (x = '\n' ∨ x = '\r') := by
      have := h x (by simp)
      tauto
    have hr := ih (cur ++ [x]) (fun y hy => h y (List.mem_cons_of_mem _ hy))
    simp [frameLines, frameRest, hx, hr.1, hr.2]

/-- Pieces of a content whose beginning holds no separator. -/
theorem piecesFrom_append_left (p : Char → Bool) (l : List Char) : ∀ cur pre : List Char,
    (∀ x ∈ cur, p x = false) → piecesFrom p pre (cur ++ l) = piecesFrom p (pre ++ cur) l := by
  intro cur
  induction cur with
  | nil => intro pre _; simp
  | cons x rest ih =>
    intro pre h
    rw [List.cons_append, piecesFrom_cons_keep _ _ _ _ (h x (by simp)),
      ih _ (fun y hy => h y (List.mem_cons_of_mem _ hy))]
    simp

/-- C2: for every `LineBuffer` (whatever its accumulator holds, so in particular when it
holds no CR/LF) and all `a`, `c`: `append(a)` followed by `append(c)` invokes the callback
with the same lines and leaves the same accumulator as one `append(a ++ c)`; after a chunk
ending in CR, a chunk starting with LF invokes the callback exactly as the chunk without
that LF would, so the LF causes no extra invocation. What is kept is pinned down: a chunk
without CR/LF invokes no callback and is added to the end of the accumulator, a chunk
`a ++ "\n" ++ c` with `c` free of CR/LF leaves exactly `c` in the accumulator, and when the
accumulator holds no CR/LF, the lines of `append(a)`, `append(c)` and a closing `flush()`
are exactly the non-empty pieces of accumulator `++ a ++ c` split at every CR and LF. -/
theorem C2_append_split (b : LineBuffer) (a c : List Char) :
    (b.append a).2 ++ ((b.append a).1.append c).2 = (b.append (a ++ c)).2 ∧
    ((b.append a).1.append c).1 = (b.append (a ++ c)).1 ∧
    ((b.append (a ++ ['\r'])).1.append ('\n' :: c)).2 = ((b.append (a ++ ['\r'])).1.append c).2 ∧
    ((b.append (a ++ ['\r'])).1.append ['\n']).2 = [] ∧
    ((∀ x ∈ c, x ≠ '\n' ∧ x ≠ '\r') →
      b.append c = ({ m_accumulator := b.m_accumulator ++ c }, []) ∧
      (b.append (a ++ '\n' :: c)).1 = { m_accumulator := c } ∧
      (b.append (a ++ '\r' :: c)).1 = { m_accumulator := c }) ∧
    ((∀ x ∈ b.m_accumulator, x ≠ '\n' ∧ x ≠ '\r') →
      (b.append a).2 ++ ((b.append a).1.append c).2 ++ ((b.append a).1.append c).1.flush.2
        = nonEmptyPieces isTerminator (b.m_accumulator ++ (a ++ c))) := by
  refine ⟨?_, ?_, ?_, ?_, ?_, ?_⟩
  · simp only [append_eq_frame, frameLines_append, frameRest_append]
  · simp only [append_eq_frame, frameLines_append, frameRest_append]
  · simp only [append_eq_frame, frameLines_append, frameRest_append]
    simp [frameRest, frameLines]
  · simp only [append_eq_frame, frameLines_append, frameRest_append]
    simp [frameRest, frameLines]
  · intro hc
    refine ⟨?_, ?_, ?_⟩
    · rw [append_eq_frame, (frame_no_terminator c _ hc).1, (frame_no_terminator c _ hc).2]
    · rw [append_eq_frame, frameRest_append]
      simp only [frameRest, true_or, if_true]
      rw [(frame_no_terminator c _ hc).2, List.nil_append]
    · rw [append_eq_frame, frameRest_append]
      simp only [frameRest, or_true, if_true]
      rw [(frame_no_terminator c _ hc).2, List.nil_append]
  · intro hb
    have hp : ∀ x ∈ b.m_accumulator, isTerminator x = false := by
      intro x hx
      cases h : isTerminator x
      · rfl
      · have h1 := (isTerminator_iff x).1 h
        have h2 := hb x hx
        tauto
    rw [← piecesFrom_nil_left, piecesFrom_append_left _ _ _ _ hp, List.nil_append,
      ← frameLines_flush]
    simp only [append_eq_frame, frameLines_append, frameRest_append, LineBuffer.flush]
    split <;> simp_all

/-- Witness for C2 on the accumulator `ab` and the chunks `c\r` and `\nd`: one line `abc`
is emitted and `d` stays in the accumulator. -/
theorem C2_append_split_witness :
    ((LineBuffer.mk ['a', 'b']).append (['c', '\r'] ++ '\n' :: ['d'])).1
        = { m_accumulator := ['d'] } ∧
    ((LineBuffer.mk ['a', 'b']).append ['c', '\r']).2
        ++ (((LineBuffer.mk ['a', 'b']).append ['c', '\r']).1.append ['\n', 'd']).2
        ++ (((LineBuffer.mk ['a', 'b']).append ['c', '\r']).1.append ['\n', 'd']).1.flush.2
      = nonEmptyPieces isTerminator (['a', 'b'] ++ (['c', '\r'] ++ ['\n', 'd'])) :=
  ⟨((C2_append_split (LineBuffer.mk ['a', 'b']) ['c', '\r'] ['d']).2.2.2.2.1
      (by decide)).2.1,
   (C2_append_split (LineBuffer.mk ['a', 'b']) ['c', '\r'] ['\n', 'd']).2.2.2.2.2
      (by decide)⟩

/-- C3: along every sequence of `append` and `flush` calls on a `LineBuffer` that starts
with an empty accumulator, every string passed to the callback is non-empty and contains
neither `'\n'` nor `'\r'`, and after every call the accumulator contains neither. -/
theorem C3_lines_clean (ops : List LineOp) :
    ∀ r ∈ (LineBuffer.mk []).run ops,
      (∀ line ∈ r.2, line ≠ [] ∧ ∀ c ∈ line, c ≠ '\n' ∧ c ≠ '\r') ∧
      (∀ c ∈ r.1.m_accumulator, c ≠ '\n' ∧ c ≠ '\r') := by
  intro r hr
  have h := run_clean ops (LineBuffer.mk []) (by simp) r hr
  exact ⟨h.2, h.1⟩

/-- Witness for C3 on the calls `append("a\nb")`, `flush()`. -/
theorem C3_lines_clean_witness :
    ((LineBuffer.mk ['b'], [['a']]) : LineBuffer × List (List Char))
        ∈ (LineBuffer.mk []).run [LineOp.append ['a', '\n', 'b'], LineOp.flush] ∧
    ((∀ line ∈ [['a']], line ≠ [] ∧ ∀ c ∈ line, c ≠ '\n' ∧ c ≠ '\r') ∧
      (∀ c ∈ ['b'], c ≠ '\n' ∧ c ≠ '\r')) :=
  ⟨by decide,
   C3_lines_clean [LineOp.append ['a', '\n', 'b'], LineOp.flush] (LineBuffer.mk ['b'], [['a']])
     (by decide)⟩

/-! ### Argument tokenizer -/

theorem tokenize_loop_cons {α : Type} (ch : α → Char) (st : TokenizerState α) (x : α)
    (l : List α) :
    tokenize_loop ch st (x :: l) = tokenize_loop ch (tokenize_step ch st x) l := rfl

theorem tokenize_loop_nil {α : Type} (ch : α → Char) (st : TokenizerState α) :
    tokenize_loop ch st [] = st := rfl

theorem tokenize_loop_append {α : Type} (ch : α → Char) (st : TokenizerState α)
    (l₁ l₂ : List α) :
    tokenize_loop ch st (l₁ ++ l₂) = tokenize_loop ch (tokenize_loop ch st l₁) l₂ := by
  simp [tokenize_loop, List.foldl_append]

/-- Without quotes and backslashes the loop splits at spaces. -/
theorem tokenize_unquoted (l : List Char) (hq : '"' ∉ l) (hb : '\\' ∉ l) :
    ∀ st : TokenizerState Char, st.in_quotes = false → st.is_escaped = false →
      tokenize_finish (tokenize_loop id st l)
        = st.arg_storage ++ piecesFrom isSpace st.current_token l := by
  induction l with
  | nil =>
    intro st _ _
    rw [tokenize_loop_nil, piecesFrom_nil, tokenize_finish]
    by_cases h : st.current_token = [] <;> simp [h]
  | cons c rest ih =>
    intro st hiq hesc
    have hq' : '"' ∉ rest := fun h => hq (List.mem_cons_of_mem _ h)
    have hb' : '\\' ∉ rest := fun h => hb (List.mem_cons_of_mem _ h)
    have hcq : c ≠ '"' := fun h => hq (by simp [h])
    have hcb : c ≠ '\\' := fun h => hb (by simp [h])
    rw [tokenize_loop_cons]
    by_cases hsp : c = ' '
    · subst hsp
      rw [piecesFrom_cons_sep isSpace _ _ _ (by simp [isSpace]), ← piecesFrom_nil_left]
      by_cases hcur : st.current_token = []
      · have hstep : tokenize_step id st ' ' = st := by
          simp [tokenize_step, hesc, hiq, hcur]
        rw [hstep, ih hq' hb' st hiq hesc, hcur]
        simp
      · have hstep : tokenize_step id st ' '
            = { st with arg_storage := st.arg_storage ++ [st.current_token],
                        current_token := [] } := by
          simp [tokenize_step, hesc, hiq, hcur]
        have key := ih hq' hb'
          ⟨st.arg_storage ++ [st.current_token], [], st.in_quotes, st.is_escaped⟩ hiq hesc
        rw [hstep, key]
        simp [hcur]
    · have hstep : tokenize_step id st c
          = { st with current_token := st.current_token ++ [c] } := by
        simp [tokenize_step, hesc, hcq, hcb, hsp]
      have key := ih hq' hb'
        ⟨st.arg_storage, st.current_token ++ [c], st.in_quotes, st.is_escaped⟩ hiq hesc
      rw [hstep, key,
        piecesFrom_cons_keep isSpace _ _ _ (by simp [isSpace, hsp])]

/-- C4: for every `args` string without a double quote and without a backslash, the token
list is exactly the non-empty pieces of `args` split at space characters, in order; and
`"one two"` gives `["one", "two"]`. -/
theorem C4_tokenize_plain (args : List Char) (hq : '"' ∉ args) (hb : '\\' ∉ args) :
    tokenize_args args = nonEmptyPieces isSpace args ∧
    tokenize_args "one two".toList = ["one".toList, "two".toList] := by
  constructor
  · have h := tokenize_unquoted args hq hb (TokenizerState.init Char) rfl rfl
    simpa [tokenize_args, tokenize_with, TokenizerState.init, piecesFrom_nil_left] using h
  · decide

/-- Witness for C4 on `" a  b "`: leading, consecutive and trailing spaces. -/
theorem C4_tokenize_plain_witness :
    ('"' ∉ " a  b ".toList ∧ '\\' ∉ " a  b ".toList) ∧
    (tokenize_args " a  b ".toList = nonEmptyPieces isSpace " a  b ".toList ∧
      tokenize_args "one two".toList = ["one".toList, "two".toList]) :=
  ⟨by decide, C4_tokenize_plain " a  b ".toList (by decide) (by decide)⟩

/-- The flags after a step depend only on the flags before it and on the character. -/
theorem tokenize_step_flags {α β : Type} (ch : α → Char) (ch' : β → Char)
    (s : TokenizerState α) (s' : TokenizerState β) (x : α) (y : β)
    (h1 : s.in_quotes = s'.in_quotes) (h2 : s.is_escaped = s'.is_escaped)
    (hc : ch x = ch' y) :
    (tokenize_step ch s x).in_quotes = (tokenize_step ch' s' y).in_quotes ∧
    (tokenize_step ch s x).is_escaped = (tokenize_step ch' s' y).is_escaped := by
  unfold tokenize_step
  rw [← h1, ← h2, ← hc]
  repeat' split
  all_goals simp_all

/-- Erasing the extra data commutes with a step. -/
theorem tokenize_step_erase {α : Type} (ch : α → Char) (st : TokenizerState α) (x : α) :
    (tokenize_step ch st x).erase ch = tokenize_step id (st.erase ch) (ch x) := by
  unfold tokenize_step TokenizerState.erase
  simp only [id]
  repeat' split
  all_goals simp_all

theorem tokenize_loop_erase {α : Type} (ch : α → Char) (l : List α) :
    ∀ st : TokenizerState α,
      (tokenize_loop ch st l).erase ch = tokenize_loop id (st.erase ch) (l.map ch) := by
  induction l with
  | nil => intro st; rfl
  | cons x rest ih =>
    intro st
    rw [List.map_cons, tokenize_loop_cons, tokenize_loop_cons, ih, tokenize_step_erase]

theorem tokenize_finish_erase {α : Type} (ch : α → Char) (st : TokenizerState α) :
    (tokenize_finish st).map (List.map ch) = tokenize_finish (st.erase ch) := by
  unfold tokenize_finish TokenizerState.erase
  by_cases h : st.current_token = [] <;> simp [h]

/-- The tokens over characters with extra data erase to the tokens of the plain string. -/
theorem tokenize_with_erase {α : Type} (ch : α → Char) (l : List α) :
    (tokenize_with ch l).map (List.map ch) = tokenize_args (l.map ch) := by
  unfold tokenize_args tokenize_with
  rw [tokenize_finish_erase, tokenize_loop_erase]
  rfl

theorem tokenize_positions_erase (args : List Char) :
    (tokenize_positions args).map (List.map Prod.snd) = tokenize_args args := by
  unfold tokenize_positions
  rw [tokenize_with_erase, List.enum_map_snd]

/-- A step keeps `TokensOk` when its character is read at its own index with the
scanner flags of that index. -/
theorem tokens_ok_step (args : List Char) (ts : TokenizerState (Nat × Char)) (x : Nat × Char)
    (hx : args[x.1]? = some x.2)
    (hf : flags_at args x.1 = (ts.in_quotes, ts.is_escaped))
    (h : TokensOk args ts) :
    TokensOk args (tokenize_step Prod.snd ts x) := by
  obtain ⟨hcur, hsto⟩ := h
  unfold tokenize_step
  by_cases hesc : ts.is_escaped = true
  · rw [if_pos hesc]
    refine ⟨?_, hsto⟩
    intro y hy
    rcases List.mem_append.1 hy with hy | hy
    · exact hcur y hy
    · have : y = x := by simpa using hy
      subst this
      exact ⟨hx, Or.inl (by rw [hf]; exact hesc)⟩
  · rw [if_neg hesc]
    by_cases hb : x.2 = '\\'
    · rw [if_pos hb]; exact ⟨hcur, hsto⟩
    · rw [if_neg hb]
      by_cases hq : x.2 = '"'
      · rw [if_pos hq]; exact ⟨hcur, hsto⟩
      · rw [if_neg hq]
        by_cases hsp : x.2 = ' ' ∧ ts.in_quotes = false
        · rw [if_pos hsp]
          by_cases he : ts.current_token.isEmpty = false
          · rw [if_pos he]
            refine ⟨by simp, ?_⟩
            intro tok htok
            rcases List.mem_append.1 htok with htok | htok
            · exact hsto tok htok
            · have : tok = ts.current_token := by simpa using htok
              subst this
              exact hcur
          · rw [if_neg he]; exact ⟨hcur, hsto⟩
        · rw [if_neg hsp]
          refine ⟨?_, hsto⟩
          intro y hy
          rcases List.mem_append.1 hy with hy | hy
          · exact hcur y hy
          · have : y = x := by simpa using hy
            subst this
            refine ⟨hx, Or.inr ⟨hb, hq, ?_⟩⟩
            intro hs
            rw [hf]
            cases hiq : ts.in_quotes
            · exact absurd ⟨hs, hiq⟩ hsp
            · rfl

theorem tokens_ok_loop (args : List Char) : ∀ (suf pre : List Char)
    (ts : TokenizerState (Nat × Char)), args = pre ++ suf →
    ts.in_quotes = (tokenize_loop id (TokenizerState.init Char) pre).in_quotes →
    ts.is_escaped = (tokenize_loop id (TokenizerState.init Char) pre).is_escaped →
    TokensOk args ts →
    TokensOk args (tokenize_loop Prod.snd ts (List.enumFrom pre.length suf)) := by
  intro suf
  induction suf with
  | nil => intro pre ts _ _ _ h; exact h
  | cons c rest ih =>
    intro pre ts hargs hq he hok
    rw [List.enumFrom_cons, tokenize_loop_cons]
    have hlen : (pre ++ [c]).length = pre.length + 1 := by simp
    have hargs' : args = (pre ++ [c]) ++ rest := by simp [hargs]
    have hfl := tokenize_step_flags Prod.snd id ts
      (tokenize_loop id (TokenizerState.init Char) pre) (pre.length, c) c hq he rfl
    have hstep : tokenize_loop id (TokenizerState.init Char) (pre ++ [c])
        = tokenize_step id (tokenize_loop id (TokenizerState.init Char) pre) c := by
      rw [tokenize_loop_append]; rfl
    have hx : args[pre.length]? = some c := by
      rw [hargs, List.getElem?_append_right (Nat.le_refl _)]; simp
    have hf : flags_at args pre.length = (ts.in_quotes, ts.is_escaped) := by
      unfold flags_at
      rw [hargs, List.take_left']
      · simp [hq, he]
      · rfl
    have := ih (pre ++ [c]) (tokenize_step Prod.snd ts (pre.length, c)) hargs'
      (by rw [hstep]; exact hfl.1) (by rw [hstep]; exact hfl.2)
      (tokens_ok_step args ts (pre.length, c) hx hf hok)
    rw [hlen] at this
    exact this

/-- Every positioned character of every token satisfies `TokenCharOk`. -/
theorem tokenize_positions_ok (args : List Char) :
    ∀ tok ∈ tokenize_positions args, ∀ x ∈ tok, TokenCharOk args x := by
  have h := tokens_ok_loop args args [] (TokenizerState.init (Nat × Char)) rfl rfl rfl
    ⟨by simp [TokenizerState.init], by simp [TokenizerState.init]⟩
  intro tok htok
  unfold tokenize_positions tokenize_with tokenize_finish at htok
  simp only [List.enum, List.length_nil] at h
  simp only [List.enum] at htok
  split at htok
  · rcases List.mem_append.1 htok with htok | htok
    · exact h.2 tok htok
    · rw [List.mem_singleton] at htok
      subst htok
      exact h.1
  · exact h.2 tok htok

/-- Inside quotes, characters other than the quote and the backslash join the token. -/
theorem tokenize_loop_in_quotes (s : List Char) (hq : '"' ∉ s) (hb : '\\' ∉ s) :
    ∀ st : TokenizerState Char, st.in_quotes = true → st.is_escaped = false →
      tokenize_loop id st s = { st with current_token := st.current_token ++ s } := by
  induction s with
  | nil => intro st _ _; simp [tokenize_loop_nil]
  | cons c rest ih =>
    intro st hiq hesc
    have hcq : c ≠ '"' := fun h => hq (by simp [h])
    have hcb : c ≠ '\\' := fun h => hb (by simp [h])
    have hstep : tokenize_step id st c
        = ⟨st.arg_storage, st.current_token ++ [c], st.in_quotes, st.is_escaped⟩ := by
      simp [tokenize_step, hesc, hiq, hcq, hcb]
    rw [tokenize_loop_cons, hstep,
      ih (fun h => hq (List.mem_cons_of_mem _ h)) (fun h => hb (List.mem_cons_of_mem _ h))
        ⟨st.arg_storage, st.current_token ++ [c], st.in_quotes, st.is_escaped⟩ hiq hesc]
    simp

/-- A string in which every character is escaped joins the token character by character. -/
theorem tokenize_loop_escape_all (t : List Char) :
    ∀ st : TokenizerState Char, st.is_escaped = false →
      tokenize_loop id st (escape_all t) = { st with current_token := st.current_token ++ t } := by
  induction t with
  | nil => intro st _; simp [escape_all, tokenize_loop_nil]
  | cons c rest ih =>
    intro st hesc
    have h1 : tokenize_step id st '\\'
        = ⟨st.arg_storage, st.current_token, st.in_quotes, true⟩ := by
      simp [tokenize_step, hesc]
    have h2 : tokenize_step id ⟨st.arg_storage, st.current_token, st.in_quotes, true⟩ c
        = ⟨st.arg_storage, st.current_token ++ [c], st.in_quotes, false⟩ := by
      simp [tokenize_step]
    have hcons : escape_all (c :: rest) = '\\' :: c :: escape_all rest := by
      simp [escape_all]
    rw [hcons, tokenize_loop_cons, tokenize_loop_cons, h1, h2,
      ih ⟨st.arg_storage, st.current_token ++ [c], st.in_quotes, false⟩ rfl]
    simp [hesc]

/-- C5: an unescaped double quote toggles `in_quotes` and changes nothing else (it joins
no token); a double quote found in a token was read escaped; a space read in quotes and
not escaped joins the current token; hence `'"' ++ s ++ '"'` yields the single token `s`
for every non-empty `s` without `'"'` and `'\\'`, and `-c "exit 42"` yields
`["-c", "exit 42"]`. -/
theorem C5_quotes :
    (∀ st : TokenizerState Char, st.is_escaped = false →
      tokenize_step id st '"' = { st with in_quotes := !st.in_quotes }) ∧
    (∀ args : List Char,
      (tokenize_positions args).map (List.map Prod.snd) = tokenize_args args ∧
      ∀ tok ∈ tokenize_positions args, ∀ x ∈ tok,
        args[x.1]? = some x.2 ∧ (x.2 = '"' → (flags_at args x.1).2 = true)) ∧
    (∀ st : TokenizerState Char, st.is_escaped = false → st.in_quotes = true →
      tokenize_step id st ' ' = { st with current_token := st.current_token ++ [' '] }) ∧
    (∀ s : List Char, s ≠ [] → '"' ∉ s → '\\' ∉ s →
      tokenize_args ('"' :: (s ++ ['"'])) = [s]) ∧
    tokenize_args "-c \"exit 42\"".toList = ["-c".toList, "exit 42".toList] := by
  refine ⟨?_, ?_, ?_, ?_, by decide⟩
  · intro st hesc
    simp [tokenize_step, hesc]
  · intro args
    refine ⟨tokenize_positions_erase args, ?_⟩
    intro tok htok x hx
    obtain ⟨h1, h2⟩ := tokenize_positions_ok args tok htok x hx
    refine ⟨h1, fun hq => ?_⟩
    rcases h2 with h2 | h2
    · exact h2
    · exact absurd hq h2.2.1
  · intro st hesc hiq
    simp [tokenize_step, hesc, hiq]
  · intro s hs hq hb
    unfold tokenize_args tokenize_with
    rw [tokenize_loop_cons, tokenize_loop_append]
    have h0 : tokenize_step id (TokenizerState.init Char) '"' = ⟨[], [], true, false⟩ := by
      simp [tokenize_step, TokenizerState.init]
    rw [h0, tokenize_loop_in_quotes s hq hb ⟨[], [], true, false⟩ rfl rfl]
    simp [tokenize_loop, tokenize_step, tokenize_finish, hs]

/-- Witness for C5: the state inside quotes holding `ab`, the string `"a "b\"`, and
`s = "exit 42"`. -/
theorem C5_quotes_witness :
    tokenize_step id ⟨[], ['a', 'b'], true, false⟩ '"' = ⟨[], ['a', 'b'], false, false⟩ ∧
    (flags_at "\"a \"b\\\"".toList 6).2 = true ∧
    tokenize_step id ⟨[], ['a', 'b'], true, false⟩ ' ' = ⟨[], ['a', 'b', ' '], true, false⟩ ∧
    tokenize_args ('"' :: ("exit 42".toList ++ ['"'])) = ["exit 42".toList] :=
  ⟨C5_quotes.1 ⟨[], ['a', 'b'], true, false⟩ rfl,
   ((C5_quotes.2.1 "\"a \"b\\\"".toList).2 [(1, 'a'), (2, ' '), (4, 'b'), (6, '"')] (by decide)
      (6, '"') (by decide)).2 rfl,
   C5_quotes.2.2.1 ⟨[], ['a', 'b'], true, false⟩ rfl rfl,
   C5_quotes.2.2.2.1 "exit 42".toList (by decide) (by decide) (by decide)⟩

/-- C6: an unescaped backslash only sets `is_escaped` (it joins no token), and the
character read next joins the current token whatever it is, without a split and without
a change of `in_quotes`, in and out of quotes alike; hence a string in which every
character of a non-empty `t` is preceded by a backslash yields the single token `t`, and
the arguments of `test_complex_arguments` yield the four tokens listed. -/
theorem C6_backslash :
    (∀ st : TokenizerState Char, st.is_escaped = false →
      tokenize_step id st '\\' = { st with is_escaped := true }) ∧
    (∀ (st : TokenizerState Char) (c : Char), st.is_escaped = true →
      tokenize_step id st c
        = { st with current_token := st.current_token ++ [c], is_escaped := false }) ∧
    (∀ t : List Char, t ≠ [] → tokenize_args (escape_all t) = [t]) ∧
    tokenize_args "-DDEFINED_MSG=\\\"Hello World\\\" -v path/to/file".toList
      = ["-DDEFINED_MSG=\"Hello".toList, "World\"".toList, "-v".toList,
         "path/to/file".toList] := by
  refine ⟨?_, ?_, ?_, by decide⟩
  · intro st hesc
    simp [tokenize_step, hesc]
  · intro st c hesc
    simp [tokenize_step, hesc]
  · intro t ht
    unfold tokenize_args tokenize_with
    rw [tokenize_loop_escape_all t (TokenizerState.init Char) rfl]
    simp [tokenize_finish, TokenizerState.init, ht]

/-- Witness for C6: a state outside quotes, a state inside quotes reading an escaped
quote, and `t` made of a space, a quote and a backslash. -/
theorem C6_backslash_witness :
    tokenize_step id ⟨[], ['a'], false, false⟩ '\\' = ⟨[], ['a'], false, true⟩ ∧
    tokenize_step id ⟨[], ['a'], true, true⟩ '"' = ⟨[], ['a', '"'], true, false⟩ ∧
    tokenize_args (escape_all [' ', '"', '\\']) = [[' ', '"', '\\']] :=
  ⟨C6_backslash.1 ⟨[], ['a'], false, false⟩ rfl,
   C6_backslash.2.1 ⟨[], ['a'], true, true⟩ '"' rfl,
   C6_backslash.2.2.1 [' ', '"', '\\'] (by decide)⟩

/-- C7, as amended: of the whitespace characters only the space separates tokens. For
every `args`, a space found in a token was not read outside quotes and unescaped: it was
read inside quotes or right after a backslash. Every other unescaped character that is
neither a backslash nor a double quote, so also a tab or a newline, joins the current
token. -/
theorem C7_space_separates (args : List Char) :
    (tokenize_positions args).map (List.map Prod.snd) = tokenize_args args ∧
    (∀ tok ∈ tokenize_positions args, ∀ x ∈ tok,
      args[x.1]? = some x.2 ∧ (x.2 = ' ' → ¬ plain_at args x.1)) ∧
    (∀ (st : TokenizerState Char) (c : Char), st.is_escaped = false →
      c ≠ '\\' → c ≠ '"' → c ≠ ' ' →
      tokenize_step id st c = { st with current_token := st.current_token ++ [c] }) := by
  refine ⟨tokenize_positions_erase args, ?_, ?_⟩
  swap
  · intro st c hesc hb hq hsp
    simp [tokenize_step, hesc, hb, hq, hsp]
  intro tok htok x hx
  obtain ⟨h1, h2⟩ := tokenize_positions_ok args tok htok x hx
  refine ⟨h1, fun hsp hplain => ?_⟩
  unfold plain_at at hplain
  rw [hplain] at h2
  rcases h2 with h2 | h2
  · exact absurd h2 (by decide)
  · exact absurd (h2.2.2 hsp) (by decide)

/-- Witness for C7 as amended, on `a" "b\ c d`: the spaces at the indices 2 and 6 are kept. -/
theorem C7_space_separates_witness :
    [(0, 'a'), (2, ' '), (4, 'b'), (6, ' '), (7, 'c')] ∈ tokenize_positions "a\" \"b\\ c d".toList ∧
    ("a\" \"b\\ c d".toList[2]? = some ' ' ∧ (' ' = ' ' → ¬ plain_at "a\" \"b\\ c d".toList 2)) ∧
    tokenize_step id ⟨[], ['a'], false, false⟩ '\t' = ⟨[], ['a', '\t'], false, false⟩ :=
  ⟨by decide,
   (C7_space_separates "a\" \"b\\ c d".toList).2.1
     [(0, 'a'), (2, ' '), (4, 'b'), (6, ' '), (7, 'c')] (by decide) (2, ' ') (by decide),
   (C7_space_separates []).2.2 ⟨[], ['a'], false, false⟩ '\t' rfl (by decide) (by decide)
     (by decide)⟩

/-- C7, as stated, fails: in `a<TAB>b` the tab is read outside quotes and unescaped,
yet it is in the token, and the tokenizer produces the single token `a<TAB>b`. -/
theorem C7_tab_counterexample :
    ¬ (∀ tok ∈ tokenize_positions "a\tb".toList, ∀ x ∈ tok,
        isWhitespace x.2 = true → ¬ plain_at "a\tb".toList x.1) ∧
    tokenize_args "a\tb".toList = ["a\tb".toList] := by
  refine ⟨fun h => ?_, by decide⟩
  exact h [(0, 'a'), (1, '\t'), (2, 'b')] (by decide) (1, '\t') (by decide) (by decide)
    (by decide)

/-! ### Exit status -/

/-- The value the parent returns once `pipe` and `fork` have succeeded: the two macros
applied to the local `status`, whatever they are. -/
theorem parent_value (W1 : Int → Bool) (W2 : Int → Int) (command args : List Char)
    (sys : PosixCalls) (hp : sys.pipe_fds ≠ none) (hf1 : sys.fork_pid ≠ -1)
    (hf0 : sys.fork_pid ≠ 0) :
    (spawn_process_sync W1 W2 command args sys).value?
      = some (if W1 sys.status_read then W2 sys.status_read else -1) := by
  unfold spawn_process_sync spawn_process_posix
  cases hpipe : sys.pipe_fds with
  | none => exact absurd hpipe hp
  | some p =>
    obtain ⟨fd0, fd1⟩ := p
    simp only [if_neg hf1, if_neg hf0]
    by_cases hw : W1 sys.status_read = true <;> simp [hw, PosixOutcome.value?]

/-- The Linux macros give back the exit code from the status of a child that exited. -/
theorem linux_exit_status_decoded (c : Nat) (hc : c < 256) :
    (if linux_WIFEXITED (linux_exit_status c) = true
      then linux_WEXITSTATUS (linux_exit_status c) else -1) = (c : Int) := by
  have h1 : linux_WIFEXITED (linux_exit_status c) = true := by
    simp only [linux_WIFEXITED, linux_exit_status, beq_iff_eq]
    omega
  have h2 : linux_WEXITSTATUS (linux_exit_status c) = (c : Int) := by
    simp only [linux_WEXITSTATUS, linux_exit_status]
    omega
  rw [if_pos h1, h2]

/-- When `waitpid` has stored the status of the child: the parent returns
`WEXITSTATUS(status)` when `WIFEXITED(status)` and `-1` otherwise; with the Linux encoding
a child that exits with the code `c` (0 to 255) makes the parent return `c`. -/
theorem parent_value_waited (command args : List Char) (sys : PosixCalls)
    (hp : sys.pipe_fds ≠ none) (hf1 : sys.fork_pid ≠ -1) (hf0 : sys.fork_pid ≠ 0)
    (hw : sys.waitpid_ok = true) :
    (∀ (W1 : Int → Bool) (W2 : Int → Int),
      (spawn_process_sync W1 W2 command args sys).value?
        = some (if W1 sys.status then W2 sys.status else -1)) ∧
    (∀ c : Nat, c < 256 → sys.status = linux_exit_status c →
      (spawn_process_sync linux_WIFEXITED linux_WEXITSTATUS command args sys).value?
        = some (c : Int)) := by
  have hr : sys.status_read = sys.status := by simp [PosixCalls.status_read, hw]
  constructor
  · intro W1 W2
    rw [parent_value W1 W2 command args sys hp hf1 hf0, hr]
  · intro c hc hs
    rw [parent_value _ _ command args sys hp hf1 hf0, hr, hs, linux_exit_status_decoded c hc]

/-- When `waitpid` has stored nothing, the value returned is read from the uninitialised
`status` and does not depend on how the child ended. -/
theorem parent_value_not_waited (W1 : Int → Bool) (W2 : Int → Int) (command args : List Char)
    (sys : PosixCalls) (hp : sys.pipe_fds ≠ none) (hf1 : sys.fork_pid ≠ -1)
    (hf0 : sys.fork_pid ≠ 0) (hw : sys.waitpid_ok = false) :
    (spawn_process_sync W1 W2 command args sys).value?
      = some (if W1 sys.status_uninit then W2 sys.status_uninit else -1) := by
  have hr : sys.status_read = sys.status_uninit := by simp [PosixCalls.status_read, hw]
  rw [parent_value W1 W2 command args sys hp hf1 hf0, hr]

/-- C8, evaluated on the code: `pipe` and `fork` succeed, the child runs
`/bin/sh -c "exit 42"` and exits with 42, and `waitpid` returns `-1` without storing a
status (as it does with `ECHILD` when the parent ignores `SIGCHLD`). The code does not test
the return value of `waitpid` and reads the uninitialised `status`: it returns 0 when that
variable happens to hold 0, and `-1` when it holds 1, not the exit code 42. When `waitpid`
stores the status, the same call returns 42, and a child whose `execvp` fails exits with
127, which the parent returns. -/
theorem C8_waitpid_failure_reads_uninitialised_status :
    (spawn_process_sync linux_WIFEXITED linux_WEXITSTATUS "/bin/sh".toList
        "-c \"exit 42\"".toList
        ⟨[0, 1, 2], some (3, 4), 1234, fun _ => true, [], linux_exit_status 42, false, 0⟩).value?
      = some 0 ∧
    (spawn_process_sync linux_WIFEXITED linux_WEXITSTATUS "/bin/sh".toList
        "-c \"exit 42\"".toList
        ⟨[0, 1, 2], some (3, 4), 1234, fun _ => true, [], linux_exit_status 42, false, 1⟩).value?
      = some (-1) ∧
    (spawn_process_sync linux_WIFEXITED linux_WEXITSTATUS "/bin/sh".toList
        "-c \"exit 42\"".toList
        ⟨[0, 1, 2], some (3, 4), 1234, fun _ => true, [], linux_exit_status 42, true, 0⟩).value?
      = some 42 ∧
    spawn_process_sync linux_WIFEXITED linux_WEXITSTATUS "sdflkjghsdflkjg".toList []
        ⟨[0, 1, 2], some (3, 4), 0, fun _ => false, [], 0, true, 0⟩
      = PosixOutcome.child_exit 127 ∧
    (spawn_process_sync linux_WIFEXITED linux_WEXITSTATUS "sdflkjghsdflkjg".toList []
        ⟨[0, 1, 2], some (3, 4), 1234, fun _ => false, [], linux_exit_status 127, true, 0⟩).value?
      = some 127 := by
  refine ⟨by decide, by decide, by decide, by decide, by decide⟩

/-! ### Scheduler -/

theorem count_of_nil (schedule : ScheduleId) : count_of schedule [] = 0 := rfl

theorem count_of_cons (schedule : ScheduleId) (t : ScheduledTask) (l : List ScheduledTask) :
    count_of schedule (t :: l)
      = count_of schedule l + (if t.schedule_handle = schedule then 1 else 0) := by
  simp [count_of, List.countP_cons]

theorem count_of_append (schedule : ScheduleId) (l₁ l₂ : List ScheduledTask) :
    count_of schedule (l₁ ++ l₂) = count_of schedule l₁ + count_of schedule l₂ := by
  simp [count_of]

theorem count_of_erase (schedule : ScheduleId) (t : ScheduledTask) (l : List ScheduledTask)
    (h : t ∈ l) :
    count_of schedule l
      = count_of schedule (l.erase t) + (if t.schedule_handle = schedule then 1 else 0) := by
  rw [← count_of_cons]
  exact List.Perm.countP_eq _ (List.perm_cons_erase h)

theorem count_erase_mem (x t : ScheduledTask) (l : List ScheduledTask) (h : t ∈ l) :
    l.count x = (l.erase t).count x + (if t = x then 1 else 0) := by
  have := List.Perm.count_eq (List.perm_cons_erase h) x
  rw [this, List.count_cons]
  simp

theorem count_snoc (x t : ScheduledTask) (l : List ScheduledTask) :
    (l ++ [t]).count x = l.count x + (if t = x then 1 else 0) := by
  simp [List.count_append, List.count_cons]

theorem count_cons_ite (x t : ScheduledTask) (l : List ScheduledTask) :
    (t :: l).count x = l.count x + (if t = x then 1 else 0) := by
  simp [List.count_cons]

/-- The entries kept by the erase loop are those of another tag, in order. -/
theorem cancel_loop_kept (tag : TaskTag) (q : List ScheduledTask) :
    ∀ counter, (cancel_loop tag q counter).1 = q.filter (fun t => !decide (t.tag = tag)) := by
  induction q with
  | nil => intro counter; rfl
  | cons t rest ih =>
    intro counter
    by_cases h : t.tag = tag <;> simp [cancel_loop, h, ih]

/-- The entries erased by the erase loop are those of the tag, in order. -/
theorem cancel_loop_erased (tag : TaskTag) (q : List ScheduledTask) :
    ∀ counter, (cancel_loop tag q counter).2.2 = q.filter (fun t => decide (t.tag = tag)) := by
  induction q with
  | nil => intro counter; rfl
  | cons t rest ih =>
    intro counter
    by_cases h : t.tag = tag <;> simp [cancel_loop, h, ih]

/-- Every counter decreases by the number of erased entries that reference it. -/
theorem cancel_loop_counter (tag : TaskTag) (q : List ScheduledTask) :
    ∀ counter schedule, (cancel_loop tag q counter).2.1 schedule
      = counter schedule - (count_of schedule (cancel_loop tag q counter).2.2 : Nat) := by
  induction q with
  | nil => intro counter schedule; simp [cancel_loop, count_of_nil]
  | cons t rest ih =>
    intro counter schedule
    by_cases h : t.tag = tag
    · simp only [cancel_loop, if_pos h, ih, count_of_cons, Function.update_apply]
      by_cases hs : t.schedule_handle = schedule
      · subst hs; simp; omega
      · have hs' : schedule ≠ t.schedule_handle := fun e => hs e.symm
        simp [hs, hs']
    · simp only [cancel_loop, if_neg h, ih]

theorem cancel_loop_count (tag : TaskTag) (q : List ScheduledTask) (counter : ScheduleId → Int)
    (x : ScheduledTask) :
    q.count x = (cancel_loop tag q counter).1.count x + (cancel_loop tag q counter).2.2.count x := by
  rw [cancel_loop_kept, cancel_loop_erased, Nat.add_comm]
  exact List.countP_eq_countP_filter_add q _ _

theorem cancel_loop_count_of (tag : TaskTag) (q : List ScheduledTask)
    (counter : ScheduleId → Int) (schedule : ScheduleId) :
    count_of schedule q = count_of schedule (cancel_loop tag q counter).1
      + count_of schedule (cancel_loop tag q counter).2.2 := by
  rw [cancel_loop_kept, cancel_loop_erased, Nat.add_comm]
  exact List.countP_eq_countP_filter_add q _ _

theorem init_inv (workers : List WorkerId) : (Scheduler.init workers).Inv := by
  constructor <;> intro x <;> simp [Scheduler.init, count_of_nil]

theorem schedule_task_inv (s : Scheduler) (h : s.Inv) (task : TaskId) (tag : TaskTag)
    (schedule : ScheduleId) (priority : Priority) :
    (schedule_task s task tag schedule priority).Inv := by
  obtain ⟨h1, h2, h3, h4⟩ := h
  cases priority
  · constructor
    · intro S
      have := h1 S
      simp only [schedule_task, Scheduler.fetch_add, Function.update_apply, count_of_append,
        count_of_cons, count_of_nil]
      by_cases hs : S = schedule
      · subst hs; simp; omega
      · have hs' : ¬ schedule = S := fun e => hs e.symm
        simp [hs, hs']; omega
    · intro t
      have := h2 t
      simp only [schedule_task, Scheduler.fetch_add, count_snoc]
      omega
    · exact h3
    · exact h4
  · constructor
    · intro S
      have := h1 S
      simp only [schedule_task, Scheduler.fetch_add, Function.update_apply, count_of_append,
        count_of_cons, count_of_nil]
      by_cases hs : S = schedule
      · subst hs; simp; omega
      · have hs' : ¬ schedule = S := fun e => hs e.symm
        simp [hs, hs']; omega
    · intro t
      have := h2 t
      simp only [schedule_task, Scheduler.fetch_add, count_snoc]
      omega
    · exact h3
    · exact h4

/-- What `pop_task` returns: the front of the high-priority queue, else of the normal one. -/
theorem pop_task_some (s s1 : Scheduler) (t : ScheduledTask) (h : pop_task s = some (t, s1)) :
    (s.s_high_priority_queue = t :: s1.s_high_priority_queue ∧
      s1 = { s with s_high_priority_queue := s1.s_high_priority_queue }) ∨
    (s.s_high_priority_queue = [] ∧
      s.s_normal_priority_queue = t :: s1.s_normal_priority_queue ∧
      s1 = { s with s_normal_priority_queue := s1.s_normal_priority_queue }) := by
  unfold pop_task at h
  cases hh : s.s_high_priority_queue with
  | cons a rest =>
    rw [hh] at h
    simp only [Option.some.injEq, Prod.mk.injEq] at h
    obtain ⟨rfl, rfl⟩ := h
    exact Or.inl ⟨rfl, rfl⟩
  | nil =>
    rw [hh] at h
    cases hn : s.s_normal_priority_queue with
    | cons a rest =>
      rw [hn] at h
      simp only [Option.some.injEq, Prod.mk.injEq] at h
      obtain ⟨rfl, rfl⟩ := h
      exact Or.inr ⟨rfl, rfl, rfl⟩
    | nil =>
      rw [hn] at h
      exact absurd h (by simp)

theorem pop_task_none (s : Scheduler) (h : pop_task s = none) :
    s.s_high_priority_queue = [] ∧ s.s_normal_priority_queue = [] := by
  unfold pop_task at h
  cases hh : s.s_high_priority_queue with
  | cons a rest => rw [hh] at h; exact absurd h (by simp)
  | nil =>
    rw [hh] at h
    cases hn : s.s_normal_priority_queue with
    | cons a rest => rw [hn] at h; exact absurd h (by simp)
    | nil => exact ⟨rfl, rfl⟩

theorem take_inv (s s1 : Scheduler) (t : ScheduledTask) (h : s.Inv)
    (hp : pop_task s = some (t, s1)) : (s1.take t).Inv := by
  obtain ⟨h1, h2, h3, h4⟩ := h
  rcases pop_task_some s s1 t hp with ⟨hq, hs1⟩ | ⟨_, hq, hs1⟩
  all_goals
    rw [hs1]
    constructor
    · intro S
      have := h1 S
      rw [hq] at this
      simp only [Scheduler.take, count_of_cons] at this ⊢
      omega
    · intro x
      have := h2 x
      rw [hq] at this
      simp only [Scheduler.take, count_snoc, count_cons_ite] at this ⊢
      omega
    · intro x
      have := h3 x
      simp only [Scheduler.take, count_snoc, count_cons_ite] at this ⊢
      omega
    · exact h4

theorem invoke_inv (s : Scheduler) (t : ScheduledTask) (h : s.Inv) (ht : t ∈ s.taken) :
    (s.invoke t).Inv := by
  obtain ⟨h1, h2, h3, h4⟩ := h
  constructor
  · intro S
    have := h1 S
    rw [count_of_erase S t s.taken ht] at this
    simp only [Scheduler.invoke, count_of_cons] at this ⊢
    omega
  · exact h2
  · intro x
    have := h3 x
    rw [count_erase_mem x t s.taken ht] at this
    simp only [Scheduler.invoke, count_snoc] at this ⊢
    omega
  · intro x
    have := h4 x
    simp only [Scheduler.invoke, count_snoc, count_cons_ite] at this ⊢
    omega

theorem complete_inv (s : Scheduler) (t : ScheduledTask) (h : s.Inv) (ht : t ∈ s.running) :
    (s.complete t).Inv := by
  obtain ⟨h1, h2, h3, h4⟩ := h
  constructor
  · intro S
    have := h1 S
    rw [count_of_erase S t s.running ht] at this
    simp only [Scheduler.complete, Scheduler.fetch_sub, Function.update_apply]
    by_cases hs : S = t.schedule_handle
    · subst hs
      simp only [if_true] at this ⊢
      omega
    · have hs' : ¬ t.schedule_handle = S := fun e => hs e.symm
      simp only [hs, hs', if_false] at this ⊢
      omega
  · exact h2
  · exact h3
  · intro x
    have := h4 x
    rw [count_erase_mem x t s.running ht] at this
    simp only [Scheduler.complete, Scheduler.fetch_sub, count_snoc] at this ⊢
    omega

theorem cancel_inv (s : Scheduler) (tag : TaskTag) (h : s.Inv) :
    (cancel_tasks_of_tag s tag).Inv := by
  obtain ⟨h1, h2, h3, h4⟩ := h
  constructor
  · intro S
    have := h1 S
    have e1 := cancel_loop_count_of tag s.s_high_priority_queue s.counter S
    have e2 := cancel_loop_count_of tag s.s_normal_priority_queue
      (cancel_loop tag s.s_high_priority_queue s.counter).2.1 S
    simp only [cancel_tasks_of_tag]
    rw [cancel_loop_counter, cancel_loop_counter]
    omega
  · intro x
    have := h2 x
    have e1 := cancel_loop_count tag s.s_high_priority_queue s.counter x
    have e2 := cancel_loop_count tag s.s_normal_priority_queue
      (cancel_loop tag s.s_high_priority_queue s.counter).2.1 x
    simp only [cancel_tasks_of_tag, List.count_append]
    omega
  · exact h3
  · exact h4

theorem step_inv (s s1 : Scheduler) (a : Action) (h : s.Inv) (hs : s.step a = some s1) :
    s1.Inv := by
  cases a with
  | schedule_task task tag schedule priority =>
    simp only [Scheduler.step] at hs
    split at hs
    · exact absurd hs (by simp)
    · simp only [Option.some.injEq] at hs
      subst hs
      exact schedule_task_inv s h task tag schedule priority
  | dequeue =>
    simp only [Scheduler.step] at hs
    split at hs
    · rename_i t s2 hp
      simp only [Option.some.injEq] at hs
      subst hs
      exact take_inv s s2 t h hp
    · simp only [Option.some.injEq] at hs
      subst hs
      exact h
  | invoke t =>
    simp only [Scheduler.step] at hs
    split at hs
    · rename_i ht
      simp only [Option.some.injEq] at hs
      subst hs
      exact invoke_inv s t h ht
    · exact absurd hs (by simp)
  | complete t =>
    simp only [Scheduler.step] at hs
    split at hs
    · rename_i ht
      simp only [Option.some.injEq] at hs
      subst hs
      exact complete_inv s t h ht
    · exact absurd hs (by simp)
  | cancel_tasks_of_tag tag =>
    simp only [Scheduler.step, Option.some.injEq] at hs
    subst hs
    exact cancel_inv s tag h

theorem run_inv (actions : List Action) : ∀ s s1 : Scheduler, s.Inv →
    s.run actions = some s1 → s1.Inv := by
  induction actions with
  | nil =>
    intro s s1 h hr
    simp only [Scheduler.run, Option.some.injEq] at hr
    subst hr
    exact h
  | cons a rest ih =>
    intro s s1 h hr
    simp only [Scheduler.run] at hr
    cases hstep : s.step a with
    | none => rw [hstep] at hr; exact absurd hr (by simp)
    | some s2 =>
      rw [hstep] at hr
      exact ih s2 s1 (step_inv s s2 a h hstep) hr

/-- One iteration of the drain loop that found a task keeps the invariant. -/
theorem drain_step_inv (s s1 : Scheduler) (t : ScheduledTask) (h : s.Inv)
    (hp : pop_task s = some (t, s1)) : (((s1.take t).invoke t).complete t).Inv := by
  apply complete_inv
  · apply invoke_inv
    · exact take_inv s s1 t h hp
    · simp [Scheduler.take]
  · simp [Scheduler.invoke]

/-- When the drain loop returns from a state satisfying the invariant, the counter is `0`. -/
theorem wait_loop_returned_zero (schedule : ScheduleId) (fuel : Nat) :
    ∀ s s1 : Scheduler, s.Inv → wait_loop schedule fuel s = some (.returned s1) →
      s1.counter schedule = 0 ∧ s1.Inv := by
  induction fuel with
  | zero => intro s s1 _ h; simp [wait_loop] at h
  | succ fuel ih =>
    intro s s1 hinv h
    rw [wait_loop] at h
    by_cases hc : s.counter schedule > 0
    · rw [if_pos hc] at h
      cases hp : pop_task s with
      | none => rw [hp] at h; simp at h
      | some p =>
        obtain ⟨t, s2⟩ := p
        rw [hp] at h
        exact ih _ s1 (drain_step_inv s s2 t hinv hp) h
    · rw [if_neg hc] at h
      simp only [Option.some.injEq, WaitOutcome.returned.injEq] at h
      subst h
      have := hinv.counter_eq schedule
      exact ⟨by omega, hinv⟩

/-- The effect of one iteration of the drain loop that found the task `t`. -/
theorem drain_step_fields (schedule : ScheduleId) (s s2 : Scheduler) (t : ScheduledTask)
    (hp : pop_task s = some (t, s2)) :
    s.s_high_priority_queue ++ s.s_normal_priority_queue
      = t :: ((((s2.take t).invoke t).complete t).s_high_priority_queue
          ++ (((s2.take t).invoke t).complete t).s_normal_priority_queue) ∧
    (((s2.take t).invoke t).complete t).invoked = s.invoked ++ [t] ∧
    (((s2.take t).invoke t).complete t).submitted = s.submitted ∧
    (((s2.take t).invoke t).complete t).cancelled = s.cancelled ∧
    (((s2.take t).invoke t).complete t).taken = s.taken ∧
    (((s2.take t).invoke t).complete t).running = s.running ∧
    (((s2.take t).invoke t).complete t).counter schedule
      = s.counter schedule - (if t.schedule_handle = schedule then 1 else 0) ∧
    count_of schedule s.s_high_priority_queue + count_of schedule s.s_normal_priority_queue
      = count_of schedule (((s2.take t).invoke t).complete t).s_high_priority_queue
        + count_of schedule (((s2.take t).invoke t).complete t).s_normal_priority_queue
        + (if t.schedule_handle = schedule then 1 else 0) ∧
    s.s_high_priority_queue.length + s.s_normal_priority_queue.length
      = (((s2.take t).invoke t).complete t).s_high_priority_queue.length
        + (((s2.take t).invoke t).complete t).s_normal_priority_queue.length + 1 := by
  have hcounter : (((s2.take t).invoke t).complete t).counter schedule
      = s2.counter schedule - (if t.schedule_handle = schedule then 1 else 0) := by
    simp only [Scheduler.complete, Scheduler.fetch_sub, Scheduler.invoke,
      Scheduler.take, Function.update_apply]
    by_cases hs : schedule = t.schedule_handle
    · simp [hs]
    · have hs' : ¬ t.schedule_handle = schedule := fun e => hs e.symm
      simp [hs, hs']
  have htaken : (((s2.take t).invoke t).complete t).taken = s2.taken := by
    simp [Scheduler.complete, Scheduler.fetch_sub, Scheduler.invoke, Scheduler.take]
  have hrunning : (((s2.take t).invoke t).complete t).running = s2.running := by
    simp [Scheduler.complete, Scheduler.fetch_sub, Scheduler.invoke, Scheduler.take]
  have hhigh : (((s2.take t).invoke t).complete t).s_high_priority_queue
      = s2.s_high_priority_queue := rfl
  have hnormal : (((s2.take t).invoke t).complete t).s_normal_priority_queue
      = s2.s_normal_priority_queue := rfl
  have hinvoked : (((s2.take t).invoke t).complete t).invoked = s2.invoked ++ [t] := rfl
  have hsubmitted : (((s2.take t).invoke t).complete t).submitted = s2.submitted := rfl
  have hcancelled : (((s2.take t).invoke t).complete t).cancelled = s2.cancelled := rfl
  rw [hcounter, htaken, hrunning, hhigh, hnormal, hinvoked, hsubmitted, hcancelled]
  rcases pop_task_some s s2 t hp with ⟨hq, hs2⟩ | ⟨hh, hq, hs2⟩
  · have f1 : s2.s_normal_priority_queue = s.s_normal_priority_queue := by rw [hs2]
    have f2 : s2.counter = s.counter := by rw [hs2]
    have f3 : s2.invoked = s.invoked := by rw [hs2]
    have f4 : s2.submitted = s.submitted := by rw [hs2]
    have f5 : s2.cancelled = s.cancelled := by rw [hs2]
    have f6 : s2.taken = s.taken := by rw [hs2]
    have f7 : s2.running = s.running := by rw [hs2]
    rw [f1, f2, f3, f4, f5, f6, f7, hq]
    refine ⟨by simp, rfl, rfl, rfl, rfl, rfl, rfl, ?_, ?_⟩
    · rw [count_of_cons]; omega
    · simp; omega
  · have f1 : s2.s_high_priority_queue = s.s_high_priority_queue := by rw [hs2]
    have f2 : s2.counter = s.counter := by rw [hs2]
    have f3 : s2.invoked = s.invoked := by rw [hs2]
    have f4 : s2.submitted = s.submitted := by rw [hs2]
    have f5 : s2.cancelled = s.cancelled := by rw [hs2]
    have f6 : s2.taken = s.taken := by rw [hs2]
    have f7 : s2.running = s.running := by rw [hs2]
    rw [f1, f2, f3, f4, f5, f6, f7, hq, hh]
    refine ⟨by simp, rfl, rfl, rfl, rfl, rfl, rfl, ?_, ?_⟩
    · rw [count_of_cons]; omega
    · simp

/-- With every task counted in the schedule still queued, the drain loop returns: it runs
a prefix of the queued tasks, high priority first, and leaves the counter at `0`. -/
theorem wait_loop_returns (schedule : ScheduleId) (fuel : Nat) :
    ∀ s : Scheduler,
      s.counter schedule = (count_of schedule s.s_high_priority_queue
        + count_of schedule s.s_normal_priority_queue : Nat) →
      s.s_high_priority_queue.length + s.s_normal_priority_queue.length < fuel →
      ∃ (s1 : Scheduler) (ran : List ScheduledTask),
        wait_loop schedule fuel s = some (.returned s1) ∧
        s1.counter schedule = 0 ∧
        s1.invoked = s.invoked ++ ran ∧
        s.s_high_priority_queue ++ s.s_normal_priority_queue
          = ran ++ (s1.s_high_priority_queue ++ s1.s_normal_priority_queue) ∧
        count_of schedule s1.s_high_priority_queue
          + count_of schedule s1.s_normal_priority_queue = 0 ∧
        s1.submitted = s.submitted ∧ s1.cancelled = s.cancelled ∧
        s1.taken = s.taken ∧ s1.running = s.running := by
  induction fuel with
  | zero => intro s _ h; omega
  | succ fuel ih =>
    intro s hc hf
    rw [wait_loop]
    by_cases hpos : s.counter schedule > 0
    · rw [if_pos hpos]
      cases hp : pop_task s with
      | none =>
        obtain ⟨hh, hn⟩ := pop_task_none s hp
        rw [hh, hn] at hc
        simp [count_of_nil] at hc
        omega
      | some p =>
        obtain ⟨t, s2⟩ := p
        simp only []
        obtain ⟨e1, e2, e3, e4, e5, e6, e7, e8, e9⟩ := drain_step_fields schedule s s2 t hp
        have hc' : (((s2.take t).invoke t).complete t).counter schedule
            = (count_of schedule (((s2.take t).invoke t).complete t).s_high_priority_queue
              + count_of schedule
                  (((s2.take t).invoke t).complete t).s_normal_priority_queue : Nat) := by
          rw [e7, hc, e8]
          split <;> simp
        obtain ⟨s3, ran, g1, g2, g3, g4, g5, g6, g7, g8, g9⟩ := ih _ hc' (by omega)
        refine ⟨s3, t :: ran, g1, g2, ?_, ?_, g5, ?_, ?_, ?_, ?_⟩
        · rw [g3, e2]; simp
        · rw [e1, g4]; simp
        · rw [g6, e3]
        · rw [g7, e4]
        · rw [g8, e5]
        · rw [g9, e6]
    · rw [if_neg hpos]
      refine ⟨s, [], rfl, by omega, by simp, by simp, ?_, rfl, rfl, rfl, rfl⟩
      have : s.counter schedule ≤ 0 := by omega
      rw [hc] at this
      omega

/-- What submitting a list of tasks on one schedule changes. -/
theorem schedule_all_fields (schedule : ScheduleId)
    (tasks : List (TaskId × TaskTag × Priority)) : ∀ s : Scheduler,
    (schedule_all s schedule tasks).taken = s.taken ∧
    (schedule_all s schedule tasks).running = s.running ∧
    (schedule_all s schedule tasks).dequeued = s.dequeued ∧
    (schedule_all s schedule tasks).invoked = s.invoked ∧
    (schedule_all s schedule tasks).cancelled = s.cancelled ∧
    (schedule_all s schedule tasks).s_schedule_workers = s.s_schedule_workers ∧
    (schedule_all s schedule tasks).submitted = s.submitted ++ tasks.map (entry_of schedule) ∧
    (∀ t ∈ (schedule_all s schedule tasks).s_high_priority_queue
          ++ (schedule_all s schedule tasks).s_normal_priority_queue,
      t ∈ s.s_high_priority_queue ++ s.s_normal_priority_queue ∨ t.schedule_handle = schedule) ∧
    (s.Inv → (schedule_all s schedule tasks).Inv) := by
  induction tasks with
  | nil =>
    intro s
    exact ⟨rfl, rfl, rfl, rfl, rfl, rfl, by simp [schedule_all], fun t ht => Or.inl ht,
      fun h => h⟩
  | cons x rest ih =>
    intro s
    obtain ⟨task, tag, priority⟩ := x
    obtain ⟨h1, h2, h3, h4, h5, h6, h7, h8, h9⟩ :=
      ih (schedule_task s task tag schedule priority)
    simp only [schedule_all]
    have hsub : (schedule_task s task tag schedule priority).submitted
        = s.submitted ++ [entry_of schedule (task, tag, priority)] := by
      cases priority <;> rfl
    refine ⟨?_, ?_, ?_, ?_, ?_, ?_, ?_, ?_, ?_⟩
    · rw [h1]; cases priority <;> rfl
    · rw [h2]; cases priority <;> rfl
    · rw [h3]; cases priority <;> rfl
    · rw [h4]; cases priority <;> rfl
    · rw [h5]; cases priority <;> rfl
    · rw [h6]; cases priority <;> rfl
    · rw [h7, hsub]; simp
    · intro t ht
      rcases h8 t ht with h | h
      · cases priority
        · simp only [schedule_task, Scheduler.fetch_add, List.mem_append,
            List.mem_singleton] at h
          rcases h with (h | h) | h
          · exact Or.inl (List.mem_append.2 (Or.inl h))
          · exact Or.inr (by rw [h])
          · exact Or.inl (List.mem_append.2 (Or.inr h))
        · simp only [schedule_task, Scheduler.fetch_add, List.mem_append,
            List.mem_singleton] at h
          rcases h with h | h | h
          · exact Or.inl (List.mem_append.2 (Or.inl h))
          · exact Or.inl (List.mem_append.2 (Or.inr h))
          · exact Or.inr (by rw [h])
      · exact Or.inr h
    · intro hinv
      exact h9 (schedule_task_inv s hinv task tag schedule priority)

theorem count_of_eq_length (schedule : ScheduleId) (l : List ScheduledTask)
    (h : ∀ t ∈ l, t.schedule_handle = schedule) : count_of schedule l = l.length := by
  unfold count_of
  rw [List.countP_eq_length]
  intro t ht
  simp [h t ht]

/-- Tasks submitted on one schedule of a fresh scheduler and then drained by the calling
thread: the drain returns and has invoked exactly the submitted tasks. -/
theorem drain_after_schedule_all (workers : List WorkerId) (hw : workers ≠ [])
    (schedule : ScheduleId) (tasks : List (TaskId × TaskTag × Priority)) :
    ∃ s1 : Scheduler,
      wait_for_schedule_completion (schedule_all (Scheduler.init workers) schedule tasks)
        schedule = some (.returned s1) ∧
      s1.submitted = tasks.map (entry_of schedule) ∧
      s1.cancelled = [] ∧ s1.running = [] ∧ s1.taken = [] ∧
      s1.counter schedule = 0 ∧
      s1.invoked.length = tasks.length ∧
      (∀ t, s1.invoked.count t = s1.submitted.count t) := by
  obtain ⟨h1, h2, h3, h4, h5, h6, h7, h8, h9⟩ :=
    schedule_all_fields schedule tasks (Scheduler.init workers)
  have hinv := h9 (init_inv workers)
  generalize schedule_all (Scheduler.init workers) schedule tasks = s0 at *
  have hS : ∀ t ∈ s0.s_high_priority_queue ++ s0.s_normal_priority_queue,
      t.schedule_handle = schedule := by
    intro t ht
    rcases h8 t ht with h | h
    · simp [Scheduler.init] at h
    · exact h
  have hc : s0.counter schedule = (count_of schedule s0.s_high_priority_queue
      + count_of schedule s0.s_normal_priority_queue : Nat) := by
    have := hinv.counter_eq schedule
    rw [h1, h2] at this
    simp only [Scheduler.init, count_of_nil] at this
    omega
  obtain ⟨s1, ran, g1, g2, g3, g4, g5, g6, g7, g8, g9⟩ :=
    wait_loop_returns schedule
      (s0.s_high_priority_queue.length + s0.s_normal_priority_queue.length + 1) s0 hc
      (by omega)
  have hrest : s1.s_high_priority_queue ++ s1.s_normal_priority_queue = [] := by
    have hall : ∀ t ∈ s1.s_high_priority_queue ++ s1.s_normal_priority_queue,
        t.schedule_handle = schedule := by
      intro t ht
      apply hS
      rw [g4]
      exact List.mem_append.2 (Or.inr ht)
    have := count_of_eq_length schedule _ hall
    rw [count_of_append, g5] at this
    exact List.eq_nil_of_length_eq_zero this.symm
  rw [hrest, List.append_nil] at g4
  have hwork : s0.s_schedule_workers.isEmpty = false := by
    rw [h6]
    cases workers with
    | nil => exact absurd rfl hw
    | cons a l => rfl
  have hcount : ∀ t, s1.invoked.count t = s1.submitted.count t := by
    intro t
    have := hinv.submitted_eq t
    rw [h3, h5] at this
    simp only [Scheduler.init, List.count_nil] at this
    rw [g3, h4, g6, this, ← g4]
    simp [Scheduler.init]
  refine ⟨s1, ?_, ?_, ?_, ?_, ?_, g2, ?_, hcount⟩
  · simp only [wait_for_schedule_completion, hwork]
    exact g1
  · rw [g6, h7]; simp [Scheduler.init]
  · rw [g7, h5]; rfl
  · rw [g9, h2]; rfl
  · rw [g8, h1]; rfl
  · have hperm : s1.invoked.Perm s1.submitted := List.perm_iff_count.2 hcount
    rw [hperm.length_eq, g6, h7]
    simp [Scheduler.init]

theorem count_le_count_of (t : ScheduledTask) (l : List ScheduledTask) :
    l.count t ≤ count_of t.schedule_handle l := by
  unfold count_of List.count
  apply List.countP_mono_left
  intro x _ hx
  have : x = t := by simpa using hx
  simp [this]

/-- C9: along every run of the scheduler steps from an initialised scheduler, for every
task `t`: it is dequeued at most as often as it was submitted; its callable is invoked at
most as often as it was dequeued, so only after a dequeue; a submission is either
cancelled or invoked, never both, so a task submitted once and cancelled is never
invoked; and once the counter of its schedule is `0`, it has been invoked or cancelled
exactly as often as it was submitted and every invocation has completed. Tasks submitted
on one schedule of a fresh scheduler and drained by `wait_for_schedule_completion` are
each invoked exactly as often as submitted: once per submission. -/
theorem C9_runs_once :
    (∀ (workers : List WorkerId) (actions : List Action) (s : Scheduler),
      (Scheduler.init workers).run actions = some s →
      ∀ t : ScheduledTask,
        s.dequeued.count t ≤ s.submitted.count t ∧
        s.invoked.count t ≤ s.dequeued.count t ∧
        s.invoked.count t + s.cancelled.count t ≤ s.submitted.count t ∧
        (s.submitted.count t = 1 → t ∈ s.cancelled → t ∉ s.invoked) ∧
        (s.counter t.schedule_handle = 0 →
          s.invoked.count t + s.cancelled.count t = s.submitted.count t ∧
          s.completed.count t = s.invoked.count t)) ∧
    (∀ (workers : List WorkerId) (schedule : ScheduleId)
        (tasks : List (TaskId × TaskTag × Priority)), workers ≠ [] →
      ∃ s1 : Scheduler,
        wait_for_schedule_completion (schedule_all (Scheduler.init workers) schedule tasks)
          schedule = some (.returned s1) ∧
        s1.submitted = tasks.map (entry_of schedule) ∧
        s1.invoked.length = tasks.length ∧
        ∀ t, s1.invoked.count t = s1.submitted.count t) := by
  constructor
  · intro workers actions s hrun t
    have hinv := run_inv actions _ s (init_inv workers) hrun
    have h1 := hinv.counter_eq t.schedule_handle
    have h2 := hinv.submitted_eq t
    have h3 := hinv.dequeued_eq t
    have h4 := hinv.invoked_eq t
    refine ⟨by omega, by omega, by omega, ?_, ?_⟩
    · intro hone hc hi
      have c1 : 0 < s.cancelled.count t := List.count_pos_iff.2 hc
      have c2 : 0 < s.invoked.count t := List.count_pos_iff.2 hi
      omega
    · intro hzero
      have b1 := count_le_count_of t s.s_high_priority_queue
      have b2 := count_le_count_of t s.s_normal_priority_queue
      have b3 := count_le_count_of t s.taken
      have b4 := count_le_count_of t s.running
      rw [hzero] at h1
      constructor <;> omega
  · intro workers schedule tasks hw
    obtain ⟨s1, g1, g2, _, _, _, _, g7, g8⟩ :=
      drain_after_schedule_all workers hw schedule tasks
    exact ⟨s1, g1, g2, g7, g8⟩

/-- Witness for C9: one task is submitted, dequeued, invoked and completed, and a second
one is submitted and cancelled; and two tasks are submitted and drained. -/
theorem C9_runs_once_witness :
    (let s := ((Scheduler.init [1, 2]).run
        [Action.schedule_task 100 5 7 Priority.Normal, Action.dequeue,
         Action.invoke ⟨5, 7, 100⟩, Action.schedule_task 101 6 7 Priority.High,
         Action.cancel_tasks_of_tag 6, Action.complete ⟨5, 7, 100⟩]).getD (Scheduler.init []);
      ∀ t : ScheduledTask,
        s.dequeued.count t ≤ s.submitted.count t ∧
        s.invoked.count t ≤ s.dequeued.count t ∧
        s.invoked.count t + s.cancelled.count t ≤ s.submitted.count t ∧
        (s.submitted.count t = 1 → t ∈ s.cancelled → t ∉ s.invoked) ∧
        (s.counter t.schedule_handle = 0 →
          s.invoked.count t + s.cancelled.count t = s.submitted.count t ∧
          s.completed.count t = s.invoked.count t)) ∧
    ∃ s1 : Scheduler,
      wait_for_schedule_completion
        (schedule_all (Scheduler.init [1, 2]) 7 [(100, 5, Priority.Normal), (101, 6, Priority.High)])
        7 = some (.returned s1) ∧
      s1.submitted = [(100, 5, Priority.Normal), (101, 6, Priority.High)].map (entry_of 7) ∧
      s1.invoked.length = [(100, 5, Priority.Normal), (101, 6, Priority.High)].length ∧
      ∀ t, s1.invoked.count t = s1.submitted.count t :=
  ⟨C9_runs_once.1 [1, 2]
     [Action.schedule_task 100 5 7 Priority.Normal, Action.dequeue,
      Action.invoke ⟨5, 7, 100⟩, Action.schedule_task 101 6 7 Priority.High,
      Action.cancel_tasks_of_tag 6, Action.complete ⟨5, 7, 100⟩] _ rfl,
   C9_runs_once.2 [1, 2] 7 [(100, 5, Priority.Normal), (101, 6, Priority.High)] (by decide)⟩

/-- C10: in every state reached by a run of the scheduler steps the loop condition
`counter > 0` of `wait_for_schedule_completion` can only fail with the counter at `0`, and
when the drain by the calling thread returns from such a state the counter of its
schedule is `0`. When only the calling thread takes tasks and every task counted in the
schedule is queued, the drain returns with the counter at `0` after invoking a prefix of
the queued tasks, so at most as many tasks as are queued. -/
theorem C10_wait_counter_zero :
    (∀ (workers : List WorkerId) (actions : List Action) (s : Scheduler)
        (schedule : ScheduleId),
      (Scheduler.init workers).run actions = some s →
      (¬ (s.counter schedule > 0) → s.counter schedule = 0) ∧
      ∀ s1 : Scheduler, wait_for_schedule_completion s schedule = some (.returned s1) →
        s1.counter schedule = 0) ∧
    (∀ (s : Scheduler) (schedule : ScheduleId), s.s_schedule_workers ≠ [] →
      s.counter schedule = (count_of schedule s.s_high_priority_queue
        + count_of schedule s.s_normal_priority_queue : Nat) →
      ∃ (s1 : Scheduler) (ran : List ScheduledTask),
        wait_for_schedule_completion s schedule = some (.returned s1) ∧
        s1.counter schedule = 0 ∧
        s1.invoked = s.invoked ++ ran ∧
        ran <+: s.s_high_priority_queue ++ s.s_normal_priority_queue ∧
        ran.length ≤ s.s_high_priority_queue.length + s.s_normal_priority_queue.length) := by
  constructor
  · intro workers actions s schedule hrun
    have hinv := run_inv actions _ s (init_inv workers) hrun
    constructor
    · intro hle
      have := hinv.counter_eq schedule
      omega
    · intro s1 hw
      unfold wait_for_schedule_completion at hw
      split at hw
      · simp at hw
      · exact (wait_loop_returned_zero schedule _ s s1 hinv hw).1
  · intro s schedule hw hc
    obtain ⟨s1, ran, g1, g2, g3, g4, _⟩ :=
      wait_loop_returns schedule
        (s.s_high_priority_queue.length + s.s_normal_priority_queue.length + 1) s hc
        (by omega)
    have hwork : s.s_schedule_workers.isEmpty = false := by
      cases hl : s.s_schedule_workers with
      | nil => exact absurd hl hw
      | cons a l => rfl
    refine ⟨s1, ran, ?_, g2, g3, ⟨_, g4.symm⟩, ?_⟩
    · simp only [wait_for_schedule_completion, hwork]
      exact g1
    · have := congrArg List.length g4
      simp only [List.length_append] at this
      omega

/-- Witness for C10: a run in which one task completed and one was cancelled, and a
scheduler with two queued tasks of the schedule 7. -/
theorem C10_wait_counter_zero_witness :
    (let s := ((Scheduler.init [1, 2]).run
        [Action.schedule_task 100 5 7 Priority.Normal, Action.dequeue,
         Action.invoke ⟨5, 7, 100⟩, Action.schedule_task 101 6 7 Priority.High,
         Action.cancel_tasks_of_tag 6, Action.complete ⟨5, 7, 100⟩]).getD (Scheduler.init []);
      (¬ (s.counter 7 > 0) → s.counter 7 = 0) ∧
      ∀ s1 : Scheduler, wait_for_schedule_completion s 7 = some (.returned s1) →
        s1.counter 7 = 0) ∧
    (let s := schedule_all (Scheduler.init [1]) 7
        [(100, 5, Priority.Normal), (101, 6, Priority.High)];
      ∃ (s1 : Scheduler) (ran : List ScheduledTask),
        wait_for_schedule_completion s 7 = some (.returned s1) ∧
        s1.counter 7 = 0 ∧
        s1.invoked = s.invoked ++ ran ∧
        ran <+: s.s_high_priority_queue ++ s.s_normal_priority_queue ∧
        ran.length ≤ s.s_high_priority_queue.length + s.s_normal_priority_queue.length) :=
  ⟨C10_wait_counter_zero.1 [1, 2]
     [Action.schedule_task 100 5 7 Priority.Normal, Action.dequeue,
      Action.invoke ⟨5, 7, 100⟩, Action.schedule_task 101 6 7 Priority.High,
      Action.cancel_tasks_of_tag 6, Action.complete ⟨5, 7, 100⟩] _ 7 rfl,
   C10_wait_counter_zero.2
     (schedule_all (Scheduler.init [1]) 7 [(100, 5, Priority.Normal), (101, 6, Priority.High)])
     7 (by decide) (by decide)⟩

/-! ### Cancellation -/

/-- The erase loop on a queue without an entry of the tag changes nothing. -/
theorem cancel_loop_absent (tag : TaskTag) (q : List ScheduledTask)
    (h : ∀ t ∈ q, t.tag ≠ tag) : ∀ counter, cancel_loop tag q counter = (q, counter, []) := by
  induction q with
  | nil => intro counter; rfl
  | cons t rest ih =>
    intro counter
    have ht : t.tag ≠ tag := h t (by simp)
    have hr : ∀ x ∈ rest, x.tag ≠ tag := fun x hx => h x (List.mem_cons_of_mem _ hx)
    simp [cancel_loop, ht, ih hr]

/-- C11: `cancel_tasks_of_tag(tag)` leaves in each queue exactly the entries of another
tag, in their order; the counter of every schedule decreases by the number of removed
entries that reference it, so it is unchanged when no removed entry references it; the
tasks held by threads and the pool are untouched; and when no queued entry has the tag,
the whole state is unchanged. -/
theorem C11_cancel_frame (s : Scheduler) (tag : TaskTag) :
    (cancel_tasks_of_tag s tag).s_high_priority_queue
        = s.s_high_priority_queue.filter (fun t => !decide (t.tag = tag)) ∧
    (cancel_tasks_of_tag s tag).s_normal_priority_queue
        = s.s_normal_priority_queue.filter (fun t => !decide (t.tag = tag)) ∧
    (∀ schedule, (cancel_tasks_of_tag s tag).counter schedule
        = s.counter schedule
          - ((count_of schedule (s.s_high_priority_queue.filter (fun t => decide (t.tag = tag)))
              + count_of schedule
                  (s.s_normal_priority_queue.filter (fun t => decide (t.tag = tag))) : Nat) : Int)) ∧
    (∀ schedule,
      (∀ t ∈ s.s_high_priority_queue ++ s.s_normal_priority_queue,
        t.tag = tag → t.schedule_handle ≠ schedule) →
      (cancel_tasks_of_tag s tag).counter schedule = s.counter schedule) ∧
    (cancel_tasks_of_tag s tag).taken = s.taken ∧
    (cancel_tasks_of_tag s tag).running = s.running ∧
    (cancel_tasks_of_tag s tag).s_schedule_workers = s.s_schedule_workers ∧
    ((∀ t ∈ s.s_high_priority_queue ++ s.s_normal_priority_queue, t.tag ≠ tag) →
      cancel_tasks_of_tag s tag = s) := by
  have hcounter : ∀ schedule, (cancel_tasks_of_tag s tag).counter schedule
        = s.counter schedule
          - ((count_of schedule (s.s_high_priority_queue.filter (fun t => decide (t.tag = tag)))
              + count_of schedule
                  (s.s_normal_priority_queue.filter (fun t => decide (t.tag = tag))) : Nat) : Int) := by
    intro schedule
    simp only [cancel_tasks_of_tag]
    rw [cancel_loop_counter, cancel_loop_counter, cancel_loop_erased, cancel_loop_erased]
    push_cast
    omega
  refine ⟨?_, ?_, hcounter, ?_, rfl, rfl, rfl, ?_⟩
  · simp only [cancel_tasks_of_tag, cancel_loop_kept]
  · simp only [cancel_tasks_of_tag, cancel_loop_kept]
  · intro schedule hno
    rw [hcounter]
    have z : ∀ q : List ScheduledTask, (∀ t ∈ q, t.tag = tag → t.schedule_handle ≠ schedule) →
        count_of schedule (q.filter (fun t => decide (t.tag = tag))) = 0 := by
      intro q hq
      unfold count_of
      rw [List.countP_eq_zero]
      intro t ht
      rw [List.mem_filter] at ht
      have := hq t ht.1 (by simpa using ht.2)
      simpa using this
    rw [z _ (fun t ht => hno t (List.mem_append.2 (Or.inl ht))),
      z _ (fun t ht => hno t (List.mem_append.2 (Or.inr ht)))]
    simp
  · intro hno
    have h1 := cancel_loop_absent tag s.s_high_priority_queue
      (fun t ht => hno t (List.mem_append.2 (Or.inl ht))) s.counter
    have h2 := cancel_loop_absent tag s.s_normal_priority_queue
      (fun t ht => hno t (List.mem_append.2 (Or.inr ht))) s.counter
    cases s
    simp only [cancel_tasks_of_tag] at h1 h2 ⊢
    simp [h1, h2]

/-- Witness for C11: queue entries of the tags 5 and 6 on the schedules 7 and 8; tag 5
is cancelled, which leaves the counter of the schedule 8 alone, and so is the absent tag 9. -/
theorem C11_cancel_frame_witness :
    (cancel_tasks_of_tag
        (schedule_task (schedule_task (Scheduler.init [1]) 100 5 7 Priority.High)
          101 6 8 Priority.Normal) 5).counter 8
      = (schedule_task (schedule_task (Scheduler.init [1]) 100 5 7 Priority.High)
          101 6 8 Priority.Normal).counter 8 ∧
    cancel_tasks_of_tag
        (schedule_task (schedule_task (Scheduler.init [1]) 100 5 7 Priority.High)
          101 6 8 Priority.Normal) 9
      = schedule_task (schedule_task (Scheduler.init [1]) 100 5 7 Priority.High)
          101 6 8 Priority.Normal :=
  ⟨(C11_cancel_frame
      (schedule_task (schedule_task (Scheduler.init [1]) 100 5 7 Priority.High)
        101 6 8 Priority.Normal) 5).2.2.2.1 8 (by decide),
   (C11_cancel_frame
      (schedule_task (schedule_task (Scheduler.init [1]) 100 5 7 Priority.High)
        101 6 8 Priority.Normal) 9).2.2.2.2.2.2.2 (by decide)⟩

/-! ### Dequeue order -/

theorem schedule_task_queue (s : Scheduler) (task : TaskId) (tag : TaskTag)
    (schedule : ScheduleId) (priority p : Priority) :
    (schedule_task s task tag schedule priority).queue p
      = s.queue p ++ (if priority = p then
          [{ tag := tag, schedule_handle := schedule, task := task }] else []) := by
  cases priority <;> cases p <;> simp [schedule_task, Scheduler.queue, Scheduler.fetch_add]

/-- The critical section takes `popped_from p s` off the front of the queue `p`. -/
theorem pop_task_queue (s s1 : Scheduler) (t : ScheduledTask) (p : Priority)
    (h : pop_task s = some (t, s1)) :
    s.queue p = popped_from p s ++ (s1.take t).queue p := by
  rcases pop_task_some s s1 t h with ⟨hq, hs1⟩ | ⟨hh, hq, hs1⟩
  · have hn : s1.s_normal_priority_queue = s.s_normal_priority_queue := by rw [hs1]
    cases p
    · simp [Scheduler.queue, popped_from, Scheduler.take, hq]
    · simp [Scheduler.queue, popped_from, Scheduler.take, hq, hn]
  · have hn : s1.s_high_priority_queue = s.s_high_priority_queue := by rw [hs1]
    cases p
    · simp [Scheduler.queue, popped_from, Scheduler.take, hh, hn]
    · simp [Scheduler.queue, popped_from, Scheduler.take, hq, hh]

theorem pop_none_popped_from (s : Scheduler) (p : Priority) (h : pop_task s = none) :
    popped_from p s = [] := by
  obtain ⟨hh, hn⟩ := pop_task_none s h
  cases p <;> simp [popped_from, hh, hn]

theorem cancel_queue (s : Scheduler) (tag : TaskTag) (p : Priority) :
    (cancel_tasks_of_tag s tag).queue p
      = (s.queue p).filter (fun t => !decide (t.tag = tag)) := by
  cases p <;> simp only [cancel_tasks_of_tag, Scheduler.queue, cancel_loop_kept]

/-- What a step does to the queue of a priority. -/
theorem step_queue (s s1 : Scheduler) (a : Action) (p : Priority) (h : s.step a = some s1) :
    List.Sublist (pops p s [a] ++ s1.queue p) (s.queue p ++ submissions p [a]) ∧
    (a.is_cancel = false → pops p s [a] ++ s1.queue p = s.queue p ++ submissions p [a]) := by
  cases a with
  | schedule_task task tag schedule priority =>
    have hs := h
    simp only [Scheduler.step] at h
    split at h
    · exact absurd h (by simp)
    · simp only [Option.some.injEq] at h
      subst h
      have e : pops p s [Action.schedule_task task tag schedule priority] = [] := by
        simp [pops, hs]
      rw [e, schedule_task_queue]
      simp [submissions]
  | dequeue =>
    have hs := h
    simp only [Scheduler.step] at h
    cases hp : pop_task s with
    | none =>
      rw [hp] at h
      simp only [Option.some.injEq] at h
      subst h
      have e : pops p s [Action.dequeue] = [] := by
        simp [pops, hs, pop_none_popped_from s p hp]
      rw [e]
      simp [submissions]
    | some r =>
      obtain ⟨t, s2⟩ := r
      rw [hp] at h
      simp only [Option.some.injEq] at h
      subst h
      have e : pops p s [Action.dequeue] = popped_from p s := by
        simp [pops, hs]
      rw [e, ← pop_task_queue s s2 t p hp]
      simp [submissions]
  | invoke t =>
    have hs := h
    simp only [Scheduler.step] at h
    split at h
    · simp only [Option.some.injEq] at h
      subst h
      have e : pops p s [Action.invoke t] = [] := by simp [pops, hs]
      have q : (s.invoke t).queue p = s.queue p := by cases p <;> rfl
      rw [e, q]
      simp [submissions]
    · exact absurd h (by simp)
  | complete t =>
    have hs := h
    simp only [Scheduler.step] at h
    split at h
    · simp only [Option.some.injEq] at h
      subst h
      have e : pops p s [Action.complete t] = [] := by simp [pops, hs]
      have q : (s.complete t).queue p = s.queue p := by cases p <;> rfl
      rw [e, q]
      simp [submissions]
    · exact absurd h (by simp)
  | cancel_tasks_of_tag tag =>
    have hs := h
    simp only [Scheduler.step, Option.some.injEq] at h
    subst h
    have e : pops p s [Action.cancel_tasks_of_tag tag] = [] := by simp [pops, hs]
    rw [e, cancel_queue]
    simp [submissions, Action.is_cancel]

theorem pops_cons (p : Priority) (s s1 : Scheduler) (a : Action) (rest : List Action)
    (h : s.step a = some s1) : pops p s (a :: rest) = pops p s [a] ++ pops p s1 rest := by
  simp [pops, h]

theorem submissions_cons (p : Priority) (a : Action) (rest : List Action) :
    submissions p (a :: rest) = submissions p [a] ++ submissions p rest := by
  cases a <;> simp [submissions]

/-- Along a run, what was popped from a queue followed by what is left in it is a
subsequence of what it held followed by what was submitted to it. -/
theorem pops_sublist (p : Priority) (actions : List Action) : ∀ s0 s : Scheduler,
    s0.run actions = some s →
    List.Sublist (pops p s0 actions ++ s.queue p) (s0.queue p ++ submissions p actions) := by
  induction actions with
  | nil =>
    intro s0 s h
    simp only [Scheduler.run, Option.some.injEq] at h
    subst h
    simp [pops, submissions]
  | cons a rest ih =>
    intro s0 s h
    simp only [Scheduler.run] at h
    cases hstep : s0.step a with
    | none => rw [hstep] at h; exact absurd h (by simp)
    | some s1 =>
      rw [hstep] at h
      have h1 := (step_queue s0 s1 a p hstep).1
      have h2 := ih s1 s h
      rw [pops_cons p s0 s1 a rest hstep, submissions_cons, List.append_assoc,
        ← List.append_assoc (s0.queue p)]
      exact (List.Sublist.append_left h2 _).trans (by
        rw [← List.append_assoc]
        exact List.Sublist.append_right h1 _)

/-- Along a run without cancellation, what was popped from a queue followed by what is
left in it is what it held followed by what was submitted to it. -/
theorem pops_eq (p : Priority) (actions : List Action) : ∀ s0 s : Scheduler,
    (∀ a ∈ actions, a.is_cancel = false) → s0.run actions = some s →
    pops p s0 actions ++ s.queue p = s0.queue p ++ submissions p actions := by
  induction actions with
  | nil =>
    intro s0 s _ h
    simp only [Scheduler.run, Option.some.injEq] at h
    subst h
    simp [pops, submissions]
  | cons a rest ih =>
    intro s0 s hno h
    simp only [Scheduler.run] at h
    cases hstep : s0.step a with
    | none => rw [hstep] at h; exact absurd h (by simp)
    | some s1 =>
      rw [hstep] at h
      have h1 := (step_queue s0 s1 a p hstep).2 (hno a (by simp))
      have h2 := ih s1 s (fun b hb => hno b (List.mem_cons_of_mem _ hb)) h
      rw [pops_cons p s0 s1 a rest hstep, submissions_cons, List.append_assoc, h2,
        ← List.append_assoc, h1, List.append_assoc]

/-- C12: `schedule_task` appends the task at the tail of the queue of its priority and
leaves the other queue as it is; the critical section, which the step relation, the
drain loop and the worker loop all run, takes the front of the high-priority queue when
that queue is non-empty and else the front of the normal queue; so a task is taken from
the normal queue only when the high-priority queue is empty; and along every run from
an initialised scheduler the tasks popped from the queue of a priority, followed by
those still in it, are a subsequence of the tasks submitted with that priority in
submission order, and are exactly those tasks when nothing was cancelled. -/
theorem C12_dequeue_order :
    (∀ (s : Scheduler) (task : TaskId) (tag : TaskTag) (schedule : ScheduleId),
      (schedule_task s task tag schedule Priority.High).s_high_priority_queue
          = s.s_high_priority_queue ++ [⟨tag, schedule, task⟩] ∧
      (schedule_task s task tag schedule Priority.High).s_normal_priority_queue
          = s.s_normal_priority_queue ∧
      (schedule_task s task tag schedule Priority.Normal).s_normal_priority_queue
          = s.s_normal_priority_queue ++ [⟨tag, schedule, task⟩] ∧
      (schedule_task s task tag schedule Priority.Normal).s_high_priority_queue
          = s.s_high_priority_queue) ∧
    (∀ (s : Scheduler) (t : ScheduledTask) (rest : List ScheduledTask),
      (s.s_high_priority_queue = t :: rest →
        pop_task s = some (t, { s with s_high_priority_queue := rest })) ∧
      (s.s_high_priority_queue = [] → s.s_normal_priority_queue = t :: rest →
        pop_task s = some (t, { s with s_normal_priority_queue := rest })) ∧
      (s.s_high_priority_queue = [] → s.s_normal_priority_queue = [] → pop_task s = none)) ∧
    (∀ (s s1 : Scheduler) (t : ScheduledTask), pop_task s = some (t, s1) →
      s.s_high_priority_queue ≠ [] →
      s.s_high_priority_queue = t :: s1.s_high_priority_queue ∧
      s1.s_normal_priority_queue = s.s_normal_priority_queue) ∧
    (∀ (s s1 : Scheduler) (t : ScheduledTask), pop_task s = some (t, s1) →
      s.step Action.dequeue = some (s1.take t) ∧
      (∀ (schedule : ScheduleId) (fuel : Nat), s.counter schedule > 0 →
        wait_loop schedule (fuel + 1) s
          = wait_loop schedule fuel (((s1.take t).invoke t).complete t)) ∧
      worker_step false s WorkerPc.waiting = (WorkerPc.running t, s1.take t)) ∧
    (∀ (workers : List WorkerId) (actions : List Action) (s : Scheduler) (p : Priority),
      (Scheduler.init workers).run actions = some s →
      List.Sublist (pops p (Scheduler.init workers) actions ++ s.queue p)
        (submissions p actions) ∧
      ((∀ a ∈ actions, a.is_cancel = false) →
        pops p (Scheduler.init workers) actions ++ s.queue p = submissions p actions)) := by
  refine ⟨?_, ?_, ?_, ?_, ?_⟩
  · intro s task tag schedule
    exact ⟨rfl, rfl, rfl, rfl⟩
  · intro s t rest
    refine ⟨?_, ?_, ?_⟩
    · intro h; simp [pop_task, h]
    · intro h1 h2; simp [pop_task, h1, h2]
    · intro h1 h2; simp [pop_task, h1, h2]
  · intro s s1 t hp hne
    rcases pop_task_some s s1 t hp with ⟨hq, hs1⟩ | ⟨hh, _, _⟩
    · exact ⟨hq, by rw [hs1]⟩
    · exact absurd hh hne
  · intro s s1 t hp
    refine ⟨by simp [Scheduler.step, hp], ?_, ?_⟩
    · intro schedule fuel hc
      simp [wait_loop, hc, hp]
    · have hne : s.s_high_priority_queue ≠ [] ∨ s.s_normal_priority_queue ≠ [] := by
        rcases pop_task_some s s1 t hp with ⟨hq, _⟩ | ⟨_, hq, _⟩
        · exact Or.inl (by rw [hq]; simp)
        · exact Or.inr (by rw [hq]; simp)
      rcases hne with hne | hne
      · simp [worker_step, hp, hne]
      · simp [worker_step, hp, hne]
  · intro workers actions s p hrun
    have h1 := pops_sublist p actions _ s hrun
    have hq : (Scheduler.init workers).queue p = [] := by cases p <;> rfl
    rw [hq, List.nil_append] at h1
    refine ⟨h1, fun hno => ?_⟩
    have h2 := pops_eq p actions _ s hno hrun
    rw [hq, List.nil_append] at h2
    exact h2

/-- Witness for C12 on `example_scheduler`, whose high-priority queue holds the task 101
and whose normal queue holds the task 100, and on a run that submits both and pops twice. -/
theorem C12_dequeue_order_witness :
    pop_task example_scheduler
      = some (⟨6, 7, 101⟩, { example_scheduler with s_high_priority_queue := [] }) ∧
    (example_scheduler.s_high_priority_queue
        = ⟨6, 7, 101⟩ :: ({ example_scheduler with s_high_priority_queue := [] } : Scheduler).s_high_priority_queue ∧
      ({ example_scheduler with s_high_priority_queue := [] } : Scheduler).s_normal_priority_queue
        = example_scheduler.s_normal_priority_queue) ∧
    worker_step false example_scheduler WorkerPc.waiting
      = (WorkerPc.running ⟨6, 7, 101⟩,
         ({ example_scheduler with s_high_priority_queue := [] } : Scheduler).take ⟨6, 7, 101⟩) ∧
    pops Priority.Normal (Scheduler.init [1])
        [Action.schedule_task 100 5 7 Priority.Normal, Action.schedule_task 101 6 7 Priority.High,
         Action.schedule_task 102 5 7 Priority.Normal, Action.dequeue, Action.dequeue]
      ++ (((Scheduler.init [1]).run
        [Action.schedule_task 100 5 7 Priority.Normal, Action.schedule_task 101 6 7 Priority.High,
         Action.schedule_task 102 5 7 Priority.Normal, Action.dequeue,
         Action.dequeue]).getD (Scheduler.init [])).queue Priority.Normal
      = submissions Priority.Normal
        [Action.schedule_task 100 5 7 Priority.Normal, Action.schedule_task 101 6 7 Priority.High,
         Action.schedule_task 102 5 7 Priority.Normal, Action.dequeue, Action.dequeue] :=
  ⟨(C12_dequeue_order.2.1 example_scheduler ⟨6, 7, 101⟩ []).1 rfl,
   C12_dequeue_order.2.2.1 example_scheduler
     { example_scheduler with s_high_priority_queue := [] } ⟨6, 7, 101⟩ rfl (by decide),
   (C12_dequeue_order.2.2.2.1 example_scheduler
     { example_scheduler with s_high_priority_queue := [] } ⟨6, 7, 101⟩ rfl).2.2,
   (C12_dequeue_order.2.2.2.2 [1]
     [Action.schedule_task 100 5 7 Priority.Normal, Action.schedule_task 101 6 7 Priority.High,
      Action.schedule_task 102 5 7 Priority.Normal, Action.dequeue, Action.dequeue]
     _ Priority.Normal rfl).2 (by decide)⟩

/-! ### Worker loop, pool size -/

/-- C13, evaluated on the code: one worker on `example_scheduler` waits, pops the
high-priority task 101, and while it runs that task `terminate_scheduler` requests stop.
After the task the worker evaluates the loop condition and exits, although the normal
queue still holds the task 100, whose schedule counter stays at 1. The `return` inside
the loop does drain first: reached with stop requested and a non-empty queue, it pops. -/
theorem C13_worker_exits_with_queued_task :
    (worker_run [false, false, true, true] (WorkerPc.loop_test, example_scheduler)).1
      = WorkerPc.exited ∧
    (worker_run [false, false, true, true]
      (WorkerPc.loop_test, example_scheduler)).2.s_normal_priority_queue = [⟨5, 7, 100⟩] ∧
    (worker_run [false, false, true, true] (WorkerPc.loop_test, example_scheduler)).2.counter 7
      = 1 ∧
    (worker_run [false, false, true, true] (WorkerPc.loop_test, example_scheduler)).2.invoked
      = [⟨6, 7, 101⟩] ∧
    (worker_step true example_scheduler WorkerPc.waiting).1 = WorkerPc.running ⟨6, 7, 101⟩ ∧
    (worker_step true example_scheduler WorkerPc.loop_test).1 = WorkerPc.exited := by
  refine ⟨by decide, by decide, by decide, by decide, by decide, by decide⟩

theorem effective_worker_count_zero (h : Nat) :
    effective_worker_count 0 h = if h ≤ 2 then 2 else min 255 (h - 2) := by
  unfold effective_worker_count
  simp only [if_true]
  by_cases h2 : h ≤ 2
  · have : ¬ h > 2 := by omega
    simp [h2, this]
  · have h3 : h > 2 := by omega
    simp only [h2, h3, if_true, if_false]
    by_cases h4 : h - 2 > 255
    · rw [if_pos h4]; omega
    · rw [if_neg h4]; omega

/-- C14, as amended: for every hardware concurrency `h`, `initialize_scheduler(0)` uses
2 workers when `h ≤ 2` and `min(255, h - 2)` workers when `h > 2`; this is
`min(255, max(2, h - 2))` for every `h` other than 3. -/
theorem C14_effective_worker_count (h : Nat) :
    effective_worker_count 0 h = (if h ≤ 2 then 2 else min 255 (h - 2)) ∧
    (h ≠ 3 → effective_worker_count 0 h = min 255 (max 2 (h - 2))) ∧
    (∀ s : Scheduler, s.s_schedule_workers = [] →
      ∃ s1, initialize_scheduler s 0 h = .ok s1 ∧
        s1.s_schedule_workers.length = effective_worker_count 0 h) := by
  refine ⟨effective_worker_count_zero h, ?_, ?_⟩
  · intro h3
    rw [effective_worker_count_zero]
    split <;> omega
  · intro s hs
    refine ⟨_, rfl, ?_⟩
    simp only [hs]
    generalize effective_worker_count 0 h = n
    have : ∀ (n : Nat) (ws : List WorkerId),
        ((List.range n).foldl (fun workers i => workers ++ [(i + 1) % 65536]) ws).length
          = ws.length + n := by
      intro n
      induction n with
      | zero => intro ws; simp
      | succ n ih => intro ws; simp [List.range_succ, List.foldl_append, ih]; omega
    simpa using this n []

/-- Witness for C14 as amended, at `h = 16` and the fresh scheduler. -/
theorem C14_effective_worker_count_witness :
    effective_worker_count 0 16 = min 255 (max 2 (16 - 2)) ∧
    ∃ s1, initialize_scheduler (Scheduler.init []) 0 16 = .ok s1 ∧
      s1.s_schedule_workers.length = effective_worker_count 0 16 :=
  ⟨(C14_effective_worker_count 16).2.1 (by decide),
   (C14_effective_worker_count 16).2.2 (Scheduler.init []) rfl⟩

/-- C14, as stated, fails at `h = 3`: the code uses `3 - 2 = 1` worker, not
`min(255, max(2, 3 - 2)) = 2`. -/
theorem C14_three_cores_counterexample :
    effective_worker_count 0 3 = 1 ∧
    effective_worker_count 0 3 ≠ min 255 (max 2 (3 - 2)) := by
  constructor <;> decide

theorem spawn_workers_eq (n : Nat) : ∀ ws : List WorkerId,
    (List.range n).foldl (fun workers i => workers ++ [(i + 1) % 65536]) ws
      = ws ++ (List.range n).map (fun i => (i + 1) % 65536) := by
  induction n with
  | zero => intro ws; simp
  | succ n ih => intro ws; simp [List.range_succ, List.foldl_append, ih]

theorem worker_ids_eq (n : Nat) (hn : n ≤ 65535) :
    (List.range n).map (fun i => (i + 1) % 65536) = List.range' 1 n := by
  rw [List.range'_eq_map_range]
  apply List.map_congr_left
  intro i hi
  have : i < n := List.mem_range.1 hi
  show (i + 1) % 65536 = 1 + i
  omega

/-- `initialize_scheduler(n)` for `1 ≤ n ≤ 255` on an empty pool. -/
theorem initialize_on_empty (s : Scheduler) (n hw : Nat) (h1 : 1 ≤ n) (h2 : n ≤ 255)
    (hs : s.s_schedule_workers = []) :
    initialize_scheduler s n hw = .ok { s with s_schedule_workers := List.range' 1 n } := by
  have hn : effective_worker_count n hw = n := by
    unfold effective_worker_count
    rw [if_neg (by omega)]
  unfold initialize_scheduler
  rw [hn, spawn_workers_eq, worker_ids_eq n (by omega), hs, List.nil_append]

/-- C15: for `1 ≤ n ≤ 255`, after `terminate_scheduler()` the pool is empty and
`get_worker_count()` is 0; `initialize_scheduler(n)` on an empty pool succeeds and leaves
exactly the workers with the ids `1, ..., n`, so `get_worker_count()` is `n`; and
initialize(4), terminate, initialize(1) from an empty pool gives the counts 4 and 1. -/
theorem C15_pool_size (n : Nat) (h1 : 1 ≤ n) (h2 : n ≤ 255) (s : Scheduler) (hw : Nat) :
    (terminate_scheduler s).s_schedule_workers = [] ∧
    get_worker_count (terminate_scheduler s) = 0 ∧
    (s.s_schedule_workers = [] →
      initialize_scheduler s n hw = .ok { s with s_schedule_workers := List.range' 1 n } ∧
      get_worker_count { s with s_schedule_workers := List.range' 1 n } = n) ∧
    (∃ s1 s2 : Scheduler,
      initialize_scheduler (terminate_scheduler s) 4 hw = .ok s1 ∧ get_worker_count s1 = 4 ∧
      initialize_scheduler (terminate_scheduler s1) 1 hw = .ok s2 ∧ get_worker_count s2 = 1) := by
  refine ⟨rfl, rfl, ?_, ?_⟩
  · intro hs
    refine ⟨initialize_on_empty s n hw h1 h2 hs, ?_⟩
    show (List.range' 1 n).length % 65536 = n
    rw [List.length_range']
    omega
  · refine ⟨_, _, initialize_on_empty (terminate_scheduler s) 4 hw (by omega) (by omega) rfl,
      rfl, initialize_on_empty _ 1 hw (by omega) (by omega) rfl, rfl⟩

/-- Witness for C15 at `n = 3` on the fresh scheduler without workers. -/
theorem C15_pool_size_witness :
    (1 ≤ 3 ∧ 3 ≤ 255) ∧
    get_worker_count (terminate_scheduler (Scheduler.init [])) = 0 ∧
    initialize_scheduler (Scheduler.init []) 3 8
      = .ok { Scheduler.init [] with s_schedule_workers := List.range' 1 3 } ∧
    get_worker_count { Scheduler.init [] with s_schedule_workers := List.range' 1 3 } = 3 :=
  ⟨by decide,
   (C15_pool_size 3 (by decide) (by decide) (Scheduler.init []) 8).2.1,
   ((C15_pool_size 3 (by decide) (by decide) (Scheduler.init []) 8).2.2.1 rfl).1,
   ((C15_pool_size 3 (by decide) (by decide) (Scheduler.init []) 8).2.2.1 rfl).2⟩

/-! ### Mapping registry -/

/-- C16: after `unmap_file(p)` the registry has no entry for `p` and the entry of every
other pointer is unchanged; when `p` has no entry the registry is unchanged and no
release call is made; hence a second `unmap_file(p)` changes nothing and calls nothing. -/
theorem C16_unmap_file (reg : Registry) (p : Nat) :
    (unmap_file reg p).1 p = none ∧
    (∀ q, q ≠ p → (unmap_file reg p).1 q = reg q) ∧
    (reg p = none → unmap_file reg p = (reg, [])) ∧
    unmap_file (unmap_file reg p).1 p = ((unmap_file reg p).1, []) := by
  have h1 : (unmap_file reg p).1 p = none := by
    unfold unmap_file
    cases h : reg p with
    | none => simpa using h
    | some handles => simp
  have h3 : ∀ r : Registry, r p = none → unmap_file r p = (r, []) := by
    intro r hr
    unfold unmap_file
    rw [hr]
  refine ⟨h1, ?_, h3 reg, h3 _ h1⟩
  intro q hq
  unfold unmap_file
  cases h : reg p with
  | none => rfl
  | some handles => simp [Function.update_apply, hq]

/-- Witness for C16: a registry with the single entry `(fd 5, address 4096, size 100)` at
the pointer 4096; the pointer 8192 has no entry. -/
theorem C16_unmap_file_witness :
    (unmap_file (fun q => if q = 4096 then some ⟨5, 4096, 100⟩ else none) 4096).1 8192
      = (fun q => if q = 4096 then some ⟨5, 4096, 100⟩ else none) 8192 ∧
    unmap_file (fun q => if q = 4096 then some ⟨5, 4096, 100⟩ else none) 8192
      = ((fun q => if q = 4096 then some ⟨5, 4096, 100⟩ else none), []) ∧
    (unmap_file (fun q => if q = 4096 then some ⟨5, 4096, 100⟩ else none) 4096).2
      = [ReleaseCall.munmap 4096 100, ReleaseCall.close 5] :=
  ⟨(C16_unmap_file (fun q => if q = 4096 then some ⟨5, 4096, 100⟩ else none) 4096).2.1 8192
     (by decide),
   (C16_unmap_file (fun q => if q = 4096 then some ⟨5, 4096, 100⟩ else none) 8192).2.2.1 rfl,
   by decide⟩

/-! ### File I/O -/

/-- Without overwriting, a path that names something: the two outcomes. -/
theorem write_existing (fs : FileSystem) (path contents : List Char) (node : Node)
    (h : fs.node path = some node) :
    write_text_file fs path contents false
      = (if fs.blocked path then
          (.error ("Failed to write to file: " ++ String.mk path), fs)
         else (.error ("File already exists: " ++ String.mk path), fs)) ∧
    write_binary_file fs path contents false
      = (if fs.blocked path then
          (.error ("Failed to write to file: " ++ String.mk path), fs)
         else (.error ("File already exists: " ++ String.mk path), fs)) := by
  cases hb : fs.blocked path <;> simp [write_text_file, write_binary_file, fopen, h, hb]

/-- C17, as amended: when `path` names an existing file, `write_text_file(path, contents,
false)` and `write_binary_file(path, contents, false)` fail and leave the file system, so
also the contents of the file, unchanged. The message is `File already exists: ` followed
by the path when `open` gets as far as the file, where it fails with `EEXIST`; when `open`
fails before that (a directory of the path may not be searched, no descriptor is left),
the message is `Failed to write to file: ` followed by the path. -/
theorem C17_no_overwrite (fs : FileSystem) (path contents : List Char) (node : Node)
    (h : fs.node path = some node) :
    (fs.blocked path = false →
      write_text_file fs path contents false
        = (.error ("File already exists: " ++ String.mk path), fs) ∧
      write_binary_file fs path contents false
        = (.error ("File already exists: " ++ String.mk path), fs)) ∧
    (fs.blocked path = true →
      write_text_file fs path contents false
        = (.error ("Failed to write to file: " ++ String.mk path), fs) ∧
      write_binary_file fs path contents false
        = (.error ("Failed to write to file: " ++ String.mk path), fs)) ∧
    (∃ message, (write_text_file fs path contents false).1 = .error message) ∧
    (∃ message, (write_binary_file fs path contents false).1 = .error message) ∧
    (write_text_file fs path contents false).2 = fs ∧
    (write_binary_file fs path contents false).2 = fs ∧
    (write_text_file fs path contents false).2.node path = some node ∧
    (write_binary_file fs path contents false).2.node path = some node := by
  obtain ⟨h1, h2⟩ := write_existing fs path contents node h
  cases hb : fs.blocked path
  · rw [hb] at h1 h2
    simp only [Bool.false_eq_true, if_false] at h1 h2
    rw [h1, h2]
    exact ⟨fun _ => ⟨rfl, rfl⟩, fun hc => absurd hc (by simp), ⟨_, rfl⟩, ⟨_, rfl⟩, rfl, rfl, h, h⟩
  · rw [hb] at h1 h2
    simp only [if_true] at h1 h2
    rw [h1, h2]
    exact ⟨fun hc => absurd hc (by simp), fun _ => ⟨rfl, rfl⟩, ⟨_, rfl⟩, ⟨_, rfl⟩, rfl, rfl, h, h⟩

/-- Witness for C17 as amended: the file `a.txt` holding `old`. -/
theorem C17_no_overwrite_witness :
    (write_text_file
        ⟨fun p => if p = "a.txt".toList then some (Node.regular "old".toList true true) else none,
         fun _ => false, fun _ => true, true, true⟩ "a.txt".toList "new".toList false).1
      = .error ("File already exists: " ++ String.mk "a.txt".toList) ∧
    (write_text_file
        ⟨fun p => if p = "a.txt".toList then some (Node.regular "old".toList true true) else none,
         fun _ => false, fun _ => true, true, true⟩ "a.txt".toList "new".toList
        false).2.node "a.txt".toList
      = some (Node.regular "old".toList true true) :=
  ⟨congrArg Prod.fst ((C17_no_overwrite
      ⟨fun p => if p = "a.txt".toList then some (Node.regular "old".toList true true) else none,
       fun _ => false, fun _ => true, true, true⟩ "a.txt".toList "new".toList
      (Node.regular "old".toList true true) (by decide)).1 rfl).1,
   (C17_no_overwrite
      ⟨fun p => if p = "a.txt".toList then some (Node.regular "old".toList true true) else none,
       fun _ => false, fun _ => true, true, true⟩ "a.txt".toList "new".toList
      (Node.regular "old".toList true true) (by decide)).2.2.2.2.2.2.1⟩

/-- C17, as stated, fails for an existing file in a directory that the process may not
search: `d/a.txt` holds `old`, `open` fails on the path before it reaches the file, and
the two functions return `Failed to write to file: d/a.txt`, not
`File already exists: d/a.txt`. The file is unchanged. -/
theorem C17_unsearchable_directory_counterexample :
    (write_text_file
        ⟨fun p => if p = "d/a.txt".toList then some (Node.regular "old".toList true true) else none,
         fun p => p = "d/a.txt".toList, fun _ => false, true, true⟩
        "d/a.txt".toList "new".toList false).1
      = .error "Failed to write to file: d/a.txt" ∧
    (write_binary_file
        ⟨fun p => if p = "d/a.txt".toList then some (Node.regular "old".toList true true) else none,
         fun p => p = "d/a.txt".toList, fun _ => false, true, true⟩
        "d/a.txt".toList "new".toList false).1
      = .error "Failed to write to file: d/a.txt" ∧
    (write_text_file
        ⟨fun p => if p = "d/a.txt".toList then some (Node.regular "old".toList true true) else none,
         fun p => p = "d/a.txt".toList, fun _ => false, true, true⟩
        "d/a.txt".toList "new".toList false).1
      ≠ .error "File already exists: d/a.txt" ∧
    (write_text_file
        ⟨fun p => if p = "d/a.txt".toList then some (Node.regular "old".toList true true) else none,
         fun p => p = "d/a.txt".toList, fun _ => false, true, true⟩
        "d/a.txt".toList "new".toList false).2.node "d/a.txt".toList
      = some (Node.regular "old".toList true true) := by
  have h1 : (write_text_file
        ⟨fun p => if p = "d/a.txt".toList then some (Node.regular "old".toList true true) else none,
         fun p => p = "d/a.txt".toList, fun _ => false, true, true⟩
        "d/a.txt".toList "new".toList false).1
      = .error "Failed to write to file: d/a.txt" := by
    simp [write_text_file, fopen]
  refine ⟨h1, ?_, ?_, ?_⟩
  · simp [write_binary_file, fopen]
  · rw [h1]
    intro h
    injection h with h
    exact absurd h (by decide)
  · simp [write_text_file, fopen]

/-- C19: for every access and mode, the flags passed to `open` are the access flag, one
of `O_RDONLY`, `O_WRONLY`, `O_RDWR`, combined with the creation flags of the mode; their
access bits are the access flag alone; `open` with these flags does what the mode table
says on an existing and on a missing file; and `native_open_file` fails exactly when
`open` returns `-1`, returning the descriptor otherwise. -/
theorem C19_native_open (access : FileAccess) (mode : FileMode) :
    native_open_flags access mode = access_flag access ||| mode_flags mode ∧
    (access_flag access = O_RDONLY ∨ access_flag access = O_WRONLY
      ∨ access_flag access = O_RDWR) ∧
    native_open_flags access mode &&& 3 = access_flag access ∧
    open_outcome true (native_open_flags access mode) = (mode_table mode).1 ∧
    open_outcome false (native_open_flags access mode) = (mode_table mode).2 ∧
    (∀ (sys_open : List Char → Nat → Nat → Int × Nat) (path : List Char) (permissions : Nat),
      ((∃ message, native_open_file sys_open path access mode permissions = .error message)
        ↔ (sys_open path (native_open_flags access mode) permissions).1 = -1) ∧
      ((sys_open path (native_open_flags access mode) permissions).1 ≠ -1 →
        native_open_file sys_open path access mode permissions
          = .ok (sys_open path (native_open_flags access mode) permissions).1)) := by
  refine ⟨?_, ?_, ?_, ?_, ?_, ?_⟩
  · cases access <;> cases mode <;> decide
  · cases access <;> decide
  · cases access <;> cases mode <;> decide
  · cases access <;> cases mode <;> decide
  · cases access <;> cases mode <;> decide
  · intro sys_open path permissions
    unfold native_open_file
    by_cases h : (sys_open path (native_open_flags access mode) permissions).1 = -1
    · simp [h]
    · simp [h]

/-- Witness for C19: `CreateNew` with `ReadWrite`, and an `open` that returns the
descriptor 3. -/
theorem C19_native_open_witness :
    native_open_flags FileAccess.ReadWrite FileMode.CreateNew = O_RDWR ||| (O_CREAT ||| O_EXCL) ∧
    native_open_file (fun _ _ _ => (3, 0)) "a.txt".toList FileAccess.ReadWrite
        FileMode.CreateNew 420 = .ok 3 :=
  ⟨(C19_native_open FileAccess.ReadWrite FileMode.CreateNew).1,
   ((C19_native_open FileAccess.ReadWrite FileMode.CreateNew).2.2.2.2.2
      (fun _ _ _ => (3, 0)) "a.txt".toList 420).2 (by decide)⟩

/-! ### Executable paths -/

theorem path_filename_suffix (p : List Char) : path_filename p <:+ p := by
  unfold path_filename
  rw [← List.reverse_prefix, List.reverse_reverse]
  exact List.takeWhile_prefix _

/-- The extension is a suffix of the path. -/
theorem path_extension_suffix (p : List Char) : path_extension p <:+ p := by
  unfold path_extension
  simp only
  split
  · exact List.nil_suffix
  · split
    · exact List.nil_suffix
    · split
      · exact List.nil_suffix
      · exact (List.drop_suffix _ _).trans (path_filename_suffix p)

/-- Removing the extension and putting it back gives the path. -/
theorem path_remove_extension_append (p : List Char) :
    path_remove_extension p ++ path_extension p = p := by
  obtain ⟨t, ht⟩ := path_extension_suffix p
  unfold path_remove_extension
  have hl : p.length - (path_extension p).length = t.length := by
    have := congrArg List.length ht
    simp only [List.length_append] at this
    omega
  have h2 : p.take t.length = t := by
    have := congrArg (List.take t.length) ht
    simpa using this.symm
  rw [hl, h2, ht]

theorem path_is_relative_take (p : List Char) (k : Nat) (h : path_is_relative p = true) :
    path_is_relative (p.take k) = true := by
  cases p with
  | nil => simpa using h
  | cons c rest =>
    cases k with
    | zero => simp [path_is_relative]
    | succ k => simpa [path_is_relative] using h

theorem starts_with_iff (s pre : List Char) : starts_with s pre = true ↔ pre <+: s := by
  unfold starts_with
  exact List.isPrefixOf_iff_prefix

/-- The two tests and the final choice of `normalize_executable_path`, on the path `q`
left after the extension step. -/
theorem normalize_choice (q : List Char) :
    (if path_is_relative q = true then
        (if (!starts_with q "./".toList && !starts_with q "../".toList) = true then
          "./".toList ++ q else q)
      else q)
      = (if path_is_relative q = true ∧ ¬ "./".toList <+: q ∧ ¬ "../".toList <+: q
          then "./".toList ++ q else q) := by
  by_cases hr : path_is_relative q = true
  · rw [if_pos hr]
    cases h1 : starts_with q "./".toList
    · cases h2 : starts_with q "../".toList
      · have n1 : ¬ "./".toList <+: q := by
          intro h
          rw [(starts_with_iff q _).2 h] at h1
          exact Bool.noConfusion h1
        have n2 : ¬ "../".toList <+: q := by
          intro h
          rw [(starts_with_iff q _).2 h] at h2
          exact Bool.noConfusion h2
        rw [if_pos (show (!false && !false) = true from rfl), if_pos ⟨hr, n1, n2⟩]
      · rw [if_neg (show ¬ (!false && !true) = true by decide),
          if_neg (fun h => h.2.2 ((starts_with_iff q _).1 h2))]
    · rw [if_neg (show ¬ (!true && !starts_with q "../".toList) = true by simp),
        if_neg (fun h => h.2.1 ((starts_with_iff q _).1 h1))]
  · rw [if_neg hr, if_neg (fun h => hr h.1)]

/-- C20: when the extension of `p` is `.exe`, `p` ends with it and it is removed, else
`p` is kept; then `./` is put in front when that path is relative and starts with neither
`./` nor `../`, else it is returned as it is. Hence an absolute path whose extension is
not `.exe` is returned unchanged, and the result for a relative path starts with `./` or
`../`. -/
theorem C20_normalize (p : List Char) :
    (path_extension p = ".exe".toList → p = path_remove_extension p ++ ".exe".toList) ∧
    normalize_executable_path p
      = (if path_is_relative
              (if path_extension p = ".exe".toList then path_remove_extension p else p) = true
            ∧ ¬ "./".toList <+: (if path_extension p = ".exe".toList then
                  path_remove_extension p else p)
            ∧ ¬ "../".toList <+: (if path_extension p = ".exe".toList then
                  path_remove_extension p else p)
         then "./".toList
            ++ (if path_extension p = ".exe".toList then path_remove_extension p else p)
         else (if path_extension p = ".exe".toList then path_remove_extension p else p)) ∧
    (path_is_relative p = false → path_extension p ≠ ".exe".toList →
      normalize_executable_path p = p) ∧
    (path_is_relative p = true →
      "./".toList <+: normalize_executable_path p
        ∨ "../".toList <+: normalize_executable_path p) := by
  have hdef : normalize_executable_path p
      = (if path_is_relative
              (if path_extension p = ".exe".toList then path_remove_extension p else p) = true
            ∧ ¬ "./".toList <+: (if path_extension p = ".exe".toList then
                  path_remove_extension p else p)
            ∧ ¬ "../".toList <+: (if path_extension p = ".exe".toList then
                  path_remove_extension p else p)
         then "./".toList
            ++ (if path_extension p = ".exe".toList then path_remove_extension p else p)
         else (if path_extension p = ".exe".toList then path_remove_extension p else p)) :=
    normalize_choice _
  refine ⟨?_, hdef, ?_, ?_⟩
  · intro h
    have := path_remove_extension_append p
    rw [h] at this
    exact this.symm
  · intro habs hext
    rw [hdef, if_neg hext, if_neg]
    intro h
    rw [habs] at h
    exact Bool.noConfusion h.1
  · intro hrel
    have hq : path_is_relative
        (if path_extension p = ".exe".toList then path_remove_extension p else p) = true := by
      split
      · exact path_is_relative_take p _ hrel
      · exact hrel
    rw [hdef]
    generalize (if path_extension p = ".exe".toList then path_remove_extension p else p) = q at hq
    by_cases h1 : "./".toList <+: q
    · rw [if_neg (fun h => h.2.1 h1)]
      exact Or.inl h1
    · by_cases h2 : "../".toList <+: q
      · rw [if_neg (fun h => h.2.2 h2)]
        exact Or.inr h2
      · rw [if_pos ⟨hq, h1, h2⟩]
        exact Or.inl (List.prefix_append _ _)

/-- Witness for C20: `tool.exe` becomes `./tool`, and `/usr/bin/tool` stays as it is. -/
theorem C20_normalize_witness :
    "tool.exe".toList = path_remove_extension "tool.exe".toList ++ ".exe".toList ∧
    normalize_executable_path "/usr/bin/tool".toList = "/usr/bin/tool".toList ∧
    ("./".toList <+: normalize_executable_path "tool.exe".toList
      ∨ "../".toList <+: normalize_executable_path "tool.exe".toList) :=
  ⟨(C20_normalize "tool.exe".toList).1 (by decide),
   (C20_normalize "/usr/bin/tool".toList).2.2.1 (by decide) (by decide),
   (C20_normalize "tool.exe".toList).2.2.2 (by decide)⟩

/-! ### The schedule counter -/

theorem step_ledger (s s1 : Scheduler) (a : Action) (h : s.Ledger) (hs : s.step a = some s1) :
    s1.Ledger := by
  intro S
  have hS := h S
  cases a with
  | schedule_task task tag schedule priority =>
    simp only [Scheduler.step] at hs
    split at hs
    · exact absurd hs (by simp)
    · simp only [Option.some.injEq] at hs
      subst hs
      cases priority
      all_goals
        simp only [schedule_task, Scheduler.fetch_add, Function.update_apply, count_of_append,
          count_of_cons, count_of_nil]
        by_cases e : S = schedule
        · subst e; simp; omega
        · have e' : ¬ schedule = S := fun x => e x.symm
          simp [e, e']; omega
  | dequeue =>
    simp only [Scheduler.step] at hs
    split at hs
    · rename_i t s2 hp
      simp only [Option.some.injEq] at hs
      subst hs
      rcases pop_task_some s s2 t hp with ⟨_, hs2⟩ | ⟨_, _, hs2⟩
      all_goals
        rw [hs2]
        simpa [Scheduler.take] using hS
    · simp only [Option.some.injEq] at hs
      subst hs
      exact hS
  | invoke t =>
    simp only [Scheduler.step] at hs
    split at hs
    · simp only [Option.some.injEq] at hs
      subst hs
      simpa [Scheduler.invoke] using hS
    · exact absurd hs (by simp)
  | complete t =>
    simp only [Scheduler.step] at hs
    split at hs
    · simp only [Option.some.injEq] at hs
      subst hs
      simp only [Scheduler.complete, Scheduler.fetch_sub, Function.update_apply,
        count_of_append, count_of_cons, count_of_nil]
      by_cases e : S = t.schedule_handle
      · subst e; simp; omega
      · have e' : ¬ t.schedule_handle = S := fun x => e x.symm
        simp [e, e']; omega
    · exact absurd hs (by simp)
  | cancel_tasks_of_tag tag =>
    simp only [Scheduler.step, Option.some.injEq] at hs
    subst hs
    simp only [cancel_tasks_of_tag, count_of_append]
    rw [cancel_loop_counter, cancel_loop_counter]
    push_cast
    omega

theorem run_ledger (actions : List Action) : ∀ s s1 : Scheduler, s.Ledger →
    s.run actions = some s1 → s1.Ledger := by
  induction actions with
  | nil =>
    intro s s1 h hr
    simp only [Scheduler.run, Option.some.injEq] at hr
    subst hr
    exact h
  | cons a rest ih =>
    intro s s1 h hr
    simp only [Scheduler.run] at hr
    cases hstep : s.step a with
    | none => rw [hstep] at hr; exact absurd hr (by simp)
    | some s2 =>
      rw [hstep] at hr
      exact ih s2 s1 (step_ledger s s2 a h hstep) hr

theorem async_writes_parent (sys : PosixCalls) (hp : sys.pipe_fds ≠ none)
    (h1 : sys.fork_pid ≠ -1) (h0 : sys.fork_pid ≠ 0) :
    spawn_process_async_writes sys
      = [HandleWrite.is_running true, HandleWrite.id sys.fork_pid, HandleWrite.id 0,
         HandleWrite.is_running false] := by
  unfold spawn_process_async_writes spawn_process_posix_id_stores
  cases h : sys.pipe_fds with
  | none => exact absurd h hp
  | some p => simp [h1, h0]

theorem async_writes_no_child (sys : PosixCalls)
    (h : sys.pipe_fds = none ∨ sys.fork_pid = -1 ∨ sys.fork_pid = 0) :
    spawn_process_async_writes sys
      = [HandleWrite.is_running true, HandleWrite.is_running false] := by
  unfold spawn_process_async_writes spawn_process_posix_id_stores
  cases hp : sys.pipe_fds with
  | none => rfl
  | some p =>
    rcases h with h | h | h
    · rw [hp] at h; exact absurd h (by simp)
    · simp [h]
    · simp [h]

/-- C24, as amended: in an asynchronous spawn whose `fork` succeeds, the writes to the
handle are, in order, `is_running = true`, `id = pid`, `id = 0`, `is_running = false`. So
`is_running` becomes true before the PID is stored and `id` is reset before `is_running`
becomes false; and at every point of every asynchronous spawn, `is_active()` is true only
while the PID of the child is stored in `id`, which is after exactly two writes. -/
theorem C24_handle_writes (sys : PosixCalls) :
    (sys.pipe_fds ≠ none → sys.fork_pid ≠ -1 → sys.fork_pid ≠ 0 →
      spawn_process_async_writes sys
        = [HandleWrite.is_running true, HandleWrite.id sys.fork_pid, HandleWrite.id 0,
           HandleWrite.is_running false]) ∧
    (∀ k, (handle_after sys k).is_active = true →
      sys.pipe_fds ≠ none ∧ sys.fork_pid ≠ -1 ∧ sys.fork_pid ≠ 0 ∧
      (handle_after sys k).id = sys.fork_pid ∧ k = 2) := by
  refine ⟨async_writes_parent sys, ?_⟩
  intro k hk
  by_cases hc : sys.pipe_fds = none ∨ sys.fork_pid = -1 ∨ sys.fork_pid = 0
  · exfalso
    unfold handle_after at hk
    rw [async_writes_no_child sys hc] at hk
    rcases k with _ | _ | k <;>
      simp [ProcessHandle.write, ProcessHandle.is_active] at hk
  · have hp : sys.pipe_fds ≠ none := fun h => hc (Or.inl h)
    have h1 : sys.fork_pid ≠ -1 := fun h => hc (Or.inr (Or.inl h))
    have h0 : sys.fork_pid ≠ 0 := fun h => hc (Or.inr (Or.inr h))
    refine ⟨hp, h1, h0, ?_⟩
    unfold handle_after at hk ⊢
    rw [async_writes_parent sys hp h1 h0] at hk ⊢
    rcases k with _ | _ | _ | _ | k <;>
      simp_all [ProcessHandle.write, ProcessHandle.is_active]

/-- Witness for C24 as amended: a spawn whose `fork` returns the pid 1234. -/
theorem C24_handle_writes_witness :
    spawn_process_async_writes ⟨[0, 1, 2], some (3, 4), 1234, fun _ => true, [], 0, true, 0⟩
      = [HandleWrite.is_running true, HandleWrite.id 1234, HandleWrite.id 0,
         HandleWrite.is_running false] ∧
    (handle_after ⟨[0, 1, 2], some (3, 4), 1234, fun _ => true, [], 0, true, 0⟩ 2).id = 1234 :=
  ⟨(C24_handle_writes ⟨[0, 1, 2], some (3, 4), 1234, fun _ => true, [], 0, true, 0⟩).1
     (by decide) (by decide) (by decide),
   ((C24_handle_writes ⟨[0, 1, 2], some (3, 4), 1234, fun _ => true, [], 0, true, 0⟩).2 2
     (by decide)).2.2.2.1⟩

/-- C24, as stated, fails: with the pid 1234, `is_running` is already true after the
first write while `id` is still 0, so the PID is not stored before `is_running` becomes
true; and after the third write `id` is 0 again while `is_running` is still true, so
`is_running` does not become false before `id` is reset. -/
theorem C24_order_counterexample :
    handle_after ⟨[0, 1, 2], some (3, 4), 1234, fun _ => true, [], 0, true, 0⟩ 1
      = { id := 0, is_running := true } ∧
    handle_after ⟨[0, 1, 2], some (3, 4), 1234, fun _ => true, [], 0, true, 0⟩ 2
      = { id := 1234, is_running := true } ∧
    handle_after ⟨[0, 1, 2], some (3, 4), 1234, fun _ => true, [], 0, true, 0⟩ 3
      = { id := 0, is_running := true } ∧
    handle_after ⟨[0, 1, 2], some (3, 4), 1234, fun _ => true, [], 0, true, 0⟩ 4
      = { id := 0, is_running := false } ∧
    ¬ ((spawn_process_async_writes
          ⟨[0, 1, 2], some (3, 4), 1234, fun _ => true, [], 0, true, 0⟩).indexOf (HandleWrite.id 1234)
        < (spawn_process_async_writes
          ⟨[0, 1, 2], some (3, 4), 1234, fun _ => true, [], 0, true, 0⟩).indexOf
            (HandleWrite.is_running true)) ∧
    ¬ ((spawn_process_async_writes
          ⟨[0, 1, 2], some (3, 4), 1234, fun _ => true, [], 0, true, 0⟩).indexOf
            (HandleWrite.is_running false)
        < (spawn_process_async_writes
          ⟨[0, 1, 2], some (3, 4), 1234, fun _ => true, [], 0, true, 0⟩).indexOf (HandleWrite.id 0)) := by
  refine ⟨by decide, by decide, by decide, by decide, by decide, by decide⟩

/-- C25, evaluated on the code: `pipe` stores the descriptors 3 and 4 and `fork` returns
`-1`. The call returns the failure `Failed to fork process` with 3 and 4 still open, where
only 0, 1 and 2 were open before. The parent branch does close both descriptors. -/
theorem C25_fork_failure_leaks_pipe :
    spawn_process_posix linux_WIFEXITED linux_WEXITSTATUS "/bin/echo".toList []
        ⟨[0, 1, 2], some (3, 4), -1, fun _ => true, [], 0, true, 0⟩
      = PosixOutcome.failed "Failed to fork process" [0, 1, 2, 3, 4] ∧
    spawn_process_posix linux_WIFEXITED linux_WEXITSTATUS "/bin/echo".toList []
        ⟨[0, 1, 2], some (3, 4), 1234, fun _ => true, [], 0, true, 0⟩
      = PosixOutcome.returned 0 [] [0, 1, 2] := by
  constructor <;> decide

/-! ### Scoped mapped region -/

theorem unmap_region (r : MemoryMappedRegion) (hr : r.m_ptr = 0 → r.m_size = 0) :
    r.unmap.1 = { m_ptr := 0, m_size := 0 } := by
  unfold MemoryMappedRegion.unmap
  by_cases h : r.m_ptr = 0
  · rw [if_pos h]
    cases r with
    | mk p s =>
      simp only at h hr
      simp [h, hr h]
  · rw [if_neg h]

/-- The region left by `map`: the unmapped one on failure, the new mapping on success. -/
theorem map_region_cases (r : MemoryMappedRegion) (handle : Int) (offset size : Nat)
    (sys : MapCalls) :
    ((∃ message, (r.map handle offset size sys).result = .error message) ∧
      (r.map handle offset size sys).region = r.unmap.1) ∨
    ((r.map handle offset size sys).result = .ok () ∧ size ≠ 0 ∧ handle ≠ -1 ∧
      sys.fstat_ok = true ∧
      ∃ ptr, sys.mmap_result = some ptr ∧
        (r.map handle offset size sys).region = { m_ptr := ptr, m_size := size }) := by
  unfold MemoryMappedRegion.map
  simp only
  split
  · exact Or.inl ⟨⟨_, rfl⟩, rfl⟩
  · split
    · exact Or.inl ⟨⟨_, rfl⟩, rfl⟩
    · split
      · exact Or.inl ⟨⟨_, rfl⟩, rfl⟩
      · split
        · exact Or.inl ⟨⟨_, rfl⟩, rfl⟩
        · rename_i hh hs hf _
          split
          · exact Or.inl ⟨⟨_, rfl⟩, rfl⟩
          · rename_i ptr hm
            refine Or.inr ⟨rfl, hs, hh, ?_, ptr, hm, rfl⟩
            cases h : sys.fstat_ok
            · exact absurd h hf
            · rfl

theorem apply_region_inv (store : RegionStore) (op : RegionOp) (hop : op.mmap_not_null)
    (h : ∀ i, (store i).m_ptr = 0 ↔ (store i).m_size = 0) :
    ∀ i, ((store.apply op) i).m_ptr = 0 ↔ ((store.apply op) i).m_size = 0 := by
  intro i
  cases op with
  | map target handle offset size sys =>
    simp only [RegionStore.apply, Function.update_apply]
    split
    · rcases map_region_cases (store target) handle offset size sys with ⟨_, hr⟩ | ⟨_, hs, _, _, ptr, hm, hr⟩
      · rw [hr, unmap_region _ (h target).1]
      · rw [hr]
        have hp : ptr ≠ 0 := by
          intro e
          apply hop
          rw [hm, e]
        simp [hp, hs]
    · exact h i
  | unmap target =>
    simp only [RegionStore.apply, Function.update_apply]
    split
    · rw [unmap_region _ (h target).1]
    · exact h i
  | flush target =>
    simp only [RegionStore.apply, Function.update_apply]
    split
    · have : (store target).flush.1 = store target := by
        unfold MemoryMappedRegion.flush
        split <;> rfl
      rw [this]
      exact h target
    · exact h i
  | move_construct target source =>
    simp only [RegionStore.apply, move_construct, move_assign]
    split
    · rename_i hne
      simp only [Function.update_apply]
      split
      · simp
      · split
        · simp only [Function.update_apply, if_neg (fun e : source = target => hne e.symm)]
          exact h source
        · exact h i
    · simp only [Function.update_apply]
      split
      · simp [MemoryMappedRegion.fresh]
      · exact h i
  | move_assign target source =>
    simp only [RegionStore.apply, move_assign]
    split
    · simp only [Function.update_apply]
      split
      · simp
      · split
        · exact h source
        · exact h i
    · exact h i

theorem run_region_inv (ops : List RegionOp) : ∀ store : RegionStore,
    (∀ op ∈ ops, op.mmap_not_null) →
    (∀ i, (store i).m_ptr = 0 ↔ (store i).m_size = 0) →
    ∀ i, ((store.run ops) i).m_ptr = 0 ↔ ((store.run ops) i).m_size = 0 := by
  induction ops with
  | nil => intro store _ h; exact h
  | cons op rest ih =>
    intro store hops h
    exact ih (store.apply op) (fun o ho => hops o (List.mem_cons_of_mem _ ho))
      (apply_region_inv store op (hops op (by simp)) h)

/-- C21: starting from default-constructed regions, after every sequence of `map`
(succeeding or failing), `unmap`, `flush`, move construction and move assignment (self
assignment included), every region, target or moved-from source, has
`get_ptr() == nullptr` iff `get_size() == 0`. Further, `flush` changes no field, `unmap`
on an unmapped region changes nothing and calls nothing, self assignment changes nothing,
and after a move assignment from a different region the source is invalid and the target
holds the former pointer and size of the source. -/
theorem C21_region_invariant :
    (∀ (ops : List RegionOp), (∀ op ∈ ops, op.mmap_not_null) → ∀ i : Nat,
      ((RegionStore.run (fun _ => MemoryMappedRegion.fresh) ops) i).get_ptr = 0 ↔
      ((RegionStore.run (fun _ => MemoryMappedRegion.fresh) ops) i).get_size = 0) ∧
    (∀ r : MemoryMappedRegion, r.flush.1 = r) ∧
    (∀ r : MemoryMappedRegion, r.m_ptr = 0 → r.unmap = (r, [])) ∧
    (∀ (store : RegionStore) (target : Nat), move_assign store target target = (store, [])) ∧
    (∀ (store : RegionStore) (target source : Nat), target ≠ source →
      ((move_assign store target source).1 source).is_valid = false ∧
      (move_assign store target source).1 source = MemoryMappedRegion.fresh ∧
      ((move_assign store target source).1 target).get_ptr = (store source).get_ptr ∧
      ((move_assign store target source).1 target).get_size = (store source).get_size ∧
      (∀ i, i ≠ target → i ≠ source → (move_assign store target source).1 i = store i)) := by
  refine ⟨?_, ?_, ?_, ?_, ?_⟩
  · intro ops hops i
    exact run_region_inv ops _ hops (fun _ => by simp [MemoryMappedRegion.fresh]) i
  · intro r
    unfold MemoryMappedRegion.flush
    split <;> rfl
  · intro r h
    simp [MemoryMappedRegion.unmap, h]
  · intro store target
    simp [move_assign]
  · intro store target source hne
    have hsrc : (move_assign store target source).1 source = MemoryMappedRegion.fresh := by
      simp [move_assign, hne, MemoryMappedRegion.fresh]
    have htgt : (move_assign store target source).1 target
        = { m_ptr := (store source).m_ptr, m_size := (store source).m_size } := by
      simp [move_assign, hne, Function.update_apply]
    refine ⟨?_, hsrc, ?_, ?_, ?_⟩
    · rw [hsrc]; rfl
    · rw [htgt]
    · rw [htgt]
    · intro i h1 h2
      simp [move_assign, hne, Function.update_apply, h1, h2]

/-- Witness for C21: the region 1 is mapped at the address 8192, moved to the region 2,
and the region 1 is flushed and unmapped. -/
theorem C21_region_invariant_witness :
    (((RegionStore.run (fun _ => MemoryMappedRegion.fresh)
        [RegionOp.map 1 3 0 100 ⟨50, true, true, some 8192, 0⟩, RegionOp.move_assign 2 1,
         RegionOp.flush 1, RegionOp.unmap 1]) 2).get_ptr = 0 ↔
      ((RegionStore.run (fun _ => MemoryMappedRegion.fresh)
        [RegionOp.map 1 3 0 100 ⟨50, true, true, some 8192, 0⟩, RegionOp.move_assign 2 1,
         RegionOp.flush 1, RegionOp.unmap 1]) 2).get_size = 0) ∧
    MemoryMappedRegion.unmap ⟨0, 0⟩ = (⟨0, 0⟩, []) ∧
    ((move_assign (fun i => if i = 1 then ⟨8192, 100⟩ else ⟨0, 0⟩) 2 1).1 2).get_ptr
      = ((fun i => if i = 1 then (⟨8192, 100⟩ : MemoryMappedRegion) else ⟨0, 0⟩) 1).get_ptr :=
  ⟨C21_region_invariant.1
     [RegionOp.map 1 3 0 100 ⟨50, true, true, some 8192, 0⟩, RegionOp.move_assign 2 1,
      RegionOp.flush 1, RegionOp.unmap 1]
     (by
       intro op hop
       simp only [List.mem_cons, List.mem_singleton, List.not_mem_nil, or_false] at hop
       rcases hop with h | h | h | h <;> subst h <;> simp [RegionOp.mmap_not_null]) 2,
   C21_region_invariant.2.2.1 ⟨0, 0⟩ rfl,
   (C21_region_invariant.2.2.2.2 (fun i => if i = 1 then ⟨8192, 100⟩ else ⟨0, 0⟩) 2 1
     (by decide)).2.2.1⟩

/-- C26: `map` releases the current mapping first, before it looks at its arguments: the
calls it makes begin with those of `unmap`. Every failing call, whether for an invalid
handle, a size of 0, a failing `fstat`, a failing `ftruncate` or a failing `mmap`, leaves
the region with `get_ptr() == nullptr`, `get_size() == 0` and `is_valid() == false`,
whether it was mapped or not; a mapping held before has been passed to `munmap`. -/
theorem C26_map_failure (r : MemoryMappedRegion) (hr : r.m_ptr = 0 ↔ r.m_size = 0)
    (handle : Int) (offset size : Nat) (sys : MapCalls) :
    r.unmap.2 <+: (r.map handle offset size sys).calls ∧
    (r.m_ptr ≠ 0 → r.unmap.2 = [RegionCall.munmap r.m_ptr r.m_size]) ∧
    (∀ message, (r.map handle offset size sys).result = .error message →
      (r.map handle offset size sys).region.get_ptr = 0 ∧
      (r.map handle offset size sys).region.get_size = 0 ∧
      (r.map handle offset size sys).region.is_valid = false) ∧
    (handle = -1 →
      (r.map handle offset size sys).result = .error "Invalid file handle provided to Map") ∧
    (handle ≠ -1 → size = 0 →
      (r.map handle offset size sys).result = .error "Cannot map region of size 0") ∧
    (handle ≠ -1 → size ≠ 0 → sys.fstat_ok = false →
      (r.map handle offset size sys).result = .error "Failed to fstat file") ∧
    (handle ≠ -1 → size ≠ 0 → sys.fstat_ok = true →
      sys.file_length < (offset + size) % 2 ^ 64 → sys.ftruncate_ok = false →
      (r.map handle offset size sys).result = .error "Failed to ftruncate (extend) file") ∧
    (handle ≠ -1 → size ≠ 0 → sys.fstat_ok = true →
      (sys.file_length < (offset + size) % 2 ^ 64 → sys.ftruncate_ok = true ∧
        ¬ to_off_t ((offset + size) % 2 ^ 64) < 0) →
      sys.mmap_result = none →
      (r.map handle offset size sys).result
        = .error ("mmap failed: " ++ toString sys.mmap_errno)) := by
  refine ⟨?_, ?_, ?_, ?_, ?_, ?_, ?_, ?_⟩
  · unfold MemoryMappedRegion.map
    simp only
    split
    · exact List.prefix_refl _
    · split
      · exact List.prefix_refl _
      · split
        · exact List.prefix_append _ _
        · split
          · rw [List.append_assoc]; exact List.prefix_append _ _
          · split
            · rw [List.append_assoc, List.append_assoc]; exact List.prefix_append _ _
            · rw [List.append_assoc, List.append_assoc, List.append_assoc]
              exact List.prefix_append _ _
  · intro h
    simp [MemoryMappedRegion.unmap, h]
  · intro message hm
    rcases map_region_cases r handle offset size sys with ⟨_, hreg⟩ | ⟨hok, _⟩
    · rw [hreg, unmap_region r hr.1]
      exact ⟨rfl, rfl, rfl⟩
    · rw [hok] at hm
      exact absurd hm (by simp)
  · intro h
    simp [MemoryMappedRegion.map, h]
  · intro h1 h2
    simp [MemoryMappedRegion.map, h1, h2]
  · intro h1 h2 h3
    simp [MemoryMappedRegion.map, h1, h2, h3]
  · intro h1 h2 h3 h4 h5
    have e : (2 : Nat) ^ 64 = 18446744073709551616 := by norm_num
    rw [e] at h4
    simp [MemoryMappedRegion.map, h1, h2, h3, h4, h5]
  · intro h1 h2 h3 h4 h5
    have e : (2 : Nat) ^ 64 = 18446744073709551616 := by norm_num
    rw [e] at h4
    unfold MemoryMappedRegion.map
    simp only [h1, h2, h3, h5, if_false]
    by_cases hx : sys.file_length < (offset + size) % 18446744073709551616
    · obtain ⟨h6, h7⟩ := h4 hx
      simp [hx, h6, h7]
    · simp [hx]

/-- Witness for C26: a region mapped at 4096 and a call whose `mmap` fails. -/
theorem C26_map_failure_witness :
    ((4096 = 0 ↔ 10 = 0)) ∧
    (MemoryMappedRegion.map ⟨4096, 10⟩ 3 0 100 ⟨50, true, true, none, 12⟩).result
      = .error ("mmap failed: " ++ toString 12) ∧
    (MemoryMappedRegion.map ⟨4096, 10⟩ 3 0 100 ⟨50, true, true, none, 12⟩).region.get_ptr = 0 ∧
    (MemoryMappedRegion.unmap ⟨4096, 10⟩).2 = [RegionCall.munmap 4096 10] :=
  ⟨by decide,
   (C26_map_failure ⟨4096, 10⟩ (by decide) 3 0 100 ⟨50, true, true, none, 12⟩).2.2.2.2.2.2.2
     (by decide) (by decide) rfl (fun _ => ⟨rfl, by decide⟩) rfl,
   ((C26_map_failure ⟨4096, 10⟩ (by decide) 3 0 100 ⟨50, true, true, none, 12⟩).2.2.1
     ("mmap failed: " ++ toString 12) rfl).1,
   (C26_map_failure ⟨4096, 10⟩ (by decide) 3 0 100 ⟨50, true, true, none, 12⟩).2.1
     (by decide)⟩

/-- `map` once its arguments are accepted, `fstat` has succeeded and `offset + size` does
not wrap around: the three ways it ends. -/
theorem map_accepted (r : MemoryMappedRegion) (handle : Int) (offset size : Nat)
    (sys : MapCalls) (hh : handle ≠ -1) (hs : size ≠ 0) (hsum : offset + size < 2 ^ 64)
    (hf : sys.fstat_ok = true) :
    (sys.file_length < offset + size ∧
      (sys.ftruncate_ok = false ∨ to_off_t (offset + size) < 0) ∧
      (r.map handle offset size sys).result = .error "Failed to ftruncate (extend) file" ∧
      (r.map handle offset size sys).file_length = sys.file_length) ∨
    (sys.file_length < offset + size ∧
      (r.map handle offset size sys).file_length = offset + size ∧
      ((r.map handle offset size sys).result = .ok () ↔ sys.mmap_result ≠ none) ∧
      ∃ rest, (r.map handle offset size sys).calls
        = r.unmap.2 ++ [RegionCall.fstat handle,
            RegionCall.ftruncate handle (to_off_t (offset + size)),
            RegionCall.mmap size handle (to_off_t offset)] ++ rest) ∨
    (offset + size ≤ sys.file_length ∧
      (r.map handle offset size sys).file_length = sys.file_length ∧
      ((r.map handle offset size sys).result = .ok () ↔ sys.mmap_result ≠ none) ∧
      ∃ rest, (r.map handle offset size sys).calls
        = r.unmap.2 ++ [RegionCall.fstat handle,
            RegionCall.mmap size handle (to_off_t offset)] ++ rest) := by
  have hmod : (offset + size) % 2 ^ 64 = offset + size := Nat.mod_eq_of_lt hsum
  unfold MemoryMappedRegion.map
  simp only [hmod, if_neg hh, if_neg hs, hf, Bool.true_eq_false, if_false]
  by_cases hx : sys.file_length < offset + size
  · by_cases hfail : sys.ftruncate_ok = false ∨ to_off_t (offset + size) < 0
    · refine Or.inl ⟨hx, hfail, ?_, ?_⟩
      · rcases hfail with h | h <;> simp [hx, h]
      · rcases hfail with h | h <;> simp [hx, h]
    · have h1 : sys.ftruncate_ok = true := by
        cases h : sys.ftruncate_ok
        · exact absurd (Or.inl h) hfail
        · rfl
      have h2 : ¬ to_off_t (offset + size) < 0 := fun h => hfail (Or.inr h)
      refine Or.inr (Or.inl ⟨hx, ?_, ?_, ?_⟩)
      · cases hm : sys.mmap_result <;> simp [hx, h1, h2]
      · cases hm : sys.mmap_result <;> simp [hx, h1, h2]
      · cases hm : sys.mmap_result with
        | none => exact ⟨[], by simp [hx, h1, h2]⟩
        | some ptr => exact ⟨[RegionCall.madvise ptr size], by simp [hx, h1, h2]⟩
  · refine Or.inr (Or.inr ⟨by omega, ?_, ?_, ?_⟩)
    · cases hm : sys.mmap_result <;> simp [hx]
    · cases hm : sys.mmap_result <;> simp [hx]
    · cases hm : sys.mmap_result with
      | none => exact ⟨[], by simp [hx]⟩
      | some ptr => exact ⟨[RegionCall.madvise ptr size], by simp [hx]⟩

/-- C22, as amended: for a valid handle, `size > 0`, an `offset` with
`offset + size < 2^64`, a succeeding `fstat` and every file length `L`: when
`offset + size` exceeds `L`, `map` calls `ftruncate(handle, offset + size)` before `mmap`,
so that either the call fails there with the length still `L`, or the file has exactly
the length `offset + size` when `mmap` is called; when it does not exceed `L`, no
`ftruncate` is called and the length stays `L`. So after a successful `map` the file
length is `max(L, offset + size)`, the mapped range `[offset, offset + size)` lies inside
the file, and the region holds the new mapping of `size` bytes. -/
theorem C22_map_extends (r : MemoryMappedRegion) (handle : Int) (offset size : Nat)
    (sys : MapCalls) (hh : handle ≠ -1) (hs : size ≠ 0) (hsum : offset + size < 2 ^ 64)
    (hf : sys.fstat_ok = true) :
    (sys.file_length < offset + size →
      ((r.map handle offset size sys).result = .error "Failed to ftruncate (extend) file" ∧
        (r.map handle offset size sys).file_length = sys.file_length) ∨
      ((r.map handle offset size sys).file_length = offset + size ∧
        ∃ rest, (r.map handle offset size sys).calls
          = r.unmap.2 ++ [RegionCall.fstat handle,
              RegionCall.ftruncate handle (to_off_t (offset + size)),
              RegionCall.mmap size handle (to_off_t offset)] ++ rest)) ∧
    (offset + size ≤ sys.file_length →
      (r.map handle offset size sys).file_length = sys.file_length ∧
      ∃ rest, (r.map handle offset size sys).calls
        = r.unmap.2 ++ [RegionCall.fstat handle,
            RegionCall.mmap size handle (to_off_t offset)] ++ rest) ∧
    ((r.map handle offset size sys).result = .ok () →
      (r.map handle offset size sys).file_length = max sys.file_length (offset + size) ∧
      offset + size ≤ (r.map handle offset size sys).file_length ∧
      (r.map handle offset size sys).region.get_size = size ∧
      sys.mmap_result = some (r.map handle offset size sys).region.get_ptr) := by
  have key := map_accepted r handle offset size sys hh hs hsum hf
  refine ⟨?_, ?_, ?_⟩
  · intro hx
    rcases key with ⟨_, _, h1, h2⟩ | ⟨_, h1, _, h2⟩ | ⟨h0, _⟩
    · exact Or.inl ⟨h1, h2⟩
    · exact Or.inr ⟨h1, h2⟩
    · omega
  · intro hx
    rcases key with ⟨h0, _⟩ | ⟨h0, _⟩ | ⟨_, h1, _, h2⟩
    · omega
    · omega
    · exact ⟨h1, h2⟩
  · intro hok
    have hreg : (r.map handle offset size sys).region.get_size = size ∧
        sys.mmap_result = some (r.map handle offset size sys).region.get_ptr := by
      rcases map_region_cases r handle offset size sys with ⟨⟨m, hm⟩, _⟩ | ⟨_, _, _, _, ptr, hp, hr⟩
      · rw [hm] at hok
        exact absurd hok (by simp)
      · rw [hr]
        exact ⟨rfl, hp⟩
    rcases key with ⟨_, _, h1, _⟩ | ⟨h0, h1, _, _⟩ | ⟨h0, h1, _, _⟩
    · rw [h1] at hok
      exact absurd hok (by simp)
    · rw [h1]
      exact ⟨by omega, by omega, hreg⟩
    · rw [h1]
      exact ⟨by omega, by omega, hreg⟩

/-- Witness for C22 as amended: a file of 50 bytes mapped at the offset 4096 for 100 bytes. -/
theorem C22_map_extends_witness :
    (MemoryMappedRegion.map ⟨0, 0⟩ 3 4096 100 ⟨50, true, true, some 8192, 0⟩).file_length
      = max 50 (4096 + 100) ∧
    4096 + 100 ≤
      (MemoryMappedRegion.map ⟨0, 0⟩ 3 4096 100 ⟨50, true, true, some 8192, 0⟩).file_length :=
  ⟨((C22_map_extends ⟨0, 0⟩ 3 4096 100 ⟨50, true, true, some 8192, 0⟩ (by decide) (by decide)
      (by decide) rfl).2.2 rfl).1,
   ((C22_map_extends ⟨0, 0⟩ 3 4096 100 ⟨50, true, true, some 8192, 0⟩ (by decide) (by decide)
      (by decide) rfl).2.2 rfl).2.1⟩

/-- C22, as stated, fails when `offset + size` wraps around `2^64`: for the offset
`2^64 - 4096`, the size 8192 and an empty file, `offset + size` exceeds the length 0, and
the code extends the file to 4096 bytes, not to `offset + size`. -/
theorem C22_wraparound_counterexample :
    (0 : Nat) < (2 ^ 64 - 4096) + 8192 ∧
    (MemoryMappedRegion.map ⟨0, 0⟩ 3 (2 ^ 64 - 4096) 8192
      ⟨0, true, true, none, 22⟩).file_length = 4096 ∧
    (MemoryMappedRegion.map ⟨0, 0⟩ 3 (2 ^ 64 - 4096) 8192
      ⟨0, true, true, none, 22⟩).file_length ≠ (2 ^ 64 - 4096) + 8192 ∧
    (MemoryMappedRegion.map ⟨0, 0⟩ 3 (2 ^ 64 - 4096) 8192 ⟨0, true, true, none, 22⟩).calls
      = [RegionCall.fstat 3, RegionCall.ftruncate 3 4096, RegionCall.mmap 8192 3 (-4096)] := by
  refine ⟨by decide, by decide, by decide, by decide⟩

/-! ### Normalising twice -/

theorem takeWhile_append_stop (f : Char → Bool) (c : Char) (hc : f c = false)
    (r : List Char) : ∀ a : List Char, (a ++ c :: r).takeWhile f = a.takeWhile f := by
  intro a
  induction a with
  | nil => simp [List.takeWhile, hc]
  | cons x rest ih =>
    simp only [List.cons_append, List.takeWhile_cons]
    split
    · rw [ih]
    · rfl

/-- The filename of a path is that of its part after a `'/'`. -/
theorem path_filename_after_slash (pre p : List Char) :
    path_filename (pre ++ '/' :: p) = path_filename p := by
  unfold path_filename
  rw [List.reverse_append, List.reverse_cons, List.append_assoc, List.singleton_append,
    takeWhile_append_stop _ '/' (by decide)]

theorem path_extension_dot_slash (p : List Char) :
    path_extension ("./".toList ++ p) = path_extension p := by
  have h : path_filename ("./".toList ++ p) = path_filename p :=
    path_filename_after_slash ['.'] p
  unfold path_extension
  rw [h]

/-- `normalize_executable_path` written with its two tests as one condition. -/
theorem normalize_eq (p : List Char) :
    normalize_executable_path p
      = (if path_is_relative
              (if path_extension p = ".exe".toList then path_remove_extension p else p) = true
            ∧ ¬ "./".toList <+: (if path_extension p = ".exe".toList then
                  path_remove_extension p else p)
            ∧ ¬ "../".toList <+: (if path_extension p = ".exe".toList then
                  path_remove_extension p else p)
         then "./".toList
            ++ (if path_extension p = ".exe".toList then path_remove_extension p else p)
         else (if path_extension p = ".exe".toList then path_remove_extension p else p)) :=
  normalize_choice _

/-- A relative result of `normalize_executable_path` starts with `./` or `../`. -/
theorem normalize_relative_start (p : List Char)
    (h : path_is_relative (normalize_executable_path p) = true) :
    "./".toList <+: normalize_executable_path p ∨ "../".toList <+: normalize_executable_path p := by
  rw [normalize_eq] at h ⊢
  generalize (if path_extension p = ".exe".toList then path_remove_extension p else p) = q at h ⊢
  by_cases hc : path_is_relative q = true ∧ ¬ "./".toList <+: q ∧ ¬ "../".toList <+: q
  · rw [if_pos hc]
    exact Or.inl (List.prefix_append _ _)
  · rw [if_neg hc] at h ⊢
    by_cases h1 : "./".toList <+: q
    · exact Or.inl h1
    · by_cases h2 : "../".toList <+: q
      · exact Or.inr h2
      · exact absurd ⟨h, h1, h2⟩ hc

/-- A path without the extension `.exe` that is absolute or starts with `./` or `../` is
returned as it is. -/
theorem normalize_fixed (q : List Char) (hext : path_extension q ≠ ".exe".toList)
    (hrel : path_is_relative q = true → "./".toList <+: q ∨ "../".toList <+: q) :
    normalize_executable_path q = q := by
  rw [normalize_eq, if_neg hext, if_neg]
  rintro ⟨h0, h1, h2⟩
  rcases hrel h0 with h | h
  · exact h1 h
  · exact h2 h

/-- A path with the extension `.exe` is not returned as it is. -/
theorem normalize_moves (q : List Char) (hext : path_extension q = ".exe".toList) :
    normalize_executable_path q ≠ q := by
  have happ := path_remove_extension_append q
  rw [hext] at happ
  have hlen : q.length = (path_remove_extension q).length + 4 := by
    have := congrArg List.length happ
    simp only [List.length_append] at this
    rw [← this]
    rfl
  intro heq
  rw [normalize_eq, if_pos hext] at heq
  have := congrArg List.length heq
  split at this
  · simp only [List.length_append] at this
    have h2 : "./".toList.length = 2 := rfl
    omega
  · omega

/-- C27, as amended: `normalize_executable_path` applied twice gives the same as applied
once exactly for the paths whose normalised form does not have the extension `.exe`
itself; this covers every path whose extension is not `.exe`. -/
theorem C27_normalize_twice (p : List Char) :
    (normalize_executable_path (normalize_executable_path p) = normalize_executable_path p
      ↔ path_extension (normalize_executable_path p) ≠ ".exe".toList) ∧
    (path_extension p ≠ ".exe".toList →
      normalize_executable_path (normalize_executable_path p) = normalize_executable_path p) := by
  have hiff : normalize_executable_path (normalize_executable_path p)
        = normalize_executable_path p
      ↔ path_extension (normalize_executable_path p) ≠ ".exe".toList := by
    constructor
    · intro h hext
      exact normalize_moves _ hext h
    · intro hext
      exact normalize_fixed _ hext (normalize_relative_start p)
  refine ⟨hiff, ?_⟩
  intro hext
  rw [hiff]
  have hn : normalize_executable_path p = p ∨ normalize_executable_path p = "./".toList ++ p := by
    rw [normalize_eq, if_neg hext]
    split
    · exact Or.inr rfl
    · exact Or.inl rfl
  rcases hn with h | h
  · rw [h]; exact hext
  · rw [h, path_extension_dot_slash]; exact hext

/-- Witness for C27 as amended: `tool.exe`, whose normalised form `./tool` has no
extension, and `lib/tool`. -/
theorem C27_normalize_twice_witness :
    normalize_executable_path (normalize_executable_path "tool.exe".toList)
      = normalize_executable_path "tool.exe".toList ∧
    normalize_executable_path (normalize_executable_path "lib/tool".toList)
      = normalize_executable_path "lib/tool".toList :=
  ⟨(C27_normalize_twice "tool.exe".toList).1.2 (by decide),
   (C27_normalize_twice "lib/tool".toList).2 (by decide)⟩

/-- C27, as stated, fails for `a.exe.exe`: one application gives `./a.exe`, a second one
gives `./a`. -/
theorem C27_double_exe_counterexample :
    normalize_executable_path "a.exe.exe".toList = "./a.exe".toList ∧
    normalize_executable_path (normalize_executable_path "a.exe.exe".toList) = "./a".toList ∧
    normalize_executable_path (normalize_executable_path "a.exe.exe".toList)
      ≠ normalize_executable_path "a.exe.exe".toList := by
  refine ⟨by decide, by decide, by decide⟩

end ia
